import Mathlib

/-!
# Web-server log analyzer: JSON value model, parser, serializer and record conversion

A shallow embedding of `src/json_parser.cpp`, `include/json_parser.h`, `src/log_entry.cpp`,
`include/log_entry.h` and the ranking functions of `src/analyzer.cpp`.

* A `std::string` is a `List Char`, one `Char` per byte; `jsonStr[pos]` is `charAt`, which
  yields the terminating NUL at `pos = size`, as `std::string::operator[]` does.
* The cursor `size_t& pos` is threaded explicitly: a function taking `pos` by reference
  returns the new cursor next to its result.
* C++ exceptions are values of `Exn` carried by `Except`.
* `while` loops are recursive functions on a budget fixed from the remaining input; the
  recursion of `parseValue` through `parseObject` and `parseArray` is on a nesting budget.
* A `double` payload is kept as the exact decimal value of the token it was read from
  (`Decimal`); binary rounding and range errors of `std::stod` are outside the embedding.
* An `int` is an `Int`; a `std::regex` is the sequence of its atoms, matched as the
  ECMAScript grammar prescribes.
* What the library leaves open (the iteration order of `std::unordered_map`, the order
  `std::sort` gives to equal elements) is a parameter of the embedded function.
-/

namespace WebLog

/-! ## Characters and strings -/

/-- Character stored at `pos` of a `std::string`: the byte itself inside the string and
NUL at `pos = size()`. -/
def charAt (s : List Char) (pos : Nat) : Char := s.getD pos (Char.ofNat 0)

/-- The C library `isspace` in the "C" locale: space, `\t`, `\n`, `\v`, `\f`, `\r`. -/
def isspace (c : Char) : Bool :=
  c = ' ' || c = '\t' || c = '\n' || c = Char.ofNat 11 || c = Char.ofNat 12 || c = '\r'

/-- The C library `isdigit`: the ten decimal digits. -/
def isdigit (c : Char) : Bool := decide ('0' ≤ c) && decide (c ≤ '9')

/-- The C library `toupper` in the "C" locale. -/
def toupper (c : Char) : Char :=
  if decide ('a' ≤ c) && decide (c ≤ 'z') then Char.ofNat (c.toNat - 32) else c

/-- Comparison `operator<` of `std::string`: lexicographic on byte values. -/
def strLt : List Char → List Char → Bool
  | [], [] => false
  | [], _ :: _ => true
  | _ :: _, [] => false
  | a :: as, b :: bs =>
    if a.toNat < b.toNat then true
    else if b.toNat < a.toNat then false
    else strLt as bs

/-- Comparison `operator>` of `std::string`. -/
def strGt (a b : List Char) : Bool := strLt b a

/-- Comparison `operator<=` of `std::string`. -/
def strLe (a b : List Char) : Bool := !strLt b a

/-- Comparison `operator>=` of `std::string`. -/
def strGe (a b : List Char) : Bool := !strLt a b

/-- The call `s.substr(pos, count)` for `pos <= s.size()`. -/
def substr (s : List Char) (pos count : Nat) : List Char := (s.drop pos).take count

/-- Search of `std::string::find`: the positions `pos`, `pos + 1`, ... are tried in turn,
`budget` of them. -/
def findLoop (s pat : List Char) : Nat → Nat → Option Nat
  | 0, _ => none
  | budget + 1, pos =>
    if substr s pos pat.length = pat then some pos else findLoop s pat budget (pos + 1)

/-- The call `s.find(pat, pos)`: the least position from `pos` on at which `pat` occurs
in `s`; `none` stands for `npos`. The positions `pos .. s.size()` are the candidates. -/
def strFind (s pat : List Char) (pos : Nat) : Option Nat :=
  findLoop s pat (s.length + 1 - pos) pos

/-- Value of a run of decimal digits, most significant first. -/
def natOfDigits (ds : List Char) : Nat :=
  ds.foldl (fun acc c => acc * 10 + (c.toNat - 48)) 0

/-! ## Numbers -/

/-- Exact decimal value `mantissa * 10 ^ exponent`; in normal form the mantissa is not a
multiple of ten, and zero is `0 * 10 ^ 0`. -/
structure Decimal where
  mantissa : Int
  exponent : Int
deriving DecidableEq, Repr

/-- Normal form of `m * 10 ^ e`: trailing zeros of the mantissa move into the exponent. -/
def Decimal.normalize : Nat → Int → Int → Decimal
  | 0, m, e => ⟨m, e⟩
  | fuel + 1, m, e =>
    if m = 0 then ⟨0, 0⟩
    else if m % 10 = 0 then Decimal.normalize fuel (m / 10) (e + 1)
    else ⟨m, e⟩

/-- Decimal value of sign, digit string and power of ten, in normal form. -/
def Decimal.ofParts (negative : Bool) (digits : List Char) (exponent : Int) : Decimal :=
  let m : Int := natOfDigits digits
  Decimal.normalize digits.length (if negative then -m else m) exponent

/-- The integer part of a number: the value rounded toward zero. -/
def Decimal.truncate (d : Decimal) : Int :=
  if 0 ≤ d.exponent then d.mantissa * 10 ^ d.exponent.toNat
  else Int.tdiv d.mantissa (10 ^ (-d.exponent).toNat)

/-- The conversion `static_cast<int>` of a `double` into the 32-bit `int`: the integer part
of the number when it lies between -2147483648 and 2147483647. For an integer part outside
this range C++ leaves the conversion undefined; the conversion instruction of x86
(`cvttsd2si`), to which the cast is compiled, yields -2147483648 for every such number, and
this is the value given here. -/
def Decimal.toInt (d : Decimal) : Int :=
  let t := d.truncate
  if -2147483648 ≤ t ∧ t ≤ 2147483647 then t else -2147483648

/-- The library call `std::stod` on a token scanned by `parseNumber` (optional `-`, digits,
optional `.` and digits, optional `e`/`E`, sign and digits). As `strtod`, it converts the
longest prefix that is a number: at least one digit is needed in the mantissa, and an
exponent counts only when it has a digit. `none` stands for `std::invalid_argument`. -/
def stod (numStr : List Char) : Option Decimal :=
  let negative := numStr.head? = some '-'
  let s1 := if negative then numStr.drop 1 else numStr
  let intDigits := s1.takeWhile isdigit
  let s2 := s1.dropWhile isdigit
  let hasPoint := s2.head? = some '.'
  let fracDigits := if hasPoint then (s2.drop 1).takeWhile isdigit else []
  let s3 := if hasPoint then (s2.drop 1).dropWhile isdigit else s2
  if intDigits.isEmpty && fracDigits.isEmpty then none
  else
    let hasExp := s3.head? = some 'e' || s3.head? = some 'E'
    let s4 := s3.drop 1
    let expNegative := s4.head? = some '-'
    let s5 := if s4.head? = some '+' || s4.head? = some '-' then s4.drop 1 else s4
    let expDigits := s5.takeWhile isdigit
    let exp : Int :=
      if hasExp && !expDigits.isEmpty then
        (if expNegative then -(natOfDigits expDigits : Int) else natOfDigits expDigits)
      else 0
    some (Decimal.ofParts negative (intDigits ++ fracDigits) (exp - fracDigits.length))

/-! ## Value model -/

/-- The struct `JsonValue`: the tag `JsonType` together with the payload of that tag. An
object is the `std::map<std::string, JsonValue>` as its key-ordered list of entries. -/
inductive JsonValue where
  | null
  | boolean (boolValue : Bool)
  | number (numberValue : Decimal)
  | string (stringValue : List Char)
  | array (arrayValue : List JsonValue)
  | object (objectValue : List (List Char × JsonValue))
deriving Repr

/-- The exception `JsonParseException(msg, pos, ctx)`. -/
structure JsonParseException where
  message : String
  position : Nat
  context : List Char
deriving DecidableEq, Repr

/-- Exceptions raised by the embedded code. -/
inductive Exn where
  /-- A `JsonParseException`. -/
  | jsonParse (e : JsonParseException)
  /-- A `std::runtime_error` with its message. -/
  | runtimeError (what : String)
  /-- A `std::out_of_range` (from `std::map::at` or `std::stoi`). -/
  | outOfRange
  /-- A `std::invalid_argument` (from `std::stoi`). -/
  | invalidArgument
  /-- A `LogValidationException` with its message. -/
  | logValidation (what : String)
  /-- A `JsonFileException` for the file of the given name. -/
  | jsonFile (filename : List Char)
  /-- Not a C++ exception: the recursion budget of the embedding ran out. -/
  | budget
deriving DecidableEq, Repr

/-- Assignment `obj[key] = value` on a `std::map`: insert in key order, or overwrite. -/
def mapSet (key : List Char) (value : JsonValue) :
    List (List Char × JsonValue) → List (List Char × JsonValue)
  | [] => [(key, value)]
  | (k, v) :: rest =>
    if strLt key k then (key, value) :: (k, v) :: rest
    else if strLt k key then (k, v) :: mapSet key value rest
    else (k, value) :: rest

/-- Lookup `std::map::find`. -/
def mapFind (key : List Char) : List (List Char × JsonValue) → Option JsonValue
  | [] => none
  | (k, v) :: rest => if k = key then some v else mapFind key rest

/-- Lookup `std::map::at`: throws `std::out_of_range` on a missing key. -/
def mapAt (obj : List (List Char × JsonValue)) (key : List Char) : Except Exn JsonValue :=
  match mapFind key obj with
  | some v => .ok v
  | none => .error Exn.outOfRange

namespace JsonValue

def isNull : JsonValue → Bool
  | .null => true
  | _ => false

def isBoolean : JsonValue → Bool
  | .boolean _ => true
  | _ => false

def isNumber : JsonValue → Bool
  | .number _ => true
  | _ => false

def isString : JsonValue → Bool
  | .string _ => true
  | _ => false

def isArray : JsonValue → Bool
  | .array _ => true
  | _ => false

def isObject : JsonValue → Bool
  | .object _ => true
  | _ => false

def asString : JsonValue → Except Exn (List Char)
  | .string s => .ok s
  | _ => .error (Exn.runtimeError "Не строковый тип")

def asNumber : JsonValue → Except Exn Decimal
  | .number n => .ok n
  | _ => .error (Exn.runtimeError "Не числовой тип")

def asBoolean : JsonValue → Except Exn Bool
  | .boolean b => .ok b
  | _ => .error (Exn.runtimeError "Не логический тип")

/-- The const `operator[](const std::string& key)`. -/
def atKey (v : JsonValue) (key : List Char) : Except Exn JsonValue :=
  match v with
  | .object objectValue =>
    match mapFind key objectValue with
    | none => .error (Exn.runtimeError ("Ключ не найден: " ++ String.mk key))
    | some second => .ok second
  | _ => .error (Exn.runtimeError "Не объектный тип")

/-- The `operator[](size_t index)`, const or not. -/
def atIndex (v : JsonValue) (index : Nat) : Except Exn JsonValue :=
  match v with
  | .array arrayValue =>
    if h : index < arrayValue.length then .ok (arrayValue.get ⟨index, h⟩)
    else .error (Exn.runtimeError "Индекс вне диапазона")
  | _ => .error (Exn.runtimeError "Не массив")

def size : JsonValue → Nat
  | .array arrayValue => arrayValue.length
  | .object objectValue => objectValue.length
  | _ => 0

def empty (v : JsonValue) : Bool := v.size == 0

end JsonValue

/-! ## Parser (`JsonParser`) -/

namespace JsonParser

/-- Result of a parsing function that advances the cursor: the value and the new `pos`. -/
abbrev Parsed (α : Type) := Except Exn (α × Nat)

/-- Statement `throw JsonParseException(msg, pos, ctx)`. -/
def throwParse {α : Type} (msg : String) (pos : Nat) (ctx : List Char) : Except Exn α :=
  .error (Exn.jsonParse ⟨msg, pos, ctx⟩)

/-- Loop of `skipWhitespace`; every iteration advances `pos`, so the budget
`size - pos` is never the reason to stop. -/
def skipWhitespaceLoop (jsonStr : List Char) : Nat → Nat → Nat
  | 0, pos => pos
  | fuel + 1, pos =>
    if pos < jsonStr.length && isspace (charAt jsonStr pos) then
      skipWhitespaceLoop jsonStr fuel (pos + 1)
    else pos

def skipWhitespace (jsonStr : List Char) (pos : Nat) : Nat :=
  skipWhitespaceLoop jsonStr (jsonStr.length - pos) pos

/-- The loops `while (pos < size && isdigit(jsonStr[pos])) pos++` of `parseNumber`. -/
def skipDigitsLoop (jsonStr : List Char) : Nat → Nat → Nat
  | 0, pos => pos
  | fuel + 1, pos =>
    if pos < jsonStr.length && isdigit (charAt jsonStr pos) then
      skipDigitsLoop jsonStr fuel (pos + 1)
    else pos

def skipDigits (jsonStr : List Char) (pos : Nat) : Nat :=
  skipDigitsLoop jsonStr (jsonStr.length - pos) pos

def parseEscapeSequence (jsonStr : List Char) (pos : Nat) : Parsed Char :=
  let c := charAt jsonStr pos
  let pos := pos + 1
  if c = '"' then .ok ('"', pos)
  else if c = '\\' then .ok ('\\', pos)
  else if c = '/' then .ok ('/', pos)
  else if c = 'b' then .ok (Char.ofNat 8, pos)
  else if c = 'f' then .ok (Char.ofNat 12, pos)
  else if c = 'n' then .ok ('\n', pos)
  else if c = 'r' then .ok ('\r', pos)
  else if c = 't' then .ok ('\t', pos)
  else if c = 'u' then
    if pos + 3 ≥ jsonStr.length then
      throwParse "Неполная Unicode последовательность" pos []
    else .ok ('?', pos + 4)
  else throwParse "Неизвестная escape-последовательность" (pos - 1) [c]

/-- Loop of `parseString`. Every iteration advances `pos`, so with the budget
`size + 1 - pos` the first clause is not reached. -/
def parseStringLoop (jsonStr : List Char) : Nat → Nat → List Char → Parsed (List Char)
  | 0, _, _ => .error Exn.budget
  | fuel + 1, pos, str =>
    if pos < jsonStr.length && charAt jsonStr pos != '"' then
      if charAt jsonStr pos = '\\' then
        let pos := pos + 1
        if pos ≥ jsonStr.length then
          throwParse "Незавершенная escape-последовательность" pos []
        else
          match parseEscapeSequence jsonStr pos with
          | .error e => .error e
          | .ok (c, pos) => parseStringLoop jsonStr fuel pos (str ++ [c])
      else parseStringLoop jsonStr fuel (pos + 1) (str ++ [charAt jsonStr pos])
    else .ok (str, pos)

def parseString (jsonStr : List Char) (pos : Nat) : Parsed JsonValue :=
  let pos := pos + 1
  match parseStringLoop jsonStr (jsonStr.length + 1 - pos) pos [] with
  | .error e => .error e
  | .ok (str, pos) =>
    if pos ≥ jsonStr.length || charAt jsonStr pos != '"' then
      throwParse "Незавершенная строка" pos []
    else .ok (JsonValue.string str, pos + 1)

def parseNumber (jsonStr : List Char) (pos : Nat) : Parsed JsonValue :=
  let start := pos
  let pos := if charAt jsonStr pos = '-' then pos + 1 else pos
  let pos := skipDigits jsonStr pos
  let pos :=
    if pos < jsonStr.length && charAt jsonStr pos = '.' then skipDigits jsonStr (pos + 1)
    else pos
  let pos :=
    if pos < jsonStr.length && (charAt jsonStr pos = 'e' || charAt jsonStr pos = 'E') then
      let pos := pos + 1
      let pos :=
        if pos < jsonStr.length && (charAt jsonStr pos = '+' || charAt jsonStr pos = '-')
        then pos + 1 else pos
      skipDigits jsonStr pos
    else pos
  let numStr := (jsonStr.drop start).take (pos - start)
  match stod numStr with
  | some num => .ok (JsonValue.number num, pos)
  | none => throwParse "Некорректное число" start numStr

/-- The test `jsonStr.compare(pos, n, word) == 0`, with `n` the length of `word`. -/
def compareAt (jsonStr : List Char) (pos : Nat) (word : List Char) : Bool :=
  (jsonStr.drop pos).take word.length = word

def parseKeyword (jsonStr : List Char) (pos : Nat) : Parsed JsonValue :=
  if compareAt jsonStr pos ['t', 'r', 'u', 'e'] then .ok (JsonValue.boolean true, pos + 4)
  else if compareAt jsonStr pos ['f', 'a', 'l', 's', 'e'] then
    .ok (JsonValue.boolean false, pos + 5)
  else if compareAt jsonStr pos ['n', 'u', 'l', 'l'] then .ok (JsonValue.null, pos + 4)
  else throwParse "Неизвестное ключевое слово" pos []

/-- Loop `while (pos < jsonStr.size())` of `parseObject`; `pv` is the recursive call
`parseValue(jsonStr, pos)`. An iteration that continues has consumed a `,`, so with the
budget `size + 1 - pos` the first clause is not reached. -/
def parseObjectLoop (pv : Nat → Parsed JsonValue) (jsonStr : List Char) :
    Nat → Nat → List (List Char × JsonValue) → Parsed JsonValue
  | 0, _, _ => .error Exn.budget
  | fuel + 1, pos, obj =>
    if pos < jsonStr.length then
      let pos := skipWhitespace jsonStr pos
      if charAt jsonStr pos ≠ '"' then throwParse "Ожидалась строка (ключ)" pos []
      else
        match parseString jsonStr pos with
        | .error e => .error e
        | .ok (keyValue, pos) =>
          match keyValue.asString with
          | .error e => .error e
          | .ok key =>
            let pos := skipWhitespace jsonStr pos
            if charAt jsonStr pos ≠ ':' then throwParse "Ожидалось ':' после ключа" pos []
            else
              let pos := pos + 1
              match pv pos with
              | .error e => .error e
              | .ok (value, pos) =>
                let obj := mapSet key value obj
                let pos := skipWhitespace jsonStr pos
                if charAt jsonStr pos = '}' then .ok (JsonValue.object obj, pos + 1)
                else if charAt jsonStr pos = ',' then
                  parseObjectLoop pv jsonStr fuel (pos + 1) obj
                else throwParse "Ожидалось ',' или '\x7d'" pos []
    else .ok (JsonValue.object obj, pos)

def parseObject (pv : Nat → Parsed JsonValue) (jsonStr : List Char) (pos : Nat) :
    Parsed JsonValue :=
  let pos := pos + 1
  let pos := skipWhitespace jsonStr pos
  if charAt jsonStr pos = '}' then .ok (JsonValue.object [], pos + 1)
  else parseObjectLoop pv jsonStr (jsonStr.length + 1 - pos) pos []

/-- Loop `while (pos < jsonStr.size())` of `parseArray`; `pv` is the recursive call
`parseValue(jsonStr, pos)`. -/
def parseArrayLoop (pv : Nat → Parsed JsonValue) (jsonStr : List Char) :
    Nat → Nat → List JsonValue → Parsed JsonValue
  | 0, _, _ => .error Exn.budget
  | fuel + 1, pos, arr =>
    if pos < jsonStr.length then
      match pv pos with
      | .error e => .error e
      | .ok (element, pos) =>
        let arr := arr ++ [element]
        let pos := skipWhitespace jsonStr pos
        if charAt jsonStr pos = ']' then .ok (JsonValue.array arr, pos + 1)
        else if charAt jsonStr pos = ',' then parseArrayLoop pv jsonStr fuel (pos + 1) arr
        else throwParse "Ожидалось ',' или ']'" pos []
    else .ok (JsonValue.array arr, pos)

def parseArray (pv : Nat → Parsed JsonValue) (jsonStr : List Char) (pos : Nat) :
    Parsed JsonValue :=
  let pos := pos + 1
  let pos := skipWhitespace jsonStr pos
  if charAt jsonStr pos = ']' then .ok (JsonValue.array [], pos + 1)
  else parseArrayLoop pv jsonStr (jsonStr.length + 1 - pos) pos []

/-- The function `parseValue`, by recursion on a nesting budget: a nested value starts
after the `[` or `\x7b` of its container, so the depth never exceeds the text length. -/
def parseValue (jsonStr : List Char) : Nat → Nat → Parsed JsonValue
  | 0, _ => .error Exn.budget
  | depth + 1, pos =>
    let pos := skipWhitespace jsonStr pos
    if pos ≥ jsonStr.length then throwParse "Неожиданный конец JSON" pos []
    else
      let c := charAt jsonStr pos
      if c = '{' then parseObject (parseValue jsonStr depth) jsonStr pos
      else if c = '[' then parseArray (parseValue jsonStr depth) jsonStr pos
      else if c = '"' then parseString jsonStr pos
      else if c = '-' || isdigit c then parseNumber jsonStr pos
      else if c = 't' || c = 'f' || c = 'n' then parseKeyword jsonStr pos
      else throwParse "Неожиданный символ" pos [c]

def parse (jsonStr : List Char) : Except Exn JsonValue :=
  match parseValue jsonStr (jsonStr.length + 1) 0 with
  | .error e => .error e
  | .ok (result, pos) =>
    let pos := skipWhitespace jsonStr pos
    if pos ≠ jsonStr.length then throwParse "Лишние символы после JSON" pos []
    else .ok result

/-- The function `loadFromFile`. The file system is the function `files`, which gives the
bytes of the file of a name, or `none` when the file cannot be opened. -/
def loadFromFile (files : List Char → Option (List Char)) (filename : List Char) :
    Except Exn JsonValue :=
  match files filename with
  | none => .error (.jsonFile filename)
  | some buffer =>
    let fileSize := buffer.length
    let content :=
      if fileSize ≥ 3 ∧ (charAt buffer 0).toNat = 0xEF ∧ (charAt buffer 1).toNat = 0xBB
          ∧ (charAt buffer 2).toNat = 0xBF then
        substr buffer 3 (fileSize - 3)
      else substr buffer 0 fileSize
    parse content

end JsonParser

/-! ## Serializer (`JsonParser::toString`) -/

/-- Digits of a run without its trailing zeros. -/
def stripTrailingZeros (ds : List Char) : List Char :=
  (ds.reverse.dropWhile (fun c => c = '0')).reverse

/-- Exponent field of the scientific format: a sign and at least two digits. -/
def formatExponent (x : Int) : List Char :=
  let ds := Nat.toDigits 10 x.natAbs
  [ 'e', if x < 0 then '-' else '+'] ++ (if ds.length < 2 then '0' :: ds else ds)

/-- Text written by `oss << val.asNumber()`: the default stream format of a `double`, six
significant digits in the style of `%g` (fixed notation when the decimal exponent lies in
`-4 .. 5`, scientific otherwise, trailing zeros removed). The rounding to six digits is the
one of the exact decimal value; the source prints `-0` for a negative zero, which the
embedding does not distinguish from `0`. -/
def formatNumber (d : Decimal) : List Char :=
  let a := d.mantissa.natAbs
  if a = 0 then ['0']
  else
    let n := (Nat.toDigits 10 a).length
    let k := n - 6
    let q := a / 10 ^ k
    let rem := a % 10 ^ k
    let half := 10 ^ k / 2
    let up := decide (n > 6) && (decide (rem > half) || (decide (rem = half) && q % 2 = 1))
    let r0 := if n ≤ 6 then a * 10 ^ (6 - n) else if up then q + 1 else q
    let carry := decide (r0 = 1000000)
    let r := if carry then 100000 else r0
    let x : Int := (n : Int) - 1 + d.exponent + (if carry then 1 else 0)
    let six := Nat.toDigits 10 r
    let sign := if d.mantissa < 0 then ['-'] else []
    if x < -4 ∨ x ≥ 6 then
      let frac := stripTrailingZeros (six.drop 1)
      sign ++ six.take 1 ++ (if frac.isEmpty then [] else '.' :: frac) ++ formatExponent x
    else if 0 ≤ x then
      let frac := stripTrailingZeros (six.drop (x.toNat + 1))
      sign ++ six.take (x.toNat + 1) ++ (if frac.isEmpty then [] else '.' :: frac)
    else
      sign ++ [ '0', '.'] ++ List.replicate ((-x).toNat - 1) '0' ++ stripTrailingZeros six

namespace JsonParser

/-- The text `string(n, ' ')`. -/
def spaces (n : Nat) : List Char := List.replicate n ' '

mutual
/-- The lambda `writeValue` of `toString`, returning the text it appends to the stream. -/
def writeValue (pretty : Bool) : JsonValue → Nat → List Char
  | .null, _ => ['n', 'u', 'l', 'l']
  | .boolean b, _ => if b then ['t', 'r', 'u', 'e'] else ['f', 'a', 'l', 's', 'e']
  | .number n, _ => formatNumber n
  | .string s, _ => [ '"'] ++ s ++ [ '"']
  | .array arr, indent =>
    [ '['] ++ (if pretty && !arr.isEmpty then ['\n'] else [])
      ++ writeElements pretty arr indent
      ++ (if pretty && !arr.isEmpty then spaces indent else []) ++ [ ']']
  | .object obj, indent =>
    [ '{'] ++ (if pretty && !obj.isEmpty then ['\n'] else [])
      ++ writeMembers pretty obj indent
      ++ (if pretty && !obj.isEmpty then spaces indent else []) ++ [ '}']
/-- The loop over `val.arrayValue`, from the element at hand to the last one. -/
def writeElements (pretty : Bool) : List JsonValue → Nat → List Char
  | [], _ => []
  | v :: rest, indent =>
    (if pretty then spaces (indent + 2) else [])
      ++ writeValue pretty v (indent + 2)
      ++ (if rest.isEmpty then [] else [ ','])
      ++ (if pretty then ['\n'] else [])
      ++ writeElements pretty rest indent
/-- The loop over `val.objectValue`, from the entry at hand to the last one. -/
def writeMembers (pretty : Bool) : List (List Char × JsonValue) → Nat → List Char
  | [], _ => []
  | (key, val2) :: rest, indent =>
    (if pretty then spaces (indent + 2) else [])
      ++ [ '"'] ++ key ++ [ '"', ':']
      ++ (if pretty then [ ' '] else [])
      ++ writeValue pretty val2 (indent + 2)
      ++ (if rest.isEmpty then [] else [ ','])
      ++ (if pretty then ['\n'] else [])
      ++ writeMembers pretty rest indent
end

def toString (value : JsonValue) (pretty : Bool) : List Char :=
  writeValue pretty value 0

/-- The function `JsonParser::isValid`: the returned flag and the text left in `errorMsg`
(`e.what()` is the message followed by the position). Other exceptions pass through. -/
def isValid (jsonStr : List Char) : Except Exn (Bool × String) :=
  match parse jsonStr with
  | .ok _ => .ok (true, "")
  | .error (Exn.jsonParse e) =>
    .ok (false, e.message ++ " (позиция: " ++ Nat.repr e.position ++ ")")
  | .error e => .error e

end JsonParser

/-! ## Records (`LogEntry`) -/

/-- The struct `LogEntry`. -/
structure LogEntry where
  timestamp : List Char
  ip : List Char
  method : List Char
  url : List Char
  status : Int
deriving DecidableEq, Repr

/-- One position of a fixed-length pattern: the class `\d` or a literal character. -/
inductive PatternItem where
  | digit
  | lit (c : Char)
deriving DecidableEq, Repr

/-- Whole-string match (`regex_match`) against a sequence of single-character items. -/
def matchItems : List PatternItem → List Char → Bool
  | [], [] => true
  | [], _ :: _ => false
  | _ :: _, [] => false
  | PatternItem.digit :: ps, c :: cs => isdigit c && matchItems ps cs
  | PatternItem.lit l :: ps, c :: cs => decide (c = l) && matchItems ps cs

/-- The pattern `^\d{4}-\d{2}-\d{2}T\d{2}:\d{2}:\d{2}Z$`. -/
def isoPattern : List PatternItem :=
  [.digit, .digit, .digit, .digit, .lit '-', .digit, .digit, .lit '-', .digit, .digit,
   .lit 'T', .digit, .digit, .lit ':', .digit, .digit, .lit ':', .digit, .digit, .lit 'Z']

/-- Pieces of a string between its dots. -/
def splitDots : List Char → List (List Char)
  | [] => [[]]
  | c :: cs =>
    if c = '.' then [] :: splitDots cs
    else
      match splitDots cs with
      | [] => [[c]]
      | g :: gs => (c :: g) :: gs

/-- Groups captured by `^(\d{1,3})\.(\d{1,3})\.(\d{1,3})\.(\d{1,3})$`, when the whole
string matches: four dot-separated runs of one to three digits. -/
def ipPatternMatch (ip : List Char) : Option (List (List Char)) :=
  let groups := splitDots ip
  if groups.length = 4 && groups.all (fun g => g.all isdigit && 1 ≤ g.length && g.length ≤ 3)
  then some groups else none

namespace LogEntry

def validateTimestamp (ts : List Char) : Bool := matchItems isoPattern ts

def validateIP (ip : List Char) : Bool :=
  match ipPatternMatch ip with
  | none => false
  | some groups => groups.all (fun g => decide (natOfDigits g ≤ 255))

def validateMethod (method : List Char) : Bool :=
  let validMethods : List (List Char) :=
    ["GET".toList, "POST".toList, "PUT".toList, "DELETE".toList, "HEAD".toList,
     "OPTIONS".toList, "PATCH".toList, "CONNECT".toList, "TRACE".toList]
  let upperMethod := method.map toupper
  validMethods.contains upperMethod

def validateStatus (status : Int) : Bool := decide (status ≥ 100) && decide (status ≤ 599)

def isValid (e : LogEntry) : Bool :=
  validateTimestamp e.timestamp && validateIP e.ip && validateMethod e.method
    && validateStatus e.status

end LogEntry

/-- The library call `std::stoi` on a string that starts with its digits: the value of the
leading run of digits, `std::invalid_argument` when there is none and `std::out_of_range`
when the value does not fit an `int`. -/
def stoi (str : List Char) : Except Exn Int :=
  let digits := str.takeWhile isdigit
  if digits.isEmpty then .error Exn.invalidArgument
  else if natOfDigits digits > 2147483647 then .error Exn.outOfRange
  else .ok (natOfDigits digits)

/-- One atom of a search pattern: a character class taken once or, with `+`, one or more
times, and the number of the capture group the atom lies in (0 for none). -/
structure PatternAtom where
  accepts : Char → Bool
  plus : Bool
  group : Nat

/-- Attempts of a `+` atom, longest first: the rest of the pattern is tried after
`n + 1`, `n`, ..., 1 characters of the run. -/
def matchPlus (rest : List Char → Option (List (List Char))) (cs : List Char) :
    Nat → Option (List (List Char))
  | 0 => none
  | n + 1 =>
    match rest (cs.drop (n + 1)) with
    | some taken => some (cs.take (n + 1) :: taken)
    | none => matchPlus rest cs n

/-- Match of a sequence of atoms at the start of `cs`, by backtracking as an ECMAScript
matcher does; the result lists the text taken by each atom. -/
def matchAtoms : List PatternAtom → List Char → Option (List (List Char))
  | [], _ => some []
  | a :: atoms, cs =>
    if a.plus then matchPlus (matchAtoms atoms) cs (cs.takeWhile a.accepts).length
    else
      match cs with
      | [] => none
      | c :: cs =>
        if a.accepts c then (matchAtoms atoms cs).map (fun taken => [c] :: taken) else none

/-- The call `regex_search`: the match at the leftmost position that has one. -/
def regexSearch (atoms : List PatternAtom) : List Char → Option (List (List Char))
  | [] => matchAtoms atoms []
  | c :: cs =>
    match matchAtoms atoms (c :: cs) with
    | some taken => some taken
    | none => regexSearch atoms cs

/-- Text of capture group `i`: what the atoms of that group took. -/
def capture (atoms : List PatternAtom) (taken : List (List Char)) (i : Nat) : List Char :=
  ((atoms.zip taken).filter (fun p => p.1.group == i)).flatMap (fun p => p.2)

/-- Atoms of a literal text. -/
def litAtoms (text : String) : List PatternAtom :=
  text.toList.map (fun c => ⟨fun x => x == c, false, 0⟩)

/-- The pattern of `fromJsonString`, read as the whole text between `R"(` and the `)"`
that ends the statement, blanks included:
`\{"ts":"([^"]+)", "ip":"([^"] + )","method":"([^ "]+)", "url":"([^"] + )","status":(\d+)\}`.
Groups 2 and 4 are one character other than `"`, then one or more blanks, then a blank. -/
def fromJsonPattern : List PatternAtom :=
  litAtoms "\x7b\"ts\":\"" ++ [⟨fun x => x != '"', true, 1⟩]
    ++ litAtoms "\", \"ip\":\""
    ++ [⟨fun x => x != '"', false, 2⟩, ⟨fun x => x == ' ', true, 2⟩, ⟨fun x => x == ' ', false, 2⟩]
    ++ litAtoms "\",\"method\":\"" ++ [⟨fun x => x != ' ' && x != '"', true, 3⟩]
    ++ litAtoms "\", \"url\":\""
    ++ [⟨fun x => x != '"', false, 4⟩, ⟨fun x => x == ' ', true, 4⟩, ⟨fun x => x == ' ', false, 4⟩]
    ++ litAtoms "\",\"status\":" ++ [⟨isdigit, true, 5⟩] ++ litAtoms "\x7d"

namespace LogEntry

/-- The function `fromJsonString`; a match of this pattern always has six sub-matches. -/
def fromJsonString (jsonStr : List Char) : Except Exn LogEntry :=
  match regexSearch fromJsonPattern jsonStr with
  | some taken =>
    let sub := capture fromJsonPattern taken
    match stoi (sub 5) with
    | .error e => .error e
    | .ok status => .ok ⟨sub 1, sub 2, sub 3, sub 4, status⟩
  | none => .error (Exn.logValidation "Неверный формат JSON строки")

end LogEntry

namespace JsonValue

/-- Body of the `try` block of `asLogEntries` for one element `val` that is an object. -/
def logEntryOf (objectValue : List (List Char × JsonValue)) : Except Exn LogEntry := do
  let timestamp ← (← mapAt objectValue "ts".toList).asString
  let ip ← (← mapAt objectValue "ip".toList).asString
  let method ← (← mapAt objectValue "method".toList).asString
  let url ← (← mapAt objectValue "url".toList).asString
  let status := (← (← mapAt objectValue "status".toList).asNumber).toInt
  pure ⟨timestamp, ip, method, url, status⟩

/-- One iteration of the loop of `asLogEntries`. -/
def asLogEntriesStep (entries : List LogEntry) (val : JsonValue) : List LogEntry :=
  match val with
  | .object objectValue =>
    match logEntryOf objectValue with
    | .ok entry => entries ++ [entry]
    | .error _ => entries
  | _ => entries

def asLogEntries : JsonValue → Except Exn (List LogEntry)
  | .array arrayValue => .ok (arrayValue.foldl asLogEntriesStep [])
  | _ => .error (Exn.runtimeError "Не массив")

end JsonValue

/-! ## Analysis engine (`LogAnalyzer`) -/

namespace LogAnalyzer

/-- The statement `counts[key]++` on the hash table, kept as the list of its entries in
the order of first insertion. -/
def increment (key : List Char) : List (List Char × Int) → List (List Char × Int)
  | [] => [(key, 1)]
  | (k, count) :: rest =>
    if k = key then (k, count + 1) :: rest else (k, count) :: increment key rest

/-- The loop `for (const auto& log : logs) counts[field(log)]++`. -/
def countBy (field : LogEntry → List Char) (logs : List LogEntry) : List (List Char × Int) :=
  logs.foldl (fun counts log => increment (field log) counts) []

/-- The call `std::sort` with the comparator `a.second > b.second`. The order of pairs
with equal counts is left open by `std::sort`; here they keep the order they had, which
loses nothing because the order in which the hash table hands over its entries is
arbitrary (the parameter `iteration` of `getTopIPs`). -/
def sortByCount (pairs : List (List Char × Int)) : List (List Char × Int) :=
  pairs.insertionSort (fun a b => a.2 ≥ b.2)

/-- The step `if (n > 0 && static_cast<size_t>(n) < sorted.size()) sorted.resize(n)`. -/
def truncate (sorted : List (List Char × Int)) (n : Int) : List (List Char × Int) :=
  if n > 0 ∧ n.toNat < sorted.length then sorted.take n.toNat else sorted

/-- The function `getTopIPs`, as a function of the record sequence. The iteration order of
`std::unordered_map` is not specified: `iteration` is the rearrangement under which the
table hands over its entries to the vector. -/
def getTopIPs (iteration : List (List Char × Int) → List (List Char × Int))
    (logs : List LogEntry) (n : Int) : List (List Char × Int) :=
  truncate (sortByCount (iteration (countBy LogEntry.ip logs))) n

/-- The function `getTopURLs`, as `getTopIPs`. -/
def getTopURLs (iteration : List (List Char × Int) → List (List Char × Int))
    (logs : List LogEntry) (n : Int) : List (List Char × Int) :=
  truncate (sortByCount (iteration (countBy LogEntry.url logs))) n

/-- The call `copy_if(logs.begin(), logs.end(), back_inserter(result), pred)` on an empty
`result`. -/
def copyIf (pred : LogEntry → Bool) (logs : List LogEntry) : List LogEntry :=
  logs.foldl (fun result log => if pred log then result ++ [log] else result) []

/-- The function `filterByStatus`; like the other filters it is a function of the record
sequence held by the analyzer. -/
def filterByStatus (logs : List LogEntry) (status : Int) : List LogEntry :=
  copyIf (fun log => decide (log.status = status)) logs

/-- The function `filterByMethod`: both sides are upper-cased with `::toupper`. -/
def filterByMethod (logs : List LogEntry) (method : List Char) : List LogEntry :=
  let upperMethod := method.map toupper
  copyIf (fun log =>
    let logMethod := log.method.map toupper
    decide (logMethod = upperMethod)) logs

/-- The function `isInTimeRange`; `endT` is the parameter `end`. -/
def isInTimeRange (timestamp start endT : List Char) : Bool :=
  if start.isEmpty && endT.isEmpty then true
  else if start.isEmpty then strLe timestamp endT
  else if endT.isEmpty then strGe timestamp start
  else strGe timestamp start && strLe timestamp endT

def filterByTimeRange (logs : List LogEntry) (startTime endTime : List Char) :
    List LogEntry :=
  copyIf (fun log => isInTimeRange log.timestamp startTime endTime) logs

def filterByIP (logs : List LogEntry) (ip : List Char) : List LogEntry :=
  copyIf (fun log => decide (log.ip = ip)) logs

/-- The function `filterByURL`: the test is `log.url.find(urlPattern) != npos`. -/
def filterByURL (logs : List LogEntry) (urlPattern : List Char) : List LogEntry :=
  copyIf (fun log => (strFind log.url urlPattern 0).isSome) logs

def filter (logs : List LogEntry) (predicate : LogEntry → Bool) : List LogEntry :=
  copyIf predicate logs

/-- The body of the loop of `getTimeRange`, on the pair `(minTime, maxTime)`. -/
def timeRangeStep (range : List Char × List Char) (log : LogEntry) :
    List Char × List Char :=
  let minTime := if strLt log.timestamp range.1 then log.timestamp else range.1
  let maxTime := if strGt log.timestamp range.2 then log.timestamp else range.2
  (minTime, maxTime)

/-- The function `getTimeRange`: both bounds start at the timestamp of `logs[0]` and the
loop goes over all records. -/
def getTimeRange (logs : List LogEntry) : List Char × List Char :=
  match logs with
  | [] => ([], [])
  | first :: _ => logs.foldl timeRangeStep (first.timestamp, first.timestamp)

/-- The statement `distribution[key]++` on a `std::map` whose keys are ordered by `lt`,
kept as the list of its entries in key order. Two keys neither of which is before the
other are the same key to the map. -/
def mapIncrement {κ : Type} (lt : κ → κ → Bool) (key : κ) :
    List (κ × Int) → List (κ × Int)
  | [] => [(key, 1)]
  | (k, count) :: rest =>
    if lt key k then (key, 1) :: (k, count) :: rest
    else if lt k key then (k, count) :: mapIncrement lt key rest
    else (k, count + 1) :: rest

/-- The function `getStatusDistribution`, on a `std::map<int, int>`. -/
def getStatusDistribution (logs : List LogEntry) : List (Int × Int) :=
  logs.foldl (fun distribution log =>
    mapIncrement (fun a b => decide (a < b)) log.status distribution) []

/-- The function `getMethodDistribution`, on a `std::map<std::string, int>`. -/
def getMethodDistribution (logs : List LogEntry) : List (List Char × Int) :=
  logs.foldl (fun distribution log => mapIncrement strLt log.method distribution) []

/-- The function `findFailedRequests`: the test is `log.status >= threshold`. -/
def findFailedRequests (logs : List LogEntry) (threshold : Int) : List LogEntry :=
  copyIf (fun log => decide (log.status ≥ threshold)) logs

/-- The function `findSuspiciousIPs`; `iteration` is the order in which the hash table
hands over its entries, as in `getTopIPs`. -/
def findSuspiciousIPs (iteration : List (List Char × Int) → List (List Char × Int))
    (logs : List LogEntry) (threshold : Int) : List (List Char) :=
  (iteration (countBy LogEntry.ip logs)).foldl
    (fun suspiciousIPs entry =>
      if entry.2 > threshold then suspiciousIPs ++ [entry.1] else suspiciousIPs) []

/-- The function `extractDomain`; `stop` is the variable `end`. -/
def extractDomain (url : List Char) : List Char :=
  let start :=
    match strFind url "://".toList 0 with
    | some found => found + 3
    | none => 0
  let stop :=
    match strFind url [ '/'] start with
    | some found => found
    | none => url.length
  substr url start (stop - start)

end LogAnalyzer

/-! ## Validators, as the specification words them -/

/-- The C library `tolower` in the "C" locale. -/
def tolower (c : Char) : Char :=
  if decide ('A' ≤ c) && decide (c ≤ 'Z') then Char.ofNat (c.toNat + 32) else c

/-- A re-casing of a string: every character is kept, upper-cased or lower-cased. -/
def isRecasing : List Char → List Char → Bool
  | [], [] => true
  | a :: as, b :: bs => (b == a || b == toupper a || b == tolower a) && isRecasing as bs
  | _, _ => false

/-- The nine method names. -/
def methodNames : List (List Char) :=
  ["GET".toList, "POST".toList, "PUT".toList, "DELETE".toList, "HEAD".toList,
   "OPTIONS".toList, "PATCH".toList, "CONNECT".toList, "TRACE".toList]

/-- A group of an address: one to three decimal digits with value at most 255. -/
def isOctet (g : List Char) : Bool :=
  g.all isdigit && decide (1 ≤ g.length) && decide (g.length ≤ 3)
    && decide (natOfDigits g ≤ 255)

/-- The positions of a timestamp that hold digits. -/
def timestampDigitPositions : List Nat := [0, 1, 2, 3, 5, 6, 8, 9, 11, 12, 14, 15, 17, 18]

/-- The compact record text `\x7b"ts":"T","ip":"I","method":"M","url":"U","status":N\x7d`. -/
def compactRecord (t i m u n : List Char) : List Char :=
  "\x7b\"ts\":\"".toList ++ t ++ "\",\"ip\":\"".toList ++ i ++ "\",\"method\":\"".toList ++ m
    ++ "\",\"url\":\"".toList ++ u ++ "\",\"status\":".toList ++ n ++ "\x7d".toList

/-! ## String literals, as the grammar describes them -/

/-- One element of the body of a string literal. -/
inductive StringItem where
  /-- An ordinary character, standing for itself. -/
  | ordinary (c : Char)
  /-- A backslash followed by the character `c`. -/
  | escape (c : Char)
  /-- The escape `\u` followed by four characters. -/
  | unicode (a b c d : Char)
deriving DecidableEq, Repr

/-- Character denoted by the escape `\c`, for the eight two-character escapes. -/
def escapeValue (c : Char) : Option Char :=
  if c = '"' then some '"'
  else if c = '\\' then some '\\'
  else if c = '/' then some '/'
  else if c = 'b' then some (Char.ofNat 8)
  else if c = 'f' then some (Char.ofNat 12)
  else if c = 'n' then some '\n'
  else if c = 'r' then some '\r'
  else if c = 't' then some '\t'
  else none

/-- Hexadecimal digits `0-9`, `a-f`, `A-F`. -/
def isHexDigit (c : Char) : Bool :=
  isdigit c || (decide ('a' ≤ c) && decide (c ≤ 'f')) || (decide ('A' ≤ c) && decide (c ≤ 'F'))

namespace StringItem

/-- Source text of an item. -/
def text : StringItem → List Char
  | ordinary c => [c]
  | escape c => ['\\', c]
  | unicode a b c d => ['\\', 'u', a, b, c, d]

/-- Character an item stands for; a `\u` escape stands for the placeholder `?`. -/
def value : StringItem → Char
  | ordinary c => c
  | escape c => (escapeValue c).getD c
  | unicode _ _ _ _ => '?'

/-- Items the scan of `parseString` steps over: an ordinary character is neither `"` nor
a backslash, an escape is one of the eight, and `\u` takes the next four characters,
whatever they are. -/
def scanned : StringItem → Bool
  | ordinary c => c != '"' && c != '\\'
  | escape c => (escapeValue c).isSome
  | unicode _ _ _ _ => true

/-- Items of the grammar: as `scanned`, with four hexadecimal digits after `\u`. -/
def wellFormed : StringItem → Bool
  | ordinary c => c != '"' && c != '\\'
  | escape c => (escapeValue c).isSome
  | unicode a b c d => isHexDigit a && isHexDigit b && isHexDigit c && isHexDigit d

end StringItem

/-- Source text of a literal body. -/
def bodyText : List StringItem → List Char
  | [] => []
  | item :: items => item.text ++ bodyText items

/-- String denoted by a literal body. -/
def bodyValue (items : List StringItem) : List Char := items.map StringItem.value

/-! ## Lenient conversion, as the specification words it -/

/-- The String value bound to `key` in an object, if the key is present and bound to a
String. -/
def specStringAt (obj : List (List Char × JsonValue)) (key : List Char) :
    Option (List Char) :=
  match mapFind key obj with
  | some (JsonValue.string s) => some s
  | _ => none

/-- The Number value bound to `key` in an object, if the key is present and bound to a
Number. -/
def specNumberAt (obj : List (List Char × JsonValue)) (key : List Char) : Option Decimal :=
  match mapFind key obj with
  | some (JsonValue.number n) => some n
  | _ => none

/-- The status of a Number, converted to an integer of type `int`. The whole part of the
absolute value is taken (the digits before the decimal point) and the sign is put back;
the result is this integer when it lies in the range of `int`, from -2147483648 to
2147483647, and -2147483648 when it does not. -/
def specStatus (n : Decimal) : Int :=
  let whole : Nat := n.mantissa.natAbs * 10 ^ n.exponent.toNat / 10 ^ (-n.exponent).toNat
  let t : Int := if n.mantissa < 0 then -(whole : Int) else whole
  if -2147483648 ≤ t ∧ t ≤ 2147483647 then t else -2147483648

/-- The record of an array element, for an element that is an Object having keys `ts`,
`ip`, `method`, `url` bound to String values and key `status` bound to a Number value;
any other element has none. -/
def specEntry : JsonValue → Option LogEntry
  | JsonValue.object obj => do
    let ts ← specStringAt obj "ts".toList
    let ip ← specStringAt obj "ip".toList
    let method ← specStringAt obj "method".toList
    let url ← specStringAt obj "url".toList
    let status ← specNumberAt obj "status".toList
    pure ⟨ts, ip, method, url, specStatus status⟩
  | _ => none

/-- The records of the convertible elements, in array order. -/
def specEntries (a : List JsonValue) : List LogEntry := a.filterMap specEntry

/-! ## Export, time utilities and the analyzer object -/

/-- Text written by `file << n` for an `int`: decimal digits, after a `-` when negative. -/
def formatInt (n : Int) : List Char :=
  if n < 0 then '-' :: Nat.toDigits 10 n.natAbs else Nat.toDigits 10 n.toNat

namespace TimeUtils

def isEarlier (t1 t2 : List Char) : Bool := strLt t1 t2

def isLater (t1 t2 : List Char) : Bool := strGt t1 t2

end TimeUtils

namespace LogAnalyzer

/-- The function `exportToCSV`: the returned flag and the characters sent to the file
stream; `isOpen` tells whether the file could be opened. (The stream is in text mode, so
on Windows each `\n` sent reaches the file as the two bytes `\r\n`.) -/
def exportToCSV (isOpen : Bool) (logs : List LogEntry) : Bool × List Char :=
  if !isOpen then (false, [])
  else
    let file := "timestamp,ip,method,url,status\n".toList
    let file := logs.foldl (fun file log =>
      file ++ log.timestamp ++ [ ','] ++ log.ip ++ [ ','] ++ log.method ++ [ ',']
        ++ [ '"'] ++ log.url ++ [ '"', ','] ++ formatInt log.status ++ [ '\n']) file
    (true, file)

/-- The statement `index[key].push_back(i)` on a `std::map<std::string, std::vector<size_t>>`,
kept as the list of its entries in key order. -/
def indexPush (key : List Char) (i : Nat) :
    List (List Char × List Nat) → List (List Char × List Nat)
  | [] => [(key, [i])]
  | (k, positions) :: rest =>
    if strLt key k then (key, [i]) :: (k, positions) :: rest
    else if strLt k key then (k, positions) :: indexPush key i rest
    else (k, positions ++ [i]) :: rest

/-- The data members of a `LogAnalyzer` object. -/
structure State where
  logs : List LogEntry
  ipIndex : List (List Char × List Nat)
  urlIndex : List (List Char × List Nat)
  timeIndex : List (List Char × List Nat)
  indexesBuilt : Bool
deriving DecidableEq, Repr

namespace State

/-- The default constructor `LogAnalyzer()`. -/
def init : State := ⟨[], [], [], [], false⟩

/-- The constructor `LogAnalyzer(logEntries)`. -/
def ofLogs (logEntries : List LogEntry) : State := ⟨logEntries, [], [], [], false⟩

/-- The loop of `ensureIndexesBuilt`, from the position `i` on; `rest` holds the records
`logs[i]`, `logs[i + 1]`, ... -/
def buildIndexes : Nat → List LogEntry → State → State
  | _, [], st => st
  | i, log :: rest, st =>
    buildIndexes (i + 1) rest
      { st with
        ipIndex := indexPush log.ip i st.ipIndex
        urlIndex := indexPush log.url i st.urlIndex
        timeIndex := indexPush log.timestamp i st.timeIndex }

def ensureIndexesBuilt (st : State) : State :=
  if st.indexesBuilt then st
  else
    let st := buildIndexes 0 st.logs { st with ipIndex := [], urlIndex := [], timeIndex := [] }
    { st with indexesBuilt := true }

/-- The member function `loadFromJson`: the returned flag and the object afterwards. -/
def loadFromJson (st : State) (json : JsonValue) : Bool × State :=
  match json.asLogEntries with
  | .ok entries => (true, { st with logs := entries, indexesBuilt := false })
  | .error _ => (false, st)

def addLog (st : State) (entry : LogEntry) : State := { st with logs := st.logs ++ [entry] }

def clear (st : State) : State := { st with logs := [] }

/-- The member function `getTopIPs`: the returned list and the object afterwards. -/
def getTopIPs (iteration : List (List Char × Int) → List (List Char × Int)) (st : State)
    (n : Int) : List (List Char × Int) × State :=
  let st := st.ensureIndexesBuilt
  (LogAnalyzer.getTopIPs iteration st.logs n, st)

/-- The member function `getTopURLs`: the returned list and the object afterwards. -/
def getTopURLs (iteration : List (List Char × Int) → List (List Char × Int)) (st : State)
    (n : Int) : List (List Char × Int) × State :=
  let st := st.ensureIndexesBuilt
  (LogAnalyzer.getTopURLs iteration st.logs n, st)

end State

end LogAnalyzer

/-! ## States, texts and values, as the specification words them -/

namespace LogAnalyzer

/-- One call on a `LogAnalyzer` object, of those that change it. -/
inductive Call where
  | loadFromJson (json : JsonValue)
  | addLog (entry : LogEntry)
  | clear
  | getTopIPs (n : Int)
  | getTopURLs (n : Int)

/-- The object after one call. -/
def State.call (iteration : List (List Char × Int) → List (List Char × Int)) (st : State) :
    Call → State
  | .loadFromJson json => (st.loadFromJson json).2
  | .addLog entry => st.addLog entry
  | .clear => st.clear
  | .getTopIPs n => (st.getTopIPs iteration n).2
  | .getTopURLs n => (st.getTopURLs iteration n).2

/-- The object reached from a constructed one by a sequence of calls. -/
def State.run (iteration : List (List Char × Int) → List (List Char × Int)) (st : State)
    (calls : List Call) : State :=
  calls.foldl (State.call iteration) st

/-- Positions of the records whose `field` is `key`, counted from `i`. -/
def positionsOf (field : LogEntry → List Char) (key : List Char) : Nat → List LogEntry → List Nat
  | _, [] => []
  | i, log :: rest =>
    if field log = key then i :: positionsOf field key (i + 1) rest
    else positionsOf field key (i + 1) rest

/-- An index is complete and consistent for a record sequence: it holds exactly the pairs
of a `field` value of the records with the list of the positions having it. -/
def isIndexOf (field : LogEntry → List Char) (logs : List LogEntry)
    (index : List (List Char × List Nat)) : Prop :=
  ∀ key positions, (key, positions) ∈ index
    ↔ key ∈ logs.map field ∧ positions = positionsOf field key 0 logs

end LogAnalyzer

/-- The six numbers written in a timestamp `YYYY-MM-DDTHH:MM:SSZ`: year, month, day, hour,
minute, second. -/
def timestampFields (ts : List Char) : List Nat :=
  [natOfDigits (substr ts 0 4), natOfDigits (substr ts 5 2), natOfDigits (substr ts 8 2),
   natOfDigits (substr ts 11 2), natOfDigits (substr ts 14 2), natOfDigits (substr ts 17 2)]

/-- Newline, space or tab. -/
def isBlank (c : Char) : Bool := c = '\n' || c = ' ' || c = '\t'

namespace JsonValue

mutual
/-- Every character of every string payload and of every object key satisfies `p`. -/
def allText (p : Char → Bool) : JsonValue → Bool
  | .string s => s.all p
  | .array arr => allTextElements p arr
  | .object obj => allTextMembers p obj
  | _ => true
/-- The test `allText` on the elements of an array. -/
def allTextElements (p : Char → Bool) : List JsonValue → Bool
  | [] => true
  | v :: rest => allText p v && allTextElements p rest
/-- The test `allText` on the keys and values of an object. -/
def allTextMembers (p : Char → Bool) : List (List Char × JsonValue) → Bool
  | [] => true
  | (key, v) :: rest => key.all p && allText p v && allTextMembers p rest
end

mutual
/-- The value holds no Number, at any depth. -/
def numberFree : JsonValue → Bool
  | .number _ => false
  | .array arr => numberFreeElements arr
  | .object obj => numberFreeMembers obj
  | _ => true
/-- The test `numberFree` on the elements of an array. -/
def numberFreeElements : List JsonValue → Bool
  | [] => true
  | v :: rest => numberFree v && numberFreeElements rest
/-- The test `numberFree` on the values of an object. -/
def numberFreeMembers : List (List Char × JsonValue) → Bool
  | [] => true
  | (_, v) :: rest => numberFree v && numberFreeMembers rest
end

/-- Keys of a list of entries ascend strictly, as the entries of a `std::map` do. -/
def keysAscend : List (List Char × JsonValue) → Bool
  | [] => true
  | [_] => true
  | (k1, _) :: (k2, v2) :: rest => strLt k1 k2 && keysAscend ((k2, v2) :: rest)

mutual
/-- Every object of the value, at any depth, is a `std::map`: its keys ascend strictly. -/
def isMap : JsonValue → Bool
  | .array arr => isMapElements arr
  | .object obj => keysAscend obj && isMapMembers obj
  | _ => true
/-- The test `isMap` on the elements of an array. -/
def isMapElements : List JsonValue → Bool
  | [] => true
  | v :: rest => isMap v && isMapElements rest
/-- The test `isMap` on the values of an object. -/
def isMapMembers : List (List Char × JsonValue) → Bool
  | [] => true
  | (_, v) :: rest => isMap v && isMapMembers rest
end

end JsonValue

namespace JsonParser

/-- The outcome of a parsing function started at `pos` stays inside a text of length
`len`: a result leaves the cursor at `pos` or later and at most at `len`, and a failure is
a `JsonParseException` with a position of at most `len`. -/
def inBounds {α : Type} (len pos : Nat) : Parsed α → Bool
  | .ok (_, next) => decide (pos ≤ next) && decide (next ≤ len)
  | .error (Exn.jsonParse e) => decide (e.position ≤ len)
  | .error _ => false

/-- What the parser is reading when its cursor stands at a position: a value
(`parseValue`), the elements of an array (the loop of `parseArray`), or the entries of an
object (the loop of `parseObject`). -/
inductive Place where
  | value
  | elements
  | entries

/-- The places of a text where the parser reads a string literal.
`ReadsLiteral s place depth pos q` says that the parser, at work on the text `s` at `place`
with its cursor at `pos`, comes to call `parseString` at `q`, for a String value or for the
key of an object entry, after it has read all that stands before `q` without an error.
The number `depth` is the nesting budget of `parseValue` at that place (in the two loops,
the budget of the `parseValue` they call). -/
inductive ReadsLiteral (s : List Char) : Place → Nat → Nat → Nat → Prop
  /-- The value starts, after whitespace, with a quote: `parseValue` calls `parseString`
  there. -/
  | string (depth pos : Nat) :
      skipWhitespace s pos < s.length → charAt s (skipWhitespace s pos) = '"' →
      ReadsLiteral s Place.value (depth + 1) pos (skipWhitespace s pos)
  /-- The value is an array that is not closed at once: `parseArray` enters its loop after
  the `[` and the whitespace. -/
  | inArray (depth pos q : Nat) :
      charAt s (skipWhitespace s pos) = '[' →
      charAt s (skipWhitespace s (skipWhitespace s pos + 1)) ≠ ']' →
      ReadsLiteral s Place.elements depth (skipWhitespace s (skipWhitespace s pos + 1)) q →
      ReadsLiteral s Place.value (depth + 1) pos q
  /-- The value is an object that is not closed at once: `parseObject` enters its loop
  after the opening brace and the whitespace. -/
  | inObject (depth pos q : Nat) :
      charAt s (skipWhitespace s pos) = '{' →
      charAt s (skipWhitespace s (skipWhitespace s pos + 1)) ≠ '}' →
      ReadsLiteral s Place.entries depth (skipWhitespace s (skipWhitespace s pos + 1)) q →
      ReadsLiteral s Place.value (depth + 1) pos q
  /-- The literal is read inside the element that the loop of `parseArray` reads at the
  cursor. -/
  | element (depth pos q : Nat) :
      pos < s.length → ReadsLiteral s Place.value depth pos q →
      ReadsLiteral s Place.elements depth pos q
  /-- The element at the cursor is read without an error and a comma follows: the loop of
  `parseArray` goes on after the comma. -/
  | nextElement (depth pos next q : Nat) (v : JsonValue) :
      pos < s.length → parseValue s depth pos = .ok (v, next) →
      charAt s (skipWhitespace s next) = ',' →
      ReadsLiteral s Place.elements depth (skipWhitespace s next + 1) q →
      ReadsLiteral s Place.elements depth pos q
  /-- The entry at the cursor starts, after whitespace, with a quote: the loop of
  `parseObject` calls `parseString` there for the key. -/
  | key (depth pos : Nat) :
      pos < s.length → charAt s (skipWhitespace s pos) = '"' →
      ReadsLiteral s Place.entries depth pos (skipWhitespace s pos)
  /-- The key of the entry at the cursor is read without an error and a colon follows:
  the literal is read inside the value after the colon. -/
  | entryValue (depth pos colon q : Nat) (key : JsonValue) :
      pos < s.length → charAt s (skipWhitespace s pos) = '"' →
      parseString s (skipWhitespace s pos) = .ok (key, colon) →
      charAt s (skipWhitespace s colon) = ':' →
      ReadsLiteral s Place.value depth (skipWhitespace s colon + 1) q →
      ReadsLiteral s Place.entries depth pos q
  /-- The entry at the cursor, key, colon and value, is read without an error and a comma
  follows: the loop of `parseObject` goes on after the comma. -/
  | nextEntry (depth pos colon next q : Nat) (key v : JsonValue) :
      pos < s.length → charAt s (skipWhitespace s pos) = '"' →
      parseString s (skipWhitespace s pos) = .ok (key, colon) →
      charAt s (skipWhitespace s colon) = ':' →
      parseValue s depth (skipWhitespace s colon + 1) = .ok (v, next) →
      charAt s (skipWhitespace s next) = ',' →
      ReadsLiteral s Place.entries depth (skipWhitespace s next + 1) q →
      ReadsLiteral s Place.entries depth pos q

end JsonParser

/-! ## Lemmas on the cursor and the scanning loops -/

theorem StringItem.wellFormed_scanned (item : StringItem) (h : item.wellFormed = true) :
    item.scanned = true := by
  cases item <;> simp_all [StringItem.wellFormed, StringItem.scanned]

theorem charAt_add_of_drop (s : List Char) (pos k : Nat) :
    charAt s (pos + k) = charAt (s.drop pos) k := by
  simp [charAt, List.getD_eq_getElem?_getD, List.getElem?_drop]

theorem length_of_drop (s l : List Char) (pos : Nat) (h : s.drop pos = l) :
    s.length - pos = l.length := by
  rw [← h, List.length_drop]

theorem drop_add_of_drop (s t l : List Char) (pos : Nat) (h : s.drop pos = t ++ l) :
    s.drop (pos + t.length) = l := by
  rw [← List.drop_drop, h, List.drop_left]

theorem charAt_of_length_le (s : List Char) (pos : Nat) (h : s.length ≤ pos) :
    charAt s pos = Char.ofNat 0 := by
  simp [charAt, List.getD_eq_getElem?_getD, List.getElem?_eq_none_iff.mpr h]

namespace JsonParser

theorem skipWhitespaceLoop_stop (s : List Char) (fuel pos : Nat)
    (h : isspace (charAt s pos) = false) : skipWhitespaceLoop s fuel pos = pos := by
  cases fuel <;> simp [skipWhitespaceLoop, h]

theorem skipWhitespace_stop (s : List Char) (pos : Nat)
    (h : isspace (charAt s pos) = false) : skipWhitespace s pos = pos :=
  skipWhitespaceLoop_stop s _ pos h

theorem skipWhitespace_end (s : List Char) (pos : Nat) (h : s.length ≤ pos) :
    skipWhitespace s pos = pos := by
  apply skipWhitespace_stop
  rw [charAt_of_length_le s pos h]; decide

/-- A run of whitespace from `p` up to a non-blank character at `p + n`. -/
theorem skipWhitespaceLoop_run (s : List Char) : ∀ (n fuel p : Nat), n < fuel →
    (∀ k, p ≤ k → k < p + n → isspace (charAt s k) = true ∧ k < s.length) →
    isspace (charAt s (p + n)) = false →
    skipWhitespaceLoop s fuel p = p + n
  | 0, fuel, p, _, _, hq => by simpa using skipWhitespaceLoop_stop s fuel p (by simpa using hq)
  | n + 1, 0, p, hf, _, _ => by omega
  | n + 1, fuel + 1, p, hf, hrun, hq => by
    have h0 := hrun p (le_refl p) (by omega)
    have ih := skipWhitespaceLoop_run s n fuel (p + 1) (by omega)
      (fun k hk1 hk2 => hrun k (by omega) (by omega))
      (by rw [show p + 1 + n = p + (n + 1) by omega]; exact hq)
    simp [skipWhitespaceLoop, h0.1, h0.2, ih]; omega

theorem parseEscapeSequence_simple (s : List Char) (pos : Nat) (v : Char)
    (h : escapeValue (charAt s pos) = some v) :
    parseEscapeSequence s pos = .ok (v, pos + 1) := by
  unfold escapeValue at h
  unfold parseEscapeSequence
  simp only []
  split_ifs at h <;> simp_all <;> assumption

theorem parseEscapeSequence_unicode (s : List Char) (pos : Nat)
    (hu : charAt s pos = 'u') (hlen : pos + 4 < s.length) :
    parseEscapeSequence s pos = .ok ('?', pos + 5) := by
  have h : ¬ (s.length ≤ pos + 1 + 3) := by omega
  simp [parseEscapeSequence, hu, h]

theorem parseEscapeSequence_unicode_short (s : List Char) (pos : Nat)
    (hu : charAt s pos = 'u') (hlen : s.length ≤ pos + 4) :
    parseEscapeSequence s pos
      = throwParse "Неполная Unicode последовательность" (pos + 1) [] := by
  have h : s.length ≤ pos + 1 + 3 := by omega
  simp [parseEscapeSequence, hu, h]

theorem parseEscapeSequence_unknown (s : List Char) (pos : Nat)
    (hn : escapeValue (charAt s pos) = none) (hu : charAt s pos ≠ 'u') :
    parseEscapeSequence s pos
      = throwParse "Неизвестная escape-последовательность" pos [charAt s pos] := by
  unfold escapeValue at hn
  unfold parseEscapeSequence
  simp only []
  split_ifs at hn
  simp_all

theorem parseStringLoop_ordinary (s : List Char) (fuel pos : Nat) (acc : List Char)
    (hlt : pos < s.length) (hq : charAt s pos ≠ '"') (hb : charAt s pos ≠ '\\') :
    parseStringLoop s (fuel + 1) pos acc
      = parseStringLoop s fuel (pos + 1) (acc ++ [charAt s pos]) := by
  simp [parseStringLoop, hlt, hq, hb]

theorem parseStringLoop_escape (s : List Char) (fuel pos : Nat) (acc : List Char)
    (hlt : pos + 1 < s.length) (hb : charAt s pos = '\\') (c : Char) (next : Nat)
    (he : parseEscapeSequence s (pos + 1) = .ok (c, next)) :
    parseStringLoop s (fuel + 1) pos acc = parseStringLoop s fuel next (acc ++ [c]) := by
  have h1 : pos < s.length := by omega
  have h2 : ¬ (s.length ≤ pos + 1) := by omega
  simp [parseStringLoop, h1, h2, hb, he]

theorem parseStringLoop_escape_error (s : List Char) (fuel pos : Nat) (acc : List Char)
    (hlt : pos + 1 < s.length) (hb : charAt s pos = '\\') (e : Exn)
    (he : parseEscapeSequence s (pos + 1) = .error e) :
    parseStringLoop s (fuel + 1) pos acc = .error e := by
  have h1 : pos < s.length := by omega
  have h2 : ¬ (s.length ≤ pos + 1) := by omega
  simp [parseStringLoop, h1, h2, hb, he]

theorem parseStringLoop_escape_end (s : List Char) (fuel pos : Nat) (acc : List Char)
    (hlt : pos < s.length) (hend : s.length ≤ pos + 1) (hb : charAt s pos = '\\') :
    parseStringLoop s (fuel + 1) pos acc
      = throwParse "Незавершенная escape-последовательность" (pos + 1) [] := by
  simp [parseStringLoop, hlt, hend, hb]

theorem parseStringLoop_quote (s : List Char) (fuel pos : Nat) (acc : List Char)
    (hq : charAt s pos = '"') :
    parseStringLoop s (fuel + 1) pos acc = .ok (acc, pos) := by
  simp [parseStringLoop, hq]

theorem parseStringLoop_end (s : List Char) (fuel pos : Nat) (acc : List Char)
    (hend : s.length ≤ pos) :
    parseStringLoop s (fuel + 1) pos acc = .ok (acc, pos) := by
  have h : ¬ (pos < s.length) := by omega
  simp [parseStringLoop, h]

theorem length_le_bodyText (items : List StringItem) :
    items.length ≤ (bodyText items).length := by
  induction items with
  | nil => simp [bodyText]
  | cons item items ih =>
    cases item <;> simp [bodyText, StringItem.text] <;> omega

/-- The loop of `parseString` steps over the items of a body one by one. -/
theorem parseStringLoop_items : ∀ (items : List StringItem) (s post acc : List Char)
    (pos f : Nat), s.drop pos = bodyText items ++ post →
    (∀ item ∈ items, item.scanned = true) →
    parseStringLoop s (f + items.length) pos acc
      = parseStringLoop s f (pos + (bodyText items).length) (acc ++ bodyValue items)
  | [], s, post, acc, pos, f, _, _ => by simp [bodyText, bodyValue]
  | .ordinary c :: rest, s, post, acc, pos, f, hd, h => by
    have hc : (c != '"' && c != '\\') = true := by
      simpa [StringItem.scanned] using h (.ordinary c) (by simp)
    simp only [Bool.and_eq_true, bne_iff_ne, ne_eq] at hc
    have hd1 : s.drop pos = [c] ++ (bodyText rest ++ post) := by
      simpa [bodyText, StringItem.text] using hd
    have hlen := length_of_drop s _ pos hd1
    have h0 : charAt s pos = c := by
      have := charAt_add_of_drop s pos 0
      rw [hd1] at this; simpa [charAt] using this
    have ih := parseStringLoop_items rest s post (acc ++ [c]) (pos + 1) f
      (drop_add_of_drop s [c] _ pos hd1) (fun item hi => h item (by simp [hi]))
    rw [show f + (StringItem.ordinary c :: rest).length = (f + rest.length) + 1 by simp; omega,
      parseStringLoop_ordinary s _ pos acc (by simp at hlen; omega) (by rw [h0]; exact hc.1)
        (by rw [h0]; exact hc.2), h0, ih]
    simp [bodyText, bodyValue, StringItem.text, StringItem.value]
    congr 1; omega
  | .escape c :: rest, s, post, acc, pos, f, hd, h => by
    have hc : (escapeValue c).isSome = true := by
      simpa [StringItem.scanned] using h (.escape c) (by simp)
    obtain ⟨v, hv⟩ := Option.isSome_iff_exists.mp hc
    have hd1 : s.drop pos = ['\\', c] ++ (bodyText rest ++ post) := by
      simpa [bodyText, StringItem.text] using hd
    have hlen := length_of_drop s _ pos hd1
    have h0 : charAt s pos = '\\' := by
      have := charAt_add_of_drop s pos 0
      rw [hd1] at this; simpa [charAt] using this
    have h1 : charAt s (pos + 1) = c := by
      have := charAt_add_of_drop s pos 1
      rw [hd1] at this; simpa [charAt] using this
    have ih := parseStringLoop_items rest s post (acc ++ [v]) (pos + 2) f
      (drop_add_of_drop s ['\\', c] _ pos hd1) (fun item hi => h item (by simp [hi]))
    rw [show f + (StringItem.escape c :: rest).length = (f + rest.length) + 1 by simp; omega,
      parseStringLoop_escape s _ pos acc (by simp at hlen; omega) h0 v (pos + 2)
        (parseEscapeSequence_simple s (pos + 1) v (by rw [h1]; exact hv)), ih]
    simp [bodyText, bodyValue, StringItem.text, StringItem.value, hv]
    congr 1; omega
  | .unicode a b c d :: rest, s, post, acc, pos, f, hd, h => by
    have hd1 : s.drop pos = ['\\', 'u', a, b, c, d] ++ (bodyText rest ++ post) := by
      simpa [bodyText, StringItem.text] using hd
    have hlen := length_of_drop s _ pos hd1
    have h0 : charAt s pos = '\\' := by
      have := charAt_add_of_drop s pos 0
      rw [hd1] at this; simpa [charAt] using this
    have h1 : charAt s (pos + 1) = 'u' := by
      have := charAt_add_of_drop s pos 1
      rw [hd1] at this; simpa [charAt] using this
    have ih := parseStringLoop_items rest s post (acc ++ ['?']) (pos + 6) f
      (drop_add_of_drop s ['\\', 'u', a, b, c, d] _ pos hd1)
      (fun item hi => h item (by simp [hi]))
    rw [show f + (StringItem.unicode a b c d :: rest).length = (f + rest.length) + 1 by
        simp; omega,
      parseStringLoop_escape s _ pos acc (by simp at hlen; omega) h0 '?' (pos + 6)
        (parseEscapeSequence_unicode s (pos + 1) h1 (by simp at hlen; omega)), ih]
    simp [bodyText, bodyValue, StringItem.text, StringItem.value]
    congr 1; omega

/-- At a `"` the function `parseValue` hands over to `parseString`. -/
theorem parseValue_quote (s : List Char) (depth pos : Nat) (hq : charAt s pos = '"')
    (hlt : pos < s.length) :
    parseValue s (depth + 1) pos = parseString s pos := by
  have hw : skipWhitespace s pos = pos := skipWhitespace_stop s pos (by rw [hq]; decide)
  have h : ¬ (s.length ≤ pos) := by omega
  simp [parseValue, hw, hq, h]

theorem parse_of_parseValue_ok (s : List Char) (v : JsonValue)
    (h : parseValue s (s.length + 1) 0 = .ok (v, s.length)) : parse s = .ok v := by
  simp [parse, h, skipWhitespace_end s s.length (le_refl _)]

theorem parse_of_parseValue_error (s : List Char) (e : Exn)
    (h : parseValue s (s.length + 1) 0 = .error e) : parse s = .error e := by
  simp [parse, h]

/-- Scan of the body of a literal up to the character after its last item. -/
theorem parseStringLoop_body (items : List StringItem) (s post : List Char) (pos : Nat)
    (hd : s.drop pos = [ '"'] ++ (bodyText items ++ post))
    (h : ∀ item ∈ items, item.scanned = true) :
    parseStringLoop s (s.length + 1 - (pos + 1)) (pos + 1) []
      = parseStringLoop s (post.length + 1 + ((bodyText items).length - items.length))
          (pos + 1 + (bodyText items).length) (bodyValue items) := by
  have hlen := length_of_drop s _ pos hd
  have hle := length_le_bodyText items
  simp only [List.length_append, List.length_singleton] at hlen
  have hf : s.length + 1 - (pos + 1)
      = (post.length + 1 + ((bodyText items).length - items.length)) + items.length := by
    omega
  rw [hf, parseStringLoop_items items s post [] (pos + 1) _ (drop_add_of_drop s _ _ pos hd) h]
  simp

theorem parseString_closed (items : List StringItem) (s post : List Char) (pos : Nat)
    (hd : s.drop pos = [ '"'] ++ (bodyText items ++ '"' :: post))
    (h : ∀ item ∈ items, item.scanned = true) :
    parseString s pos
      = .ok (JsonValue.string (bodyValue items), pos + (bodyText items).length + 2) := by
  have hlen := length_of_drop s _ pos hd
  simp only [List.length_append, List.length_singleton, List.length_cons] at hlen
  have hq : charAt s (pos + 1 + (bodyText items).length) = '"' := by
    have hd2 := drop_add_of_drop s _ _ (pos + 1) (drop_add_of_drop s _ _ pos hd)
    have := charAt_add_of_drop s (pos + 1 + (bodyText items).length) 0
    simp only [List.length_singleton] at hd2
    rw [hd2] at this; simpa [charAt] using this
  have hlt : ¬ (s.length ≤ pos + 1 + (bodyText items).length) := by omega
  unfold parseString
  simp only []
  rw [parseStringLoop_body items s _ pos hd h,
    show ('"' :: post).length + 1 + ((bodyText items).length - items.length)
      = (post.length + 1 + ((bodyText items).length - items.length)) + 1 by simp; omega,
    parseStringLoop_quote s _ _ _ hq]
  simp [hq, hlt]
  omega

theorem parseString_unclosed (items : List StringItem) (s : List Char) (pos : Nat)
    (hd : s.drop pos = [ '"'] ++ (bodyText items ++ []))
    (h : ∀ item ∈ items, item.scanned = true) :
    parseString s pos = throwParse "Незавершенная строка" (pos + (bodyText items).length + 1) [] := by
  have hlen := length_of_drop s _ pos hd
  simp only [List.length_append, List.length_singleton, List.length_nil] at hlen
  have hend : s.length ≤ pos + 1 + (bodyText items).length := by omega
  unfold parseString
  simp only []
  rw [parseStringLoop_body items s _ pos hd h,
    show ([] : List Char).length + 1 + ((bodyText items).length - items.length)
      = ((bodyText items).length - items.length) + 1 by simp; omega,
    parseStringLoop_end s _ _ _ hend]
  simp [hend]
  congr 1; omega

theorem parseString_backslash_end (items : List StringItem) (s : List Char) (pos : Nat)
    (hd : s.drop pos = [ '"'] ++ (bodyText items ++ [ '\\']))
    (h : ∀ item ∈ items, item.scanned = true) :
    parseString s pos = throwParse "Незавершенная escape-последовательность"
      (pos + (bodyText items).length + 2) [] := by
  have hlen := length_of_drop s _ pos hd
  simp only [List.length_append, List.length_singleton] at hlen
  have hb : charAt s (pos + 1 + (bodyText items).length) = '\\' := by
    have hd2 := drop_add_of_drop s _ _ (pos + 1) (drop_add_of_drop s _ _ pos hd)
    have := charAt_add_of_drop s (pos + 1 + (bodyText items).length) 0
    simp only [List.length_singleton] at hd2
    rw [hd2] at this; simpa [charAt] using this
  unfold parseString
  simp only []
  rw [parseStringLoop_body items s _ pos hd h,
    show [ '\\'].length + 1 + ((bodyText items).length - items.length)
      = (1 + ((bodyText items).length - items.length)) + 1 by simp; omega,
    parseStringLoop_escape_end s _ _ _ (by omega) (by omega) hb]
  simp [throwParse]
  omega

theorem parseString_escape_error (items : List StringItem) (s rest : List Char) (pos : Nat)
    (c : Char) (e : Exn)
    (hd : s.drop pos = [ '"'] ++ (bodyText items ++ '\\' :: c :: rest))
    (h : ∀ item ∈ items, item.scanned = true)
    (he : parseEscapeSequence s (pos + (bodyText items).length + 2) = .error e) :
    parseString s pos = .error e := by
  have hlen := length_of_drop s _ pos hd
  simp only [List.length_append, List.length_singleton, List.length_cons] at hlen
  have hb : charAt s (pos + 1 + (bodyText items).length) = '\\' := by
    have hd2 := drop_add_of_drop s _ _ (pos + 1) (drop_add_of_drop s _ _ pos hd)
    have := charAt_add_of_drop s (pos + 1 + (bodyText items).length) 0
    simp only [List.length_singleton] at hd2
    rw [hd2] at this; simpa [charAt] using this
  unfold parseString
  simp only []
  rw [parseStringLoop_body items s _ pos hd h,
    show ('\\' :: c :: rest).length + 1 + ((bodyText items).length - items.length)
      = (rest.length + 2 + ((bodyText items).length - items.length)) + 1 by simp; omega,
    parseStringLoop_escape_error s _ _ _ (by omega) hb e
      (by rw [show pos + 1 + (bodyText items).length + 1 = pos + (bodyText items).length + 2
            by omega]; exact he)]

/-- Character right after the backslash that follows the items of a body. -/
theorem charAt_after_backslash (items : List StringItem) (s rest : List Char) (pos : Nat)
    (c : Char) (hd : s.drop pos = [ '"'] ++ (bodyText items ++ '\\' :: c :: rest)) :
    charAt s (pos + (bodyText items).length + 2) = c := by
  have hd2 := drop_add_of_drop s _ _ (pos + 1) (drop_add_of_drop s _ _ pos hd)
  have := charAt_add_of_drop s (pos + 1 + (bodyText items).length) 1
  simp only [List.length_singleton] at hd2
  rw [hd2] at this
  rw [show pos + (bodyText items).length + 2 = pos + 1 + (bodyText items).length + 1 by omega]
  simpa [charAt] using this

theorem parseString_unknown_escape (items : List StringItem) (s rest : List Char)
    (pos : Nat) (c : Char)
    (hd : s.drop pos = [ '"'] ++ (bodyText items ++ '\\' :: c :: rest))
    (h : ∀ item ∈ items, item.scanned = true)
    (hn : escapeValue c = none) (hu : c ≠ 'u') :
    parseString s pos = throwParse "Неизвестная escape-последовательность"
      (pos + (bodyText items).length + 2) [c] := by
  have hc := charAt_after_backslash items s rest pos c hd
  have he := parseEscapeSequence_unknown s (pos + (bodyText items).length + 2)
    (by rw [hc]; exact hn) (by rw [hc]; exact hu)
  rw [hc] at he
  exact parseString_escape_error items s rest pos c _ hd h he

theorem parseString_unicode_short (items : List StringItem) (s rest : List Char)
    (pos : Nat) (hd : s.drop pos = [ '"'] ++ (bodyText items ++ '\\' :: 'u' :: rest))
    (h : ∀ item ∈ items, item.scanned = true) (hr : rest.length < 4) :
    parseString s pos = throwParse "Неполная Unicode последовательность"
      (pos + (bodyText items).length + 3) [] := by
  have hc := charAt_after_backslash items s rest pos 'u' hd
  have hlen := length_of_drop s _ pos hd
  simp at hlen
  have he := parseEscapeSequence_unicode_short s (pos + (bodyText items).length + 2) hc
    (by omega)
  exact parseString_escape_error items s rest pos 'u' _ hd h he

/-- A text that starts with `"` is parsed by `parseString` from position 0. -/
theorem parseValue_literal (tl : List Char) :
    parseValue ('"' :: tl) (('"' :: tl).length + 1) 0 = parseString ('"' :: tl) 0 :=
  parseValue_quote ('"' :: tl) _ 0 rfl (by simp)

end JsonParser

/-! ## Lemmas on the conversion to records -/

theorem tdiv_eq_natAbs_div (m : Int) (k : Nat) :
    Int.tdiv m (10 ^ k) = if m < 0 then -((m.natAbs / 10 ^ k : Nat) : Int)
      else ((m.natAbs / 10 ^ k : Nat) : Int) := by
  have hk : ((10 : Int) ^ k) = ((10 ^ k : Nat) : Int) := by push_cast; rfl
  rw [hk]
  rcases Int.natAbs_eq m with h | h
  · have h0 : ¬ m < 0 := by omega
    rw [if_neg h0]
    conv_lhs => rw [h]
    exact (Int.ofNat_tdiv _ _).symm
  · by_cases h0 : m < 0
    · rw [if_pos h0]
      conv_lhs => rw [h]
      rw [Int.neg_tdiv]
      exact congrArg _ (Int.ofNat_tdiv _ _).symm
    · have hz : m.natAbs = 0 := by omega
      have hm : m = 0 := by omega
      rw [if_neg h0, hm]
      simp

/-- The integer part is the whole part of the absolute value, with the sign put back. -/
theorem Decimal.truncate_eq (n : Decimal) :
    n.truncate =
      if n.mantissa < 0 then
        -((n.mantissa.natAbs * 10 ^ n.exponent.toNat / 10 ^ (-n.exponent).toNat : Nat) : Int)
      else
        ((n.mantissa.natAbs * 10 ^ n.exponent.toNat / 10 ^ (-n.exponent).toNat : Nat) : Int) := by
  unfold Decimal.truncate
  by_cases he : 0 ≤ n.exponent
  · have h1 : (-n.exponent).toNat = 0 := by omega
    rw [if_pos he, h1, pow_zero, Nat.div_one]
    by_cases h0 : n.mantissa < 0
    · rw [if_pos h0]
      push_cast
      rw [abs_of_neg h0]
      ring
    · rw [if_neg h0]
      push_cast
      rw [abs_of_nonneg (by omega)]
  · have h1 : n.exponent.toNat = 0 := by omega
    rw [if_neg he, h1, pow_zero, Nat.mul_one]
    exact tdiv_eq_natAbs_div _ _

/-- The cast `static_cast<int>` is the conversion to an integer of the specification. -/
theorem Decimal.toInt_eq_specStatus (n : Decimal) : n.toInt = specStatus n := by
  unfold Decimal.toInt specStatus
  simp only [Decimal.truncate_eq]

/-- The cast on numbers inside the range of `int`, at its two ends, and outside it. -/
theorem Decimal.toInt_values :
    Decimal.toInt ⟨200, 0⟩ = 200 ∧ Decimal.toInt ⟨2009, -1⟩ = 200
      ∧ Decimal.toInt ⟨-15, -1⟩ = -1 ∧ Decimal.toInt ⟨-5, -1⟩ = 0
      ∧ Decimal.toInt ⟨4, 2⟩ = 400
      ∧ Decimal.toInt ⟨21474836479, -1⟩ = 2147483647
      ∧ Decimal.toInt ⟨-21474836489, -1⟩ = -2147483648
      ∧ Decimal.toInt ⟨2147483648, 0⟩ = -2147483648
      ∧ Decimal.toInt ⟨-2147483649, 0⟩ = -2147483648
      ∧ Decimal.toInt ⟨3, 9⟩ = -2147483648 ∧ Decimal.toInt ⟨1, 30⟩ = -2147483648 :=
  ⟨rfl, rfl, rfl, rfl, rfl, rfl, rfl, rfl, rfl, rfl, rfl⟩

/-- The converted status is a value of the type `int`. -/
theorem specStatus_range (n : Decimal) :
    -2147483648 ≤ specStatus n ∧ specStatus n ≤ 2147483647 := by
  have h : ∀ t : Int,
      -2147483648 ≤ (if -2147483648 ≤ t ∧ t ≤ 2147483647 then t else -2147483648)
        ∧ (if -2147483648 ≤ t ∧ t ≤ 2147483647 then t else -2147483648) ≤ 2147483647 := by
    intro t
    by_cases ht : -2147483648 ≤ t ∧ t ≤ 2147483647
    · rw [if_pos ht]; exact ht
    · rw [if_neg ht]; omega
  exact h _

namespace JsonValue

theorem toOption_bind_string (obj : List (List Char × JsonValue)) (key : List Char)
    (k : List Char → Except Exn LogEntry) :
    Except.toOption (mapAt obj key >>= fun v => v.asString >>= k)
      = (specStringAt obj key).bind (fun s => Except.toOption (k s)) := by
  unfold mapAt specStringAt
  cases h : mapFind key obj with
  | none => rfl
  | some v => cases v <;> rfl

theorem toOption_bind_number (obj : List (List Char × JsonValue)) (key : List Char)
    (k : Decimal → Except Exn LogEntry) :
    Except.toOption (mapAt obj key >>= fun v => v.asNumber >>= k)
      = (specNumberAt obj key).bind (fun n => Except.toOption (k n)) := by
  unfold mapAt specNumberAt
  cases h : mapFind key obj with
  | none => rfl
  | some v => cases v <;> rfl

theorem logEntryOf_toOption (obj : List (List Char × JsonValue)) :
    Except.toOption (logEntryOf obj) = specEntry (JsonValue.object obj) := by
  unfold logEntryOf specEntry
  simp only [toOption_bind_string, toOption_bind_number, Decimal.toInt_eq_specStatus]
  rfl

theorem asLogEntriesStep_eq (entries : List LogEntry) (val : JsonValue) :
    asLogEntriesStep entries val = entries ++ (specEntry val).toList := by
  cases val with
  | object obj =>
    have h := logEntryOf_toOption obj
    simp only [asLogEntriesStep]
    cases hl : logEntryOf obj with
    | error e => rw [hl] at h; simp [← h, Except.toOption]
    | ok entry => rw [hl] at h; simp [← h, Except.toOption]
  | _ => simp [asLogEntriesStep, specEntry]

theorem foldl_asLogEntriesStep (a : List JsonValue) :
    ∀ entries : List LogEntry,
      a.foldl asLogEntriesStep entries = entries ++ a.filterMap specEntry := by
  induction a with
  | nil => simp
  | cons v a ih =>
    intro entries
    rw [List.foldl_cons, ih, asLogEntriesStep_eq]
    cases h : specEntry v <;> simp [List.filterMap_cons, h]

theorem asLogEntries_array (a : List JsonValue) :
    asLogEntries (JsonValue.array a) = .ok (specEntries a) := by
  simp [asLogEntries, foldl_asLogEntriesStep, specEntries]

/-- The status of the records returned, for the numbers 200.9, -1.5 and 3000000000: the
fraction is dropped, and the number outside the range of `int` gives -2147483648. An
element that is no Object is skipped. -/
theorem asLogEntries_status_values :
    asLogEntries (JsonValue.array
        [JsonValue.object [("ip".toList, JsonValue.string []),
            ("method".toList, JsonValue.string []),
            ("status".toList, JsonValue.number ⟨2009, -1⟩),
            ("ts".toList, JsonValue.string []), ("url".toList, JsonValue.string [])],
         JsonValue.number ⟨200, 0⟩,
         JsonValue.object [("ip".toList, JsonValue.string []),
            ("method".toList, JsonValue.string []),
            ("status".toList, JsonValue.number ⟨-15, -1⟩),
            ("ts".toList, JsonValue.string []), ("url".toList, JsonValue.string [])],
         JsonValue.object [("ip".toList, JsonValue.string []),
            ("method".toList, JsonValue.string []),
            ("status".toList, JsonValue.number ⟨3, 9⟩),
            ("ts".toList, JsonValue.string []), ("url".toList, JsonValue.string [])]])
      = .ok [⟨[], [], [], [], 200⟩, ⟨[], [], [], [], -1⟩, ⟨[], [], [], [], -2147483648⟩] :=
  rfl

theorem specStringAt_eq_some (obj : List (List Char × JsonValue)) (key s : List Char) :
    specStringAt obj key = some s ↔ mapFind key obj = some (JsonValue.string s) := by
  unfold specStringAt
  cases h : mapFind key obj with
  | none => simp
  | some v => cases v <;> simp

theorem specNumberAt_eq_some (obj : List (List Char × JsonValue)) (key : List Char)
    (n : Decimal) :
    specNumberAt obj key = some n ↔ mapFind key obj = some (JsonValue.number n) := by
  unfold specNumberAt
  cases h : mapFind key obj with
  | none => simp
  | some v => cases v <;> simp

theorem specEntry_eq_some_iff (v : JsonValue) (e : LogEntry) :
    specEntry v = some e ↔ ∃ obj n, v = JsonValue.object obj
      ∧ mapFind "ts".toList obj = some (JsonValue.string e.timestamp)
      ∧ mapFind "ip".toList obj = some (JsonValue.string e.ip)
      ∧ mapFind "method".toList obj = some (JsonValue.string e.method)
      ∧ mapFind "url".toList obj = some (JsonValue.string e.url)
      ∧ mapFind "status".toList obj = some (JsonValue.number n)
      ∧ e.status = specStatus n := by
  cases v with
  | object obj =>
    simp only [specEntry, bind, Option.bind_eq_some, pure, Option.some.injEq,
      specStringAt_eq_some, specNumberAt_eq_some, JsonValue.object.injEq]
    constructor
    · rintro ⟨ts, hts, ip, hip, m, hm, u, hu, n, hn, rfl⟩
      exact ⟨obj, n, rfl, hts, hip, hm, hu, hn, rfl⟩
    · rintro ⟨obj2, n, rfl, hts, hip, hm, hu, hn, hs⟩
      refine ⟨_, hts, _, hip, _, hm, _, hu, n, hn, ?_⟩
      cases e; simp_all
  | _ =>
    constructor
    · intro h; simp [specEntry] at h
    · rintro ⟨obj, n, h, _⟩; cases h

end JsonValue

namespace JsonParser

theorem bodyText_append (xs ys : List StringItem) :
    bodyText (xs ++ ys) = bodyText xs ++ bodyText ys := by
  induction xs with
  | nil => rfl
  | cons x xs ih => simp [bodyText, ih]

/-- A literal whose body the scan steps over, closed by a quote, parses to its value. -/
theorem parse_literal_closed (items : List StringItem)
    (h : ∀ item ∈ items, item.scanned = true) :
    parse ('"' :: (bodyText items ++ [ '"'])) = .ok (JsonValue.string (bodyValue items)) := by
  apply parse_of_parseValue_ok
  rw [parseValue_literal, parseString_closed items _ [] 0 (by simp) h]
  simp

/-! ## The claims -/

/-- C1 (fails on the code): a value returned by `parse` need not survive
`parse (toString v pretty)`. The text `"\""` parses to the one-character string `"`;
`toString` writes that string between quotes without escaping it, as `"""`, in both modes,
and parsing this text fails with "Лишние символы после JSON" at position 2. -/
theorem toString_quote_not_reparsed :
    parse [ '"', '\\', '"', '"'] = .ok (JsonValue.string [ '"'])
      ∧ toString (JsonValue.string [ '"']) false = [ '"', '"', '"']
      ∧ toString (JsonValue.string [ '"']) true = [ '"', '"', '"']
      ∧ parse (toString (JsonValue.string [ '"']) false)
          = throwParse "Лишние символы после JSON" 2 []
      ∧ parse (toString (JsonValue.string [ '"']) true)
          = throwParse "Лишние символы после JSON" 2 [] :=
  ⟨rfl, rfl, rfl, rfl, rfl⟩

/-- C2 (fails on the code): truncated input is accepted. On the one-character texts `{`
and `[`, and on `{"a":1,`, the loop guard `pos < size` is false at the end of the text, the
loop is left without an error and `parse` returns the container read so far. -/
theorem parse_truncated_accepted :
    parse [ '{'] = .ok (JsonValue.object [])
      ∧ parse [ '['] = .ok (JsonValue.array [])
      ∧ parse [ '{', '"', 'a', '"', ':', '1', ',']
          = .ok (JsonValue.object [([ 'a'], JsonValue.number ⟨1, 0⟩)]) :=
  ⟨rfl, rfl, rfl⟩

/-- C3 (fails on the code): the incomplete number `1.` is accepted with value 1, and so
are `1e` and `-.5`, which have no exponent digit and no integer digit. -/
theorem parse_incomplete_number_accepted :
    parse [ '1', '.'] = .ok (JsonValue.number ⟨1, 0⟩)
      ∧ parse [ '1', 'e'] = .ok (JsonValue.number ⟨1, 0⟩)
      ∧ parse [ '-', '.', '5'] = .ok (JsonValue.number ⟨-5, -1⟩) :=
  ⟨rfl, rfl, rfl⟩

/-- C4: when the top-level value read from the start of the text ends at `p`, and `q` is
the index of the first character from `p` on that is not whitespace, `parse` fails with the
`JsonParseException` "Лишние символы после JSON" whose position is `q`. -/
theorem parse_trailing_garbage (s : List Char) (v : JsonValue) (p q : Nat)
    (hv : parseValue s (s.length + 1) 0 = .ok (v, p))
    (hpq : p ≤ q) (hq : q < s.length)
    (hws : ∀ k, p ≤ k → k < q → isspace (charAt s k) = true)
    (hns : isspace (charAt s q) = false) :
    parse s = .error (Exn.jsonParse ⟨"Лишние символы после JSON", q, []⟩) := by
  have hskip : skipWhitespace s p = q := by
    have := skipWhitespaceLoop_run s (q - p) (s.length - p) p (by omega)
      (fun k hk1 hk2 => ⟨hws k hk1 (by omega), by omega⟩)
      (by rw [show p + (q - p) = q by omega]; exact hns)
    rw [skipWhitespace, this]; omega
  have hne : q ≠ s.length := by omega
  simp [parse, hv, hskip, hne, throwParse]

theorem parse_trailing_garbage_witness :
    parseValue [ '1', ' ', 'x'] ([ '1', ' ', 'x'].length + 1) 0
        = .ok (JsonValue.number ⟨1, 0⟩, 1)
      ∧ parse [ '1', ' ', 'x']
        = .error (Exn.jsonParse ⟨"Лишние символы после JSON", 2, []⟩) :=
  ⟨rfl, parse_trailing_garbage [ '1', ' ', 'x'] (JsonValue.number ⟨1, 0⟩) 1 2 rfl
    (by decide) (by decide) (by decide) (by decide)⟩

/-- C5 (fails on the code): whitespace after the text changes the outcome. `parse` accepts
the truncated text `[1,` and returns the array of 1, and rejects the same text followed by
one space, with "Неожиданный конец JSON" at position 4. -/
theorem parse_trailing_space_changes_outcome :
    parse [ '[', '1', ','] = .ok (JsonValue.array [JsonValue.number ⟨1, 0⟩])
      ∧ parse ([] ++ [ '[', '1', ','] ++ [ ' '])
          = throwParse "Неожиданный конец JSON" 4 []
      ∧ isspace ' ' = true :=
  ⟨rfl, rfl, rfl⟩

/-- C6: a double-quoted literal whose body is made of ordinary characters (neither `"` nor
backslash), the eight two-character escapes and `\u` followed by four hexadecimal digits
is read as the String that keeps the ordinary characters and has, for each escape, the
character it denotes, and `?` for each `\u` escape: by `parseString` wherever the literal
stands in a text, and by `parse` when the literal is the text. -/
theorem parse_string_literal_decodes (items : List StringItem)
    (h : ∀ item ∈ items, item.wellFormed = true) :
    (∀ (s post : List Char) (pos : Nat),
        s.drop pos = '"' :: (bodyText items ++ '"' :: post) →
        parseString s pos
          = .ok (JsonValue.string (bodyValue items), pos + (bodyText items).length + 2))
      ∧ parse ('"' :: (bodyText items ++ [ '"']))
          = .ok (JsonValue.string (bodyValue items)) :=
  have hs : ∀ item ∈ items, item.scanned = true :=
    fun item hi => StringItem.wellFormed_scanned item (h item hi)
  ⟨fun s post pos hd => parseString_closed items s post pos hd hs,
   parse_literal_closed items hs⟩

theorem parse_string_literal_decodes_witness :
    (∀ item ∈ [StringItem.ordinary 'a', StringItem.escape 'n', StringItem.escape '"',
        StringItem.unicode '0' '0' '3' '1', StringItem.escape 'b'], item.wellFormed = true)
      ∧ parse [ '"', 'a', '\\', 'n', '\\', '"', '\\', 'u', '0', '0', '3', '1', '\\', 'b', '"']
          = .ok (JsonValue.string [ 'a', '\n', '"', '?', Char.ofNat 8]) :=
  ⟨by decide, (parse_string_literal_decodes
    [StringItem.ordinary 'a', StringItem.escape 'n', StringItem.escape '"',
      StringItem.unicode '0' '0' '3' '1', StringItem.escape 'b'] (by decide)).2⟩

/-- C8 (counterexample): the four characters after `\u` are not checked. `Z` is not a
hexadecimal digit, and the text `"\uZZZZ"` parses to the one-character string `?`. -/
theorem parse_unicode_non_hex_accepted :
    isHexDigit 'Z' = false
      ∧ parse [ '"', '\\', 'u', 'Z', 'Z', 'Z', 'Z', '"'] = .ok (JsonValue.string [ '?']) :=
  ⟨rfl, rfl⟩

/-- C8 (amended): inside a string literal a `\u` escape is accepted whenever four more
characters of the text follow it: they are skipped whatever they are and the escape yields
`?`; a `\u` with fewer than four characters left in the text is a parse error. -/
theorem parse_unicode_escape_unchecked (before after : List StringItem)
    (hb : ∀ item ∈ before, item.scanned = true) (ha : ∀ item ∈ after, item.scanned = true) :
    (∀ a b c d : Char,
        parse ('"' :: (bodyText before ++ '\\' :: 'u' :: a :: b :: c :: d
                        :: (bodyText after ++ [ '"'])))
          = .ok (JsonValue.string (bodyValue before ++ '?' :: bodyValue after)))
      ∧ (∀ rest : List Char, rest.length < 4 →
          parse ('"' :: (bodyText before ++ '\\' :: 'u' :: rest))
            = .error (Exn.jsonParse ⟨"Неполная Unicode последовательность",
                (bodyText before).length + 3, []⟩)) := by
  refine ⟨?_, ?_⟩
  · intro a b c d
    have hall : ∀ item ∈ before ++ StringItem.unicode a b c d :: after,
        item.scanned = true := by
      intro item hi
      rcases List.mem_append.mp hi with h1 | h1
      · exact hb item h1
      · rcases List.mem_cons.mp h1 with h2 | h2
        · rw [h2]; rfl
        · exact ha item h2
    have := parse_literal_closed (before ++ StringItem.unicode a b c d :: after) hall
    simpa [bodyText_append, bodyText, bodyValue, StringItem.text, StringItem.value]
      using this
  · intro rest hr
    apply parse_of_parseValue_error
    rw [parseValue_literal, parseString_unicode_short before _ rest 0 (by simp) hb hr]
    simp [throwParse]

theorem parse_unicode_escape_unchecked_witness :
    (∀ item ∈ [StringItem.ordinary 'a'], item.scanned = true)
      ∧ (∀ item ∈ [StringItem.ordinary 'b'], item.scanned = true)
      ∧ parse [ '"', 'a', '\\', 'u', '1', 'x', '"', '\\', 'b', '"']
          = .ok (JsonValue.string [ 'a', '?', 'b'])
      ∧ parse [ '"', 'a', '\\', 'u', '1', '2', '"']
          = .error (Exn.jsonParse ⟨"Неполная Unicode последовательность", 4, []⟩) :=
  ⟨by decide, by decide,
   (parse_unicode_escape_unchecked [StringItem.ordinary 'a'] [StringItem.ordinary 'b']
      (by decide) (by decide)).1 '1' 'x' '"' '\\',
   (parse_unicode_escape_unchecked [StringItem.ordinary 'a'] [StringItem.ordinary 'b']
      (by decide) (by decide)).2 [ '1', '2', '"'] (by decide)⟩

end JsonParser

namespace JsonValue

/-- C9 (counterexample): an invalid record is kept. The array parsed from one object that
has the five keys with values of the right types and status 999 is converted to one
`LogEntry`, and that entry fails `isValid`. -/
theorem asLogEntries_keeps_invalid_record :
    JsonParser.parse ("[\x7b\"ts\":\"2025-03-14T12:03:21Z\",\"ip\":\"192.168.1.1\","
        ++ "\"method\":\"GET\",\"url\":\"/index.html\",\"status\":999\x7d]").toList
      = .ok (JsonValue.array [JsonValue.object
          [("ip".toList, JsonValue.string "192.168.1.1".toList),
           ("method".toList, JsonValue.string "GET".toList),
           ("status".toList, JsonValue.number ⟨999, 0⟩),
           ("ts".toList, JsonValue.string "2025-03-14T12:03:21Z".toList),
           ("url".toList, JsonValue.string "/index.html".toList)]])
    ∧ asLogEntries (JsonValue.array [JsonValue.object
          [("ip".toList, JsonValue.string "192.168.1.1".toList),
           ("method".toList, JsonValue.string "GET".toList),
           ("status".toList, JsonValue.number ⟨999, 0⟩),
           ("ts".toList, JsonValue.string "2025-03-14T12:03:21Z".toList),
           ("url".toList, JsonValue.string "/index.html".toList)]])
      = .ok [⟨"2025-03-14T12:03:21Z".toList, "192.168.1.1".toList, "GET".toList,
              "/index.html".toList, 999⟩]
    ∧ LogEntry.isValid ⟨"2025-03-14T12:03:21Z".toList, "192.168.1.1".toList, "GET".toList,
        "/index.html".toList, 999⟩ = false :=
  ⟨rfl, rfl, rfl⟩

/-- C9 (amended): bulk conversion drops only elements of the wrong shape. A `LogEntry` is
in `a.asLogEntries()` exactly when some element of `a` is an Object that binds `ts`, `ip`,
`method` and `url` to the entry's String fields and `status` to a Number of which the
entry's status is the conversion to `int`: the integer part of the Number when it lies
between -2147483648 and 2147483647, and -2147483648 when it does not. No field validator
is consulted. -/
theorem asLogEntries_mem_iff (a : List JsonValue) (e : LogEntry) :
    (∃ entries, asLogEntries (JsonValue.array a) = .ok entries ∧ e ∈ entries)
      ↔ ∃ obj n, JsonValue.object obj ∈ a
          ∧ mapFind "ts".toList obj = some (JsonValue.string e.timestamp)
          ∧ mapFind "ip".toList obj = some (JsonValue.string e.ip)
          ∧ mapFind "method".toList obj = some (JsonValue.string e.method)
          ∧ mapFind "url".toList obj = some (JsonValue.string e.url)
          ∧ mapFind "status".toList obj = some (JsonValue.number n)
          ∧ e.status = specStatus n := by
  rw [asLogEntries_array]
  constructor
  · rintro ⟨entries, h, he⟩
    cases h
    obtain ⟨v, hv, hs⟩ := List.mem_filterMap.mp he
    obtain ⟨obj, n, rfl, h1⟩ := (specEntry_eq_some_iff v e).mp hs
    exact ⟨obj, n, hv, h1⟩
  · rintro ⟨obj, n, hv, h1⟩
    exact ⟨_, rfl, List.mem_filterMap.mpr
      ⟨_, hv, (specEntry_eq_some_iff _ e).mpr ⟨obj, n, rfl, h1⟩⟩⟩

/-- C10: for every Array value `a`, `a.asLogEntries()` does not fail and returns, in array
order, the records of exactly those elements that are Objects having keys `ts`, `ip`,
`method`, `url` bound to String values and key `status` bound to a Number value; every
other element is skipped, and keys other than these five play no part. The status of a
record is the Number converted to an `int`: the integer part of the Number when it lies
between -2147483648 and 2147483647, and -2147483648 when it does not; so every status
returned is in the range of `int`. -/
theorem asLogEntries_lenient (a : List JsonValue) :
    asLogEntries (JsonValue.array a) = .ok (specEntries a)
      ∧ ∀ e ∈ specEntries a, -2147483648 ≤ e.status ∧ e.status ≤ 2147483647 := by
  refine ⟨asLogEntries_array a, ?_⟩
  intro e he
  obtain ⟨v, _, hs⟩ := List.mem_filterMap.mp he
  obtain ⟨obj, n, _, _, _, _, _, _, hst⟩ := (specEntry_eq_some_iff v e).mp hs
  rw [hst]
  exact specStatus_range n

end JsonValue

/-! ## Lemmas on the validators and the ranking -/

theorem matchItems_length : ∀ (ps : List PatternItem) (cs : List Char),
    matchItems ps cs = true → cs.length = ps.length
  | [], [], _ => rfl
  | [], _ :: _, h => by simp [matchItems] at h
  | _ :: _, [], h => by simp [matchItems] at h
  | PatternItem.digit :: ps, c :: cs, h => by
    simp only [matchItems, Bool.and_eq_true] at h
    simp [matchItems_length ps cs h.2]
  | PatternItem.lit l :: ps, c :: cs, h => by
    simp only [matchItems, Bool.and_eq_true] at h
    simp [matchItems_length ps cs h.2]

theorem splitDots_ne_nil : ∀ s : List Char, splitDots s ≠ []
  | [] => by simp [splitDots]
  | c :: cs => by
    simp only [splitDots]
    split_ifs
    · simp
    · cases h : splitDots cs <;> simp

/-- The string is its pieces put back together with dots. -/
theorem splitDots_cons : ∀ (s a : List Char) (gs : List (List Char)),
    splitDots s = a :: gs →
      (gs = [] → s = a) ∧ (gs ≠ [] → ∃ rest, s = a ++ '.' :: rest ∧ splitDots rest = gs)
  | [], a, gs, h => by
    simp [splitDots] at h
    obtain ⟨rfl, rfl⟩ := h
    simp
  | c :: cs, a, gs, h => by
    simp only [splitDots] at h
    split_ifs at h with hc
    · simp only [List.cons.injEq] at h
      obtain ⟨rfl, rfl⟩ := h
      refine ⟨fun h0 => absurd h0 (splitDots_ne_nil cs), fun _ => ⟨cs, by simp [hc], rfl⟩⟩
    · cases hs : splitDots cs with
      | nil => exact absurd hs (splitDots_ne_nil cs)
      | cons g gs' =>
        rw [hs] at h
        simp only [List.cons.injEq] at h
        obtain ⟨rfl, rfl⟩ := h
        have ih := splitDots_cons cs g gs' hs
        refine ⟨fun h0 => by rw [ih.1 h0], fun h1 => ?_⟩
        obtain ⟨rest, hr, hsr⟩ := ih.2 h1
        exact ⟨rest, by rw [hr]; simp, hsr⟩

theorem splitDots_append_dot : ∀ (g rest : List Char), (∀ c ∈ g, c ≠ '.') →
    splitDots (g ++ '.' :: rest) = g :: splitDots rest
  | [], rest, _ => by simp [splitDots]
  | c :: g, rest, h => by
    have hc : c ≠ '.' := h c (by simp)
    have ih := splitDots_append_dot g rest (fun x hx => h x (by simp [hx]))
    simp [splitDots, hc, ih]

theorem splitDots_no_dot : ∀ (g : List Char), (∀ c ∈ g, c ≠ '.') → splitDots g = [g]
  | [], _ => by simp [splitDots]
  | c :: g, h => by
    have hc : c ≠ '.' := h c (by simp)
    have ih := splitDots_no_dot g (fun x hx => h x (by simp [hx]))
    simp [splitDots, hc, ih]

theorem ne_dot_of_isdigit (c : Char) (h : isdigit c = true) : c ≠ '.' := by
  rintro rfl
  exact absurd h (by decide)

theorem no_dot_of_isOctet (g : List Char) (h : isOctet g = true) : ∀ c ∈ g, c ≠ '.' := by
  intro c hc
  simp only [isOctet, Bool.and_eq_true, List.all_eq_true] at h
  exact ne_dot_of_isdigit c (h.1.1.1 c hc)

theorem toNat_of_isdigit (c : Char) (h : isdigit c = true) :
    48 ≤ c.toNat ∧ c.toNat ≤ 57 := by
  simp only [isdigit, Bool.and_eq_true, decide_eq_true_eq] at h
  exact ⟨h.1, h.2⟩

theorem natOfDigits_le (g : List Char) (hd : g.all isdigit = true) (h3 : g.length ≤ 3) :
    natOfDigits g ≤ 999 := by
  simp only [List.all_eq_true] at hd
  rcases g with _ | ⟨a, _ | ⟨b, _ | ⟨c, _ | ⟨d, g⟩⟩⟩⟩
  · simp [natOfDigits]
  · have := toNat_of_isdigit a (hd a (by simp))
    simp [natOfDigits]; omega
  · have := toNat_of_isdigit a (hd a (by simp))
    have := toNat_of_isdigit b (hd b (by simp))
    simp [natOfDigits]; omega
  · have := toNat_of_isdigit a (hd a (by simp))
    have := toNat_of_isdigit b (hd b (by simp))
    have := toNat_of_isdigit c (hd c (by simp))
    simp [natOfDigits]; omega
  · simp at h3

/-- On a run of one to three digits `std::stoi` returns the value of the run. -/
theorem stoi_of_digits (g : List Char) (hd : g.all isdigit = true) (h1 : 1 ≤ g.length)
    (h3 : g.length ≤ 3) : stoi g = .ok (natOfDigits g : Int) := by
  have htw : g.takeWhile isdigit = g := by
    rw [List.takeWhile_eq_self_iff]
    simpa using hd
  have hne : g ≠ [] := by
    intro h; rw [h] at h1; simp at h1
  have hle := natOfDigits_le g hd h3
  have hnot : ¬ (natOfDigits g > 2147483647) := by omega
  simp [stoi, htw, hne, hnot]

namespace LogEntry

theorem ipPatternMatch_eq_some (s : List Char) (groups : List (List Char))
    (h : ipPatternMatch s = some groups) :
    groups = splitDots s ∧ groups.length = 4
      ∧ ∀ g ∈ groups, g.all isdigit = true ∧ 1 ≤ g.length ∧ g.length ≤ 3 := by
  unfold ipPatternMatch at h
  simp only [] at h
  split_ifs at h with hc
  simp only [Option.some.injEq] at h
  subst h
  simp only [Bool.and_eq_true, decide_eq_true_eq, List.all_eq_true] at hc
  exact ⟨rfl, hc.1, fun g hg => ⟨by simpa using (hc.2 g hg).1.1, (hc.2 g hg).1.2, (hc.2 g hg).2⟩⟩

end LogEntry

theorem toupper_toupper (c : Char) : toupper (toupper c) = toupper c := by
  by_cases h : 97 ≤ c.toNat ∧ c.toNat ≤ 122
  · have hc : c = Char.ofNat c.toNat := (Char.ofNat_toNat c).symm
    generalize c.toNat = n at h hc
    obtain ⟨h1, h2⟩ := h
    subst hc
    interval_cases n <;> decide
  · have : toupper c = c := by
      simp only [toupper, Bool.and_eq_true, decide_eq_true_eq]
      rw [if_neg]
      exact h
    rw [this, this]

theorem toupper_tolower (c : Char) : toupper (tolower c) = toupper c := by
  by_cases h : 65 ≤ c.toNat ∧ c.toNat ≤ 90
  · have hc : c = Char.ofNat c.toNat := (Char.ofNat_toNat c).symm
    generalize c.toNat = n at h hc
    obtain ⟨h1, h2⟩ := h
    subst hc
    interval_cases n <;> decide
  · have : tolower c = c := by
      simp only [tolower, Bool.and_eq_true, decide_eq_true_eq]
      rw [if_neg]
      exact h
    rw [this]

theorem map_toupper_of_isRecasing : ∀ (m m' : List Char), isRecasing m m' = true →
    m'.map toupper = m.map toupper
  | [], [], _ => rfl
  | [], _ :: _, h => by simp [isRecasing] at h
  | _ :: _, [], h => by simp [isRecasing] at h
  | a :: as, b :: bs, h => by
    simp only [isRecasing, Bool.and_eq_true, Bool.or_eq_true, beq_iff_eq] at h
    have ih := map_toupper_of_isRecasing as bs h.2
    have hb : toupper b = toupper a := by
      rcases h.1 with (h1 | h1) | h1
      · rw [h1]
      · rw [h1, toupper_toupper]
      · rw [h1, toupper_tolower]
    simp [hb, ih]

namespace LogAnalyzer

theorem sortByCount_pairwise (pairs : List (List Char × Int)) :
    (sortByCount pairs).Pairwise (fun a b => a.2 ≥ b.2) := by
  have htotal : IsTotal (List Char × Int) (fun a b => a.2 ≥ b.2) :=
    ⟨fun a b => le_total b.2 a.2⟩
  have htrans : IsTrans (List Char × Int) (fun a b => a.2 ≥ b.2) :=
    ⟨fun a b c hab hbc => le_trans hbc hab⟩
  exact List.sorted_insertionSort (fun a b : List Char × Int => a.2 ≥ b.2) pairs

theorem truncate_sublist (sorted : List (List Char × Int)) (n : Int) :
    (truncate sorted n).Sublist sorted := by
  unfold truncate
  split_ifs
  · exact List.take_sublist _ _
  · exact List.Sublist.refl _

theorem truncate_sortByCount_pairwise (pairs : List (List Char × Int)) (n : Int) :
    (truncate (sortByCount pairs) n).Pairwise (fun a b => a.2 ≥ b.2) :=
  (sortByCount_pairwise pairs).sublist (truncate_sublist _ n)

end LogAnalyzer

/-! ## The claims on accessors, validators and ranking -/

namespace JsonValue

/-- C11: each typed accessor succeeds exactly on its own tag and then returns the stored
payload: `asString` on a String, `asNumber` on a Number, `asBoolean` on a Boolean, the const
lookup by key on an Object that holds the key, the lookup by index `i` on an Array with
`i < size`; in every other case it fails with a `std::runtime_error`. -/
theorem accessors_fail_on_wrong_tag (v : JsonValue) :
    (∀ s, v.asString = .ok s ↔ v = JsonValue.string s)
      ∧ (v.isString = false → ∃ what, v.asString = .error (Exn.runtimeError what))
      ∧ (∀ n, v.asNumber = .ok n ↔ v = JsonValue.number n)
      ∧ (v.isNumber = false → ∃ what, v.asNumber = .error (Exn.runtimeError what))
      ∧ (∀ b, v.asBoolean = .ok b ↔ v = JsonValue.boolean b)
      ∧ (v.isBoolean = false → ∃ what, v.asBoolean = .error (Exn.runtimeError what))
      ∧ (∀ key x, v.atKey key = .ok x
          ↔ ∃ obj, v = JsonValue.object obj ∧ mapFind key obj = some x)
      ∧ (∀ key, (∀ obj, v = JsonValue.object obj → mapFind key obj = none) →
          ∃ what, v.atKey key = .error (Exn.runtimeError what))
      ∧ (∀ i x, v.atIndex i = .ok x
          ↔ ∃ arr, v = JsonValue.array arr ∧ i < arr.length ∧ arr[i]? = some x)
      ∧ (∀ i, (∀ arr, v = JsonValue.array arr → arr.length ≤ i) →
          ∃ what, v.atIndex i = .error (Exn.runtimeError what)) := by
  refine ⟨?_, ?_, ?_, ?_, ?_, ?_, ?_, ?_, ?_, ?_⟩
  · intro s; cases v <;> simp [asString]
  · intro h; cases v <;> simp_all [asString, isString]
  · intro n; cases v <;> simp [asNumber]
  · intro h; cases v <;> simp_all [asNumber, isNumber]
  · intro b; cases v <;> simp [asBoolean]
  · intro h; cases v <;> simp_all [asBoolean, isBoolean]
  · intro key x
    cases v with
    | object obj =>
      simp only [atKey, JsonValue.object.injEq, exists_eq_left']
      cases h : mapFind key obj <;> simp
    | _ =>
      constructor
      · intro h; simp [atKey] at h
      · rintro ⟨obj, h, _⟩; cases h
  · intro key h
    cases v with
    | object obj => simp [atKey, h obj rfl]
    | _ => simp [atKey]
  · intro i x
    cases v with
    | array arr =>
      simp only [atIndex, JsonValue.array.injEq, exists_eq_left']
      by_cases hi : i < arr.length
      · simp [hi, List.getElem?_eq_getElem hi]
      · simp [hi]
    | _ =>
      constructor
      · intro h; simp [atIndex] at h
      · rintro ⟨arr, h, _⟩; cases h
  · intro i h
    cases v with
    | array arr =>
      have := h arr rfl
      simp [atIndex, Nat.not_lt.mpr this]
    | _ => simp [atIndex]

/-- C12 (counterexample): the size of a String value is a number. `size()` returns 0 for
the String `abc`, and `empty()` returns true. -/
theorem size_of_string_is_zero :
    size (JsonValue.string [ 'a', 'b', 'c']) = 0
      ∧ empty (JsonValue.string [ 'a', 'b', 'c']) = true :=
  ⟨rfl, rfl⟩

/-- C12 (amended): asking a value that is neither an Array nor an Object for its length
does not fail: `size()` returns 0 and `empty()` returns true. -/
theorem size_of_non_container (v : JsonValue) (ha : v.isArray = false)
    (ho : v.isObject = false) : v.size = 0 ∧ v.empty = true := by
  cases v <;> simp_all [size, empty, isArray, isObject]

theorem size_of_non_container_witness :
    (JsonValue.number ⟨42, 0⟩).isArray = false ∧ (JsonValue.number ⟨42, 0⟩).isObject = false
      ∧ (JsonValue.number ⟨42, 0⟩).size = 0 ∧ (JsonValue.number ⟨42, 0⟩).empty = true :=
  ⟨rfl, rfl, size_of_non_container (JsonValue.number ⟨42, 0⟩) rfl rfl⟩

end JsonValue

namespace LogEntry

/-- C13 (fails on the code): timestamps with fields out of range pass the validator.
Month 13, hour 25, minute 60 and second 61 are all accepted, and a record that carries the
month-13 timestamp with otherwise valid fields is valid. -/
theorem validateTimestamp_accepts_out_of_range :
    validateTimestamp "2025-13-14T12:03:21Z".toList = true
      ∧ validateTimestamp "2025-03-14T25:03:21Z".toList = true
      ∧ validateTimestamp "2025-03-14T12:60:21Z".toList = true
      ∧ validateTimestamp "2025-03-14T12:03:61Z".toList = true
      ∧ isValid ⟨"2025-13-14T12:03:21Z".toList, "192.168.1.1".toList, "GET".toList,
          "/index.html".toList, 200⟩ = true :=
  ⟨rfl, rfl, rfl, rfl, rfl⟩

/-- C14: `validateTimestamp ts` is true exactly when `ts` has length 20, holds `-` at
positions 4 and 7, `T` at 10, `:` at 13 and 16, `Z` at 19, and a decimal digit at each of
the fourteen other positions; the values of the digit groups are not looked at. -/
theorem validateTimestamp_iff (ts : List Char) :
    validateTimestamp ts = true ↔
      ts.length = 20 ∧ charAt ts 4 = '-' ∧ charAt ts 7 = '-' ∧ charAt ts 10 = 'T'
        ∧ charAt ts 13 = ':' ∧ charAt ts 16 = ':' ∧ charAt ts 19 = 'Z'
        ∧ ∀ i ∈ timestampDigitPositions, isdigit (charAt ts i) = true := by
  by_cases hlen : ts.length = 20
  ·
    obtain ⟨c0, t0, rfl⟩ := List.exists_cons_of_length_eq_add_one (l := ts) (n := 19)
      (by simpa using hlen)
    obtain ⟨c1, t1, rfl⟩ := List.exists_cons_of_length_eq_add_one (l := t0) (n := 18)
      (by simpa using hlen)
    obtain ⟨c2, t2, rfl⟩ := List.exists_cons_of_length_eq_add_one (l := t1) (n := 17)
      (by simpa using hlen)
    obtain ⟨c3, t3, rfl⟩ := List.exists_cons_of_length_eq_add_one (l := t2) (n := 16)
      (by simpa using hlen)
    obtain ⟨c4, t4, rfl⟩ := List.exists_cons_of_length_eq_add_one (l := t3) (n := 15)
      (by simpa using hlen)
    obtain ⟨c5, t5, rfl⟩ := List.exists_cons_of_length_eq_add_one (l := t4) (n := 14)
      (by simpa using hlen)
    obtain ⟨c6, t6, rfl⟩ := List.exists_cons_of_length_eq_add_one (l := t5) (n := 13)
      (by simpa using hlen)
    obtain ⟨c7, t7, rfl⟩ := List.exists_cons_of_length_eq_add_one (l := t6) (n := 12)
      (by simpa using hlen)
    obtain ⟨c8, t8, rfl⟩ := List.exists_cons_of_length_eq_add_one (l := t7) (n := 11)
      (by simpa using hlen)
    obtain ⟨c9, t9, rfl⟩ := List.exists_cons_of_length_eq_add_one (l := t8) (n := 10)
      (by simpa using hlen)
    obtain ⟨c10, t10, rfl⟩ := List.exists_cons_of_length_eq_add_one (l := t9) (n := 9)
      (by simpa using hlen)
    obtain ⟨c11, t11, rfl⟩ := List.exists_cons_of_length_eq_add_one (l := t10) (n := 8)
      (by simpa using hlen)
    obtain ⟨c12, t12, rfl⟩ := List.exists_cons_of_length_eq_add_one (l := t11) (n := 7)
      (by simpa using hlen)
    obtain ⟨c13, t13, rfl⟩ := List.exists_cons_of_length_eq_add_one (l := t12) (n := 6)
      (by simpa using hlen)
    obtain ⟨c14, t14, rfl⟩ := List.exists_cons_of_length_eq_add_one (l := t13) (n := 5)
      (by simpa using hlen)
    obtain ⟨c15, t15, rfl⟩ := List.exists_cons_of_length_eq_add_one (l := t14) (n := 4)
      (by simpa using hlen)
    obtain ⟨c16, t16, rfl⟩ := List.exists_cons_of_length_eq_add_one (l := t15) (n := 3)
      (by simpa using hlen)
    obtain ⟨c17, t17, rfl⟩ := List.exists_cons_of_length_eq_add_one (l := t16) (n := 2)
      (by simpa using hlen)
    obtain ⟨c18, t18, rfl⟩ := List.exists_cons_of_length_eq_add_one (l := t17) (n := 1)
      (by simpa using hlen)
    obtain ⟨c19, t19, rfl⟩ := List.exists_cons_of_length_eq_add_one (l := t18) (n := 0)
      (by simpa using hlen)
    have hnil : t19 = [] := List.eq_nil_of_length_eq_zero (by simpa using hlen)
    subst hnil
    simp [validateTimestamp, isoPattern, matchItems, charAt, timestampDigitPositions]
    tauto
  · constructor
    · intro h
      exact absurd (matchItems_length _ _ h) hlen
    · intro h
      exact absurd h.1 hlen

/-- C15: `validateIP s` is true exactly when `s` is four groups of one to three decimal
digits, each of value at most 255, separated by single dots, with nothing before or
after. The validator returns a boolean on every input: on each group the pattern matched,
`std::stoi` returns the value of the group. An octet 255 is accepted, 256 is not. -/
theorem validateIP_iff (s : List Char) :
    (validateIP s = true ↔ ∃ a b c d : List Char,
        s = a ++ '.' :: (b ++ '.' :: (c ++ '.' :: d))
          ∧ isOctet a = true ∧ isOctet b = true ∧ isOctet c = true ∧ isOctet d = true)
      ∧ (∀ groups, ipPatternMatch s = some groups →
          ∀ g ∈ groups, stoi g = .ok (natOfDigits g : Int))
      ∧ validateIP "255.255.255.255".toList = true
      ∧ validateIP "256.168.1.1".toList = false := by
  refine ⟨⟨?_, ?_⟩, ?_, by decide, by decide⟩
  · intro h
    unfold validateIP at h
    cases hm : ipPatternMatch s with
    | none => rw [hm] at h; simp at h
    | some groups =>
      rw [hm] at h
      simp only [List.all_eq_true, decide_eq_true_eq] at h
      obtain ⟨hg, hlen, hall⟩ := ipPatternMatch_eq_some s groups hm
      rcases groups with _ | ⟨a, _ | ⟨b, _ | ⟨c, _ | ⟨d, _ | ⟨e, gs⟩⟩⟩⟩⟩ <;>
        simp at hlen
      obtain ⟨r1, hs1, hr1⟩ := (splitDots_cons s a _ hg.symm).2 (by simp)
      obtain ⟨r2, hs2, hr2⟩ := (splitDots_cons r1 b _ hr1).2 (by simp)
      obtain ⟨r3, hs3, hr3⟩ := (splitDots_cons r2 c _ hr2).2 (by simp)
      have hs4 := (splitDots_cons r3 d _ hr3).1 rfl
      refine ⟨a, b, c, d, by rw [hs1, hs2, hs3, hs4], ?_, ?_, ?_, ?_⟩ <;>
        simp only [isOctet, Bool.and_eq_true, decide_eq_true_eq]
      · exact ⟨⟨⟨(hall a (by simp)).1, (hall a (by simp)).2.1⟩, (hall a (by simp)).2.2⟩,
          h a (by simp)⟩
      · exact ⟨⟨⟨(hall b (by simp)).1, (hall b (by simp)).2.1⟩, (hall b (by simp)).2.2⟩,
          h b (by simp)⟩
      · exact ⟨⟨⟨(hall c (by simp)).1, (hall c (by simp)).2.1⟩, (hall c (by simp)).2.2⟩,
          h c (by simp)⟩
      · exact ⟨⟨⟨(hall d (by simp)).1, (hall d (by simp)).2.1⟩, (hall d (by simp)).2.2⟩,
          h d (by simp)⟩
  · rintro ⟨a, b, c, d, rfl, ha, hb, hc, hd⟩
    have hsplit : splitDots (a ++ '.' :: (b ++ '.' :: (c ++ '.' :: d))) = [a, b, c, d] := by
      rw [splitDots_append_dot a _ (no_dot_of_isOctet a ha),
        splitDots_append_dot b _ (no_dot_of_isOctet b hb),
        splitDots_append_dot c _ (no_dot_of_isOctet c hc),
        splitDots_no_dot d (no_dot_of_isOctet d hd)]
    simp only [isOctet, Bool.and_eq_true, decide_eq_true_eq] at ha hb hc hd
    simp [validateIP, ipPatternMatch, hsplit, ha, hb, hc, hd]
  · intro groups hm g hg
    obtain ⟨_, _, hall⟩ := ipPatternMatch_eq_some s groups hm
    exact stoi_of_digits g (hall g hg).1 (hall g hg).2.1 (hall g hg).2.2

/-- C16: `validateMethod m` is true exactly when `m`, upper-cased, is one of GET, POST,
PUT, DELETE, HEAD, OPTIONS, PATCH, CONNECT, TRACE; so every re-casing of `m` gets the
same answer as `m`, and the empty string and `GETS` are rejected. -/
theorem validateMethod_iff (m : List Char) :
    (validateMethod m = true ↔ m.map toupper ∈ methodNames)
      ∧ (∀ m' : List Char, isRecasing m m' = true → validateMethod m' = validateMethod m)
      ∧ validateMethod [] = false ∧ validateMethod "GETS".toList = false
      ∧ validateMethod "get".toList = true ∧ validateMethod "Get".toList = true := by
  refine ⟨?_, ?_, by decide, by decide, by decide, by decide⟩
  · simp [validateMethod, methodNames]
  · intro m' h
    simp only [validateMethod, map_toupper_of_isRecasing m m' h]

/-- C17: `validateStatus s` is true exactly when `100 ≤ s ≤ 599`; so 100 and 599 are valid
and 99, 600, 0 and -1 are not. -/
theorem validateStatus_iff (s : Int) :
    (validateStatus s = true ↔ 100 ≤ s ∧ s ≤ 599)
      ∧ validateStatus 100 = true ∧ validateStatus 599 = true
      ∧ validateStatus 99 = false ∧ validateStatus 600 = false
      ∧ validateStatus 0 = false ∧ validateStatus (-1) = false := by
  refine ⟨?_, by decide, by decide, by decide, by decide, by decide, by decide⟩
  simp [validateStatus]

/-- C18: `isValid` is the conjunction of the four field validators; it does not depend on
the url, and the record of the specification is valid. -/
theorem isValid_eq_conjunction (e : LogEntry) :
    (e.isValid = (validateTimestamp e.timestamp && validateIP e.ip
        && validateMethod e.method && validateStatus e.status))
      ∧ (∀ url : List Char, isValid ⟨e.timestamp, e.ip, e.method, url, e.status⟩ = e.isValid)
      ∧ isValid ⟨"2025-03-14T12:03:21Z".toList, "192.168.1.1".toList, "GET".toList,
          "/index.html".toList, 200⟩ = true :=
  ⟨rfl, fun _ => rfl, rfl⟩

/-- C19 (fails on the code): the compact record of the test is rejected. The pattern asks
for a blank after the comma before `"ip"` and before `"url"` and for blanks at the end of
the ip and url groups, so `regex_search` finds no match in the compact text and
`fromJsonString` throws `LogValidationException`; a text with those blanks is accepted,
blanks included in the fields. -/
theorem fromJsonString_rejects_compact_record :
    fromJsonString (compactRecord "2025-03-14T12:03:21Z".toList "192.168.1.1".toList
        "GET".toList "/index.html".toList "200".toList)
      = .error (Exn.logValidation "Неверный формат JSON строки")
    ∧ fromJsonString
        ("\x7b\"ts\":\"T\", \"ip\":\"1  \",\"method\":\"GET\", \"url\":\"/  \","
          ++ "\"status\":200\x7d").toList
      = .ok ⟨[ 'T'], [ '1', ' ', ' '], [ 'G', 'E', 'T'], [ '/', ' ', ' '], 200⟩ :=
  ⟨rfl, rfl⟩

end LogEntry

namespace LogAnalyzer

/-- C20: for every record sequence, every integer `n` and every order in which the hash
table hands over its entries, in the lists returned by `getTopIPs(n)` and `getTopURLs(n)`
the count of each pair is at least the count of the next pair (and of every later one). -/
theorem getTop_counts_nonincreasing
    (iteration : List (List Char × Int) → List (List Char × Int))
    (logs : List LogEntry) (n : Int) :
    List.Chain' (fun a b => a.2 ≥ b.2) (getTopIPs iteration logs n)
      ∧ List.Chain' (fun a b => a.2 ≥ b.2) (getTopURLs iteration logs n)
      ∧ List.Pairwise (fun a b => a.2 ≥ b.2) (getTopIPs iteration logs n)
      ∧ List.Pairwise (fun a b => a.2 ≥ b.2) (getTopURLs iteration logs n) :=
  ⟨(truncate_sortByCount_pairwise _ n).chain', (truncate_sortByCount_pairwise _ n).chain',
   truncate_sortByCount_pairwise _ n, truncate_sortByCount_pairwise _ n⟩

end LogAnalyzer

/-! ## Lemmas on the order of strings -/

theorem strLt_irrefl (a : List Char) : strLt a a = false := by
  induction a with
  | nil => rfl
  | cons c cs ih => simp [strLt, ih]

theorem strLt_trans : ∀ a b c : List Char,
    strLt a b = true → strLt b c = true → strLt a c = true
  | [], [], _, h, _ => by simp [strLt] at h
  | [], _ :: _, [], _, h => by simp [strLt] at h
  | [], _ :: _, _ :: _, _, _ => by simp [strLt]
  | _ :: _, [], _, h, _ => by simp [strLt] at h
  | _ :: _, _ :: _, [], _, h => by simp [strLt] at h
  | x :: xs, y :: ys, z :: zs, h1, h2 => by
    have ih := strLt_trans xs ys zs
    simp only [strLt] at h1 h2 ⊢
    split_ifs at h1 h2 ⊢ <;> first | rfl | omega | exact ih h1 h2

theorem strLt_trichotomy : ∀ a b : List Char,
    strLt a b = false → strLt b a = false → a = b
  | [], [], _, _ => rfl
  | [], _ :: _, h, _ => by simp [strLt] at h
  | _ :: _, [], _, h => by simp [strLt] at h
  | x :: xs, y :: ys, h1, h2 => by
    have ih := strLt_trichotomy xs ys
    simp only [strLt] at h1 h2
    split_ifs at h1 h2
    have hn : x.toNat = y.toNat := by omega
    have hxy : x = y := by rw [← Char.ofNat_toNat x, ← Char.ofNat_toNat y, hn]
    rw [hxy, ih h1 h2]

theorem strLe_refl (a : List Char) : strLe a a = true := by
  simp [strLe, strLt_irrefl]

theorem strLe_trans (a b c : List Char)
    (h1 : strLe a b = true) (h2 : strLe b c = true) : strLe a c = true := by
  simp only [strLe, Bool.not_eq_true', ] at h1 h2 ⊢
  by_contra hca
  have hca : strLt c a = true := by simpa using hca
  cases hab : strLt a b with
  | true =>
    have := strLt_trans c a b hca hab
    simp [this] at h2
  | false =>
    have := strLt_trichotomy a b hab h1
    subst this
    simp [hca] at h2

/-! ## Lemmas on counting tables -/

/-- In a table without repeated keys, the counts stored under a key add up to the count of
the one entry with that key. -/
theorem sum_filter_of_mem {κ : Type} [BEq κ] [LawfulBEq κ] :
    ∀ (table : List (κ × Int)) (k : κ) (c : Int), (table.map Prod.fst).Nodup →
      (k, c) ∈ table →
      ((table.filter (fun p => p.1 == k)).map Prod.snd).sum = c
  | [], _, _, _, h => by simp at h
  | (k0, c0) :: rest, k, c, hnd, h => by
    have ih := sum_filter_of_mem rest k c
    simp only [List.map_cons, List.nodup_cons, List.mem_map, Prod.exists,
      exists_and_right, exists_eq_right, not_exists] at hnd
    rcases List.mem_cons.1 h with h | h
    · obtain ⟨rfl, rfl⟩ := Prod.mk.inj h
      have hnone : rest.filter (fun p => p.1 == k) = [] := by
        rw [List.filter_eq_nil_iff]
        rintro ⟨a, b⟩ hab
        simp only [beq_iff_eq]
        rintro rfl
        exact hnd.1 b hab
      simp [List.filter_cons, hnone]
    · have hne : (k0 == k) = false := by
        rw [beq_eq_false_iff_ne]
        rintro rfl
        exact hnd.1 c h
      simp only [List.filter_cons, hne, Bool.false_eq_true, if_false]
      exact ih (by simpa using hnd.2) h

/-- A table that has no repeated key, whose keys are those of the list `ks`, and whose
counts under a key add up to the number of occurrences in `ks`, holds exactly the pairs
of a key of `ks` with its number of occurrences. -/
theorem table_mem_iff {κ : Type} [BEq κ] [LawfulBEq κ] (table : List (κ × Int))
    (ks : List κ) (hnd : (table.map Prod.fst).Nodup)
    (hkeys : ∀ k, k ∈ table.map Prod.fst ↔ k ∈ ks)
    (hcnt : ∀ k, ((table.filter (fun p => p.1 == k)).map Prod.snd).sum
      = (ks.count k : Int))
    (k : κ) (c : Int) : (k, c) ∈ table ↔ k ∈ ks ∧ c = (ks.count k : Int) := by
  constructor
  · intro h
    refine ⟨(hkeys k).1 (List.mem_map.2 ⟨(k, c), h, rfl⟩), ?_⟩
    rw [← hcnt k, sum_filter_of_mem table k c hnd h]
  · rintro ⟨hk, rfl⟩
    obtain ⟨⟨k1, c1⟩, hmem, hk1⟩ := List.mem_map.1 ((hkeys k).2 hk)
    simp only at hk1
    subst hk1
    have := sum_filter_of_mem table k1 c1 hnd hmem
    rw [hcnt k1] at this
    rw [this]
    exact hmem

/-- Folding an increment that keeps an invariant, adds its key to the keys, and adds one
to the counts under its key, gives a table of the occurrences of the folded keys. -/
theorem table_fold {κ : Type} [BEq κ] [LawfulBEq κ]
    (inc : κ → List (κ × Int) → List (κ × Int))
    (inv : List (κ × Int) → Prop)
    (hinv : ∀ key table, inv table → inv (inc key table))
    (hkeys : ∀ key table k, inv table →
      (k ∈ (inc key table).map Prod.fst ↔ k = key ∨ k ∈ table.map Prod.fst))
    (hcnt : ∀ key table k, inv table →
      (((inc key table).filter (fun p => p.1 == k)).map Prod.snd).sum
        = ((table.filter (fun p => p.1 == k)).map Prod.snd).sum
          + (if key == k then 1 else 0)) :
    ∀ (ks : List κ) (table : List (κ × Int)), inv table →
      inv (ks.foldl (fun t x => inc x t) table)
      ∧ (∀ k, k ∈ (ks.foldl (fun t x => inc x t) table).map Prod.fst
          ↔ k ∈ table.map Prod.fst ∨ k ∈ ks)
      ∧ (∀ k, (((ks.foldl (fun t x => inc x t) table).filter
            (fun p => p.1 == k)).map Prod.snd).sum
          = ((table.filter (fun p => p.1 == k)).map Prod.snd).sum
            + (ks.count k : Int))
  | [], table, h => by simp [h]
  | x :: xs, table, h => by
    obtain ⟨h1, h2, h3⟩ := table_fold inc inv hinv hkeys hcnt xs (inc x table) (hinv x table h)
    refine ⟨h1, ?_, ?_⟩
    · intro k
      rw [List.foldl_cons, h2 k, hkeys x table k h, List.mem_cons]
      tauto
    · intro k
      rw [List.foldl_cons, h3 k, hcnt x table k h, List.count_cons]
      cases hk : x == k
      · simp
      · simp
        ring

namespace LogAnalyzer

theorem keys_increment (key : List Char) : ∀ table : List (List Char × Int),
    (increment key table).map Prod.fst
      = if key ∈ table.map Prod.fst then table.map Prod.fst
        else table.map Prod.fst ++ [key]
  | [] => by simp [increment]
  | (k, c) :: rest => by
    have ih := keys_increment key rest
    by_cases hk : k = key
    · simp [increment, hk]
    · have hk2 : ¬ key = k := fun e => hk e.symm
      simp only [increment, hk, if_false, List.map_cons, ih, List.mem_cons, hk2, false_or]
      split_ifs <;> simp

theorem sum_filter_increment (key k : List Char) : ∀ table : List (List Char × Int),
    (((increment key table).filter (fun p => p.1 == k)).map Prod.snd).sum
      = ((table.filter (fun p => p.1 == k)).map Prod.snd).sum
        + (if key == k then 1 else 0)
  | [] => by
    cases hk : key == k <;> simp [increment, hk, List.filter_cons]
  | (k0, c) :: rest => by
    have ih := sum_filter_increment key k rest
    by_cases h0 : k0 = key
    · subst h0
      cases hk : k0 == k
      · simp [increment, hk, List.filter_cons]
      · simp [increment, hk, List.filter_cons]
        ring
    · cases hk : k0 == k
      · simp only [increment, h0, if_false, List.filter_cons, hk, Bool.false_eq_true, ih]
      · simp only [increment, h0, if_false, List.filter_cons, hk, if_true,
          List.map_cons, List.sum_cons, ih]
        ring

/-- The table of `countBy` has no repeated key and holds exactly the pairs of a field
value of the records with the number of records having it. -/
theorem countBy_spec (field : LogEntry → List Char) (logs : List LogEntry) :
    ((countBy field logs).map Prod.fst).Nodup
    ∧ ∀ k c, (k, c) ∈ countBy field logs
        ↔ k ∈ logs.map field ∧ c = ((logs.map field).count k : Int) := by
  have hfold : countBy field logs = (logs.map field).foldl (fun t x => increment x t) [] := by
    rw [countBy, List.foldl_map]
  obtain ⟨h1, h2, h3⟩ := table_fold increment (fun t => (t.map Prod.fst).Nodup)
    (by
      intro key table h
      rw [keys_increment]
      split_ifs with hk
      · exact h
      · exact List.Nodup.append h (List.nodup_singleton key) (by simpa using hk))
    (by
      intro key table k _
      rw [keys_increment]
      split_ifs with hk
      · constructor
        · exact Or.inr
        · rintro (rfl | h)
          · exact hk
          · exact h
      · simp [or_comm])
    (fun key table k _ => sum_filter_increment key k table)
    (logs.map field) [] List.nodup_nil
  rw [← hfold] at h1 h2 h3
  refine ⟨h1, table_mem_iff _ (logs.map field) h1 ?_ ?_⟩
  · intro k
    rw [h2 k]
    simp
  · intro k
    rw [h3 k]
    simp


/-! ## Lemmas on ranking -/

theorem countBy_length (field : LogEntry → List Char) (logs : List LogEntry) :
    (countBy field logs).length = (logs.map field).dedup.length := by
  obtain ⟨hnd, hmem⟩ := countBy_spec field logs
  have hperm : ((countBy field logs).map Prod.fst).Perm (logs.map field).dedup := by
    rw [List.perm_ext_iff_of_nodup hnd (List.nodup_dedup _)]
    intro k
    rw [List.mem_dedup, List.mem_map]
    constructor
    · rintro ⟨⟨k1, c⟩, h, rfl⟩
      exact ((hmem k1 c).1 h).1
    · intro h
      exact ⟨(k, _), (hmem k _).2 ⟨h, rfl⟩, rfl⟩
  rw [← hperm.length_eq, List.length_map]

theorem ranked_perm (iteration : List (List Char × Int) → List (List Char × Int))
    (hperm : ∀ t, (iteration t).Perm t) (table : List (List Char × Int)) :
    (sortByCount (iteration table)).Perm table :=
  (List.perm_insertionSort _ _).trans (hperm table)

theorem truncate_length (sorted : List (List Char × Int)) (n : Int) :
    ((n ≤ 0 ∨ n ≥ sorted.length) → (truncate sorted n).length = sorted.length)
    ∧ ((0 < n ∧ n < sorted.length) → ((truncate sorted n).length : Int) = n)
    ∧ (truncate sorted n).length ≤ sorted.length := by
  unfold truncate
  refine ⟨?_, ?_, ?_⟩
  · intro h
    rw [if_neg]
    omega
  · intro h
    rw [if_pos ⟨h.1, by omega⟩, List.length_take]
    omega
  · split_ifs
    · rw [List.length_take]
      omega
    · exact le_refl _

/-- What the ranking returns, for either field: distinct keys, each with its number of
records, and no key left out occurs more often than a returned one. -/
theorem ranked_spec (iteration : List (List Char × Int) → List (List Char × Int))
    (hperm : ∀ t, (iteration t).Perm t) (field : LogEntry → List Char)
    (logs : List LogEntry) (n : Int) :
    ((truncate (sortByCount (iteration (countBy field logs))) n).map Prod.fst).Nodup
    ∧ (∀ p ∈ truncate (sortByCount (iteration (countBy field logs))) n,
        p.1 ∈ logs.map field ∧ p.2 = ((logs.map field).count p.1 : Int))
    ∧ (∀ x ∈ logs.map field,
        x ∉ (truncate (sortByCount (iteration (countBy field logs))) n).map Prod.fst →
        ∀ p ∈ truncate (sortByCount (iteration (countBy field logs))) n,
          ((logs.map field).count x : Int) ≤ p.2) := by
  obtain ⟨hnd, hmem⟩ := countBy_spec field logs
  have hp := ranked_perm iteration hperm (countBy field logs)
  have hsorted := sortByCount_pairwise (iteration (countBy field logs))
  generalize sortByCount (iteration (countBy field logs)) = sorted at hp hsorted
  have hsub := truncate_sublist sorted n
  refine ⟨?_, ?_, ?_⟩
  · exact ((hp.map Prod.fst).nodup_iff.2 hnd).sublist (hsub.map Prod.fst)
  · rintro ⟨k, c⟩ h
    exact (hmem k c).1 (hp.subset (hsub.subset h))
  · intro x hx hnot p hpmem
    have hxs : (x, ((logs.map field).count x : Int)) ∈ sorted :=
      hp.symm.subset ((hmem x _).2 ⟨hx, rfl⟩)
    unfold truncate at hnot hpmem
    split_ifs at hnot hpmem with hn
    · rw [← List.take_append_drop n.toNat sorted, List.pairwise_append] at hsorted
      have hdrop : (x, ((logs.map field).count x : Int)) ∈ sorted.drop n.toNat := by
        rw [← List.take_append_drop n.toNat sorted, List.mem_append] at hxs
        rcases hxs with h | h
        · exact absurd (List.mem_map.2 ⟨_, h, rfl⟩) hnot
        · exact h
      exact hsorted.2.2 p hpmem _ hdrop
    · exact absurd (List.mem_map.2 ⟨_, hxs, rfl⟩) hnot

/-- When one key has more records than every other, the ranking cut to one pair is that
key with its number of records. -/
theorem ranked_top (iteration : List (List Char × Int) → List (List Char × Int))
    (hperm : ∀ t, (iteration t).Perm t) (field : LogEntry → List Char)
    (logs : List LogEntry) (x : List Char) (hx : x ∈ logs.map field)
    (hmost : ∀ y ∈ logs.map field, y ≠ x →
      (logs.map field).count y < (logs.map field).count x) :
    truncate (sortByCount (iteration (countBy field logs))) 1
      = [(x, ((logs.map field).count x : Int))] := by
  obtain ⟨_, hpairs, hout⟩ := ranked_spec iteration hperm field logs 1
  have hlen : (sortByCount (iteration (countBy field logs))).length
      = (logs.map field).dedup.length := by
    rw [(ranked_perm iteration hperm _).length_eq, countBy_length]
  have hpos : 0 < (logs.map field).dedup.length :=
    List.length_pos_of_mem (List.mem_dedup.2 hx)
  obtain ⟨h1, h2, _⟩ := truncate_length (sortByCount (iteration (countBy field logs))) 1
  have hone : (truncate (sortByCount (iteration (countBy field logs))) 1).length = 1 := by
    by_cases hd : 1 < (logs.map field).dedup.length
    · have := h2 ⟨by decide, by rw [hlen]; exact_mod_cast hd⟩
      exact_mod_cast this
    · rw [h1 (Or.inr (by rw [hlen]; omega)), hlen]
      omega
  generalize truncate (sortByCount (iteration (countBy field logs))) 1 = ranked
    at hpairs hout hone
  match ranked, hone with
  | [(k, c)], _ =>
    obtain ⟨hk, hc⟩ := hpairs (k, c) (List.mem_singleton.2 rfl)
    simp only at hk hc
    by_cases hkx : k = x
    · subst hkx
      rw [hc]
    · exfalso
      have hle := hout x hx (by simpa using fun e => hkx e.symm) (k, c)
        (List.mem_singleton.2 rfl)
      have hlt := hmost k hk hkx
      simp only at hle
      rw [hc] at hle
      omega

end LogAnalyzer

/-! ## Lemmas on searching in strings -/

theorem findLoop_eq_some (s pat : List Char) : ∀ (budget pos i : Nat),
    findLoop s pat budget pos = some i ↔
      pos ≤ i ∧ i < pos + budget ∧ substr s i pat.length = pat
        ∧ ∀ j, pos ≤ j → j < i → substr s j pat.length ≠ pat
  | 0, pos, i => by
    simp only [findLoop]
    constructor
    · intro h
      cases h
    · rintro ⟨_, h, _⟩
      omega
  | budget + 1, pos, i => by
    have ih := findLoop_eq_some s pat budget (pos + 1) i
    unfold findLoop
    split_ifs with hpos
    · constructor
      · intro h
        obtain rfl : pos = i := Option.some.inj h
        exact ⟨le_refl _, by omega, hpos, fun j h1 h2 => by omega⟩
      · rintro ⟨h1, _, _, h4⟩
        rcases Nat.eq_or_lt_of_le h1 with h | h
        · rw [h]
        · exact absurd hpos (h4 pos (le_refl _) h)
    · rw [ih]
      constructor
      · rintro ⟨h1, h2, h3, h4⟩
        refine ⟨by omega, by omega, h3, fun j hj1 hj2 => ?_⟩
        rcases Nat.eq_or_lt_of_le hj1 with h | h
        · rw [← h]
          exact hpos
        · exact h4 j h hj2
      · rintro ⟨h1, h2, h3, h4⟩
        have hne : pos ≠ i := by
          rintro rfl
          exact hpos h3
        exact ⟨by omega, by omega, h3, fun j hj1 hj2 => h4 j (by omega) hj2⟩

theorem findLoop_eq_none (s pat : List Char) : ∀ (budget pos : Nat),
    findLoop s pat budget pos = none ↔
      ∀ j, pos ≤ j → j < pos + budget → substr s j pat.length ≠ pat
  | 0, pos => by
    simp only [findLoop, true_iff]
    intro j h1 h2
    omega
  | budget + 1, pos => by
    have ih := findLoop_eq_none s pat budget (pos + 1)
    unfold findLoop
    split_ifs with hpos
    · simp only [false_iff, not_forall]
      exact ⟨pos, le_refl _, by omega, fun h => h hpos⟩
    · rw [ih]
      constructor
      · intro h j hj1 hj2
        rcases Nat.eq_or_lt_of_le hj1 with e | e
        · rw [← e]
          exact hpos
        · exact h j e (by omega)
      · intro h j hj1 hj2
        exact h j (by omega) (by omega)

/-- An occurrence of `pat` at a position of `s` makes `pat` a contiguous part of `s`, and a
contiguous part occurs at a position up to the length. -/
theorem isInfix_iff_substr (s pat : List Char) :
    pat <:+: s ↔ ∃ j, j ≤ s.length ∧ substr s j pat.length = pat := by
  constructor
  · rintro ⟨a, b, rfl⟩
    refine ⟨a.length, by simp, ?_⟩
    simp [substr, List.append_assoc]
  · rintro ⟨j, _, h⟩
    have h1 : pat <+: s.drop j := by
      rw [← h]
      exact List.take_prefix _ _
    exact h1.isInfix.trans (List.drop_suffix j s).isInfix

theorem strFind_isSome_iff (s pat : List Char) :
    (strFind s pat 0).isSome = true ↔ pat <:+: s := by
  rw [isInfix_iff_substr, strFind]
  cases h : findLoop s pat (s.length + 1 - 0) 0 with
  | some i =>
    simp only [Option.isSome_some, true_iff]
    obtain ⟨_, h2, h3, _⟩ := (findLoop_eq_some s pat _ 0 i).1 h
    exact ⟨i, by omega, h3⟩
  | none =>
    simp only [Option.isSome_none, Bool.false_eq_true, false_iff]
    rintro ⟨j, hj, hsub⟩
    exact (findLoop_eq_none s pat _ 0).1 h j (Nat.zero_le _) (by omega) hsub

namespace LogAnalyzer

/-! ## Lemmas on filters -/

theorem copyIf_eq_filter (pred : LogEntry → Bool) (logs : List LogEntry) :
    copyIf pred logs = logs.filter pred := by
  have h : ∀ (ls result : List LogEntry),
      ls.foldl (fun result log => if pred log then result ++ [log] else result) result
        = result ++ ls.filter pred := by
    intro ls
    induction ls with
    | nil => simp
    | cons l ls ih =>
      intro result
      rw [List.foldl_cons, ih, List.filter_cons]
      split_ifs <;> simp
  rw [copyIf, h, List.nil_append]

end LogAnalyzer

theorem strLe_of_strLt (a b : List Char) (h : strLt a b = true) : strLe a b = true := by
  simp only [strLe, Bool.not_eq_true', ← Bool.not_eq_true]
  intro hba
  have := strLt_trans a b a h hba
  rw [strLt_irrefl] at this
  cases this

namespace LogAnalyzer

/-! ## Lemmas on the time range -/

/-- The loop of `getTimeRange` from any pair of starting values: each bound ends at its
starting value or at a timestamp of the records, the lower bound ends at or below its
starting value and every timestamp, the upper bound at or above them. -/
theorem timeRange_fold : ∀ (logs : List LogEntry) (lo hi : List Char),
    ((logs.foldl timeRangeStep (lo, hi)).1 = lo
      ∨ (logs.foldl timeRangeStep (lo, hi)).1 ∈ logs.map LogEntry.timestamp)
    ∧ ((logs.foldl timeRangeStep (lo, hi)).2 = hi
      ∨ (logs.foldl timeRangeStep (lo, hi)).2 ∈ logs.map LogEntry.timestamp)
    ∧ strLe (logs.foldl timeRangeStep (lo, hi)).1 lo = true
    ∧ strLe hi (logs.foldl timeRangeStep (lo, hi)).2 = true
    ∧ ∀ t ∈ logs.map LogEntry.timestamp,
        strLe (logs.foldl timeRangeStep (lo, hi)).1 t = true
        ∧ strLe t (logs.foldl timeRangeStep (lo, hi)).2 = true
  | [], lo, hi => by simp [strLe_refl]
  | l :: ls, lo, hi => by
    obtain ⟨h1, h2, h3, h4, h5⟩ := timeRange_fold ls
      (if strLt l.timestamp lo then l.timestamp else lo)
      (if strGt l.timestamp hi then l.timestamp else hi)
    simp only [List.foldl_cons, List.map_cons, List.mem_cons, timeRangeStep]
    generalize ls.foldl timeRangeStep
        (if strLt l.timestamp lo then l.timestamp else lo,
         if strGt l.timestamp hi then l.timestamp else hi) = r at h1 h2 h3 h4 h5
    have hlo : strLe (if strLt l.timestamp lo then l.timestamp else lo) lo = true
        ∧ strLe (if strLt l.timestamp lo then l.timestamp else lo) l.timestamp = true := by
      split_ifs with h
      · exact ⟨strLe_of_strLt _ _ h, strLe_refl _⟩
      · exact ⟨strLe_refl _, by simp only [strLe]; simpa using h⟩
    have hhi : strLe hi (if strGt l.timestamp hi then l.timestamp else hi) = true
        ∧ strLe l.timestamp (if strGt l.timestamp hi then l.timestamp else hi) = true := by
      split_ifs with h
      · exact ⟨strLe_of_strLt _ _ h, strLe_refl _⟩
      · exact ⟨strLe_refl _, by simp only [strLe]; simpa [strGt] using h⟩
    refine ⟨?_, ?_, strLe_trans _ _ _ h3 hlo.1, strLe_trans _ _ _ hhi.1 h4, ?_⟩
    · rcases h1 with h | h
      · rw [h]
        split_ifs
        · exact Or.inr (Or.inl rfl)
        · exact Or.inl rfl
      · exact Or.inr (Or.inr h)
    · rcases h2 with h | h
      · rw [h]
        split_ifs
        · exact Or.inr (Or.inl rfl)
        · exact Or.inl rfl
      · exact Or.inr (Or.inr h)
    · rintro t (rfl | ht)
      · exact ⟨strLe_trans _ _ _ h3 hlo.2, strLe_trans _ _ _ hhi.2 h4⟩
      · exact h5 t ht

/-! ## Lemmas on ordered tables -/

theorem keys_mapIncrement {κ : Type} (lt : κ → κ → Bool)
    (htri : ∀ a b, lt a b = false → lt b a = false → a = b) (key k : κ) :
    ∀ table : List (κ × Int),
      k ∈ (mapIncrement lt key table).map Prod.fst ↔ k = key ∨ k ∈ table.map Prod.fst
  | [] => by simp [mapIncrement]
  | (k0, c) :: rest => by
    have ih := keys_mapIncrement lt htri key k rest
    unfold mapIncrement
    split_ifs with h1 h2
    · simp
    · simp only [List.map_cons, List.mem_cons, ih]
      tauto
    · have : key = k0 := htri key k0 (by simpa using h1) (by simpa using h2)
      subst this
      simp

theorem sum_filter_mapIncrement {κ : Type} [BEq κ] [LawfulBEq κ] (lt : κ → κ → Bool)
    (htri : ∀ a b, lt a b = false → lt b a = false → a = b) (key k : κ) :
    ∀ table : List (κ × Int),
      (((mapIncrement lt key table).filter (fun p => p.1 == k)).map Prod.snd).sum
        = ((table.filter (fun p => p.1 == k)).map Prod.snd).sum
          + (if key == k then 1 else 0)
  | [] => by
    cases hk : key == k <;> simp [mapIncrement, hk, List.filter_cons]
  | (k0, c) :: rest => by
    have ih := sum_filter_mapIncrement lt htri key k rest
    by_cases h1 : lt key k0 = true
    · simp only [mapIncrement, h1, if_true]
      cases hk : key == k <;> cases hk0 : k0 == k <;>
        simp [List.filter_cons, hk, hk0] <;> ring
    · by_cases h2 : lt k0 key = true
      · simp only [mapIncrement, h1, h2, if_true, if_false]
        cases hk0 : k0 == k <;> (simp [List.filter_cons, hk0, ih]; try ring)
      · have : key = k0 := htri key k0 (by simpa using h1) (by simpa using h2)
        subst this
        simp only [mapIncrement, h1, h2, if_false]
        cases hk : key == k <;> (simp [List.filter_cons, hk]; try ring)

theorem sorted_mapIncrement {κ : Type} (lt : κ → κ → Bool)
    (htrans : ∀ a b c, lt a b = true → lt b c = true → lt a c = true)
    (htri : ∀ a b, lt a b = false → lt b a = false → a = b) (key : κ) :
    ∀ table : List (κ × Int),
      (table.map Prod.fst).Pairwise (fun a b => lt a b = true) →
      ((mapIncrement lt key table).map Prod.fst).Pairwise (fun a b => lt a b = true)
  | [], _ => by simp [mapIncrement]
  | (k0, c) :: rest, h => by
    have ih := sorted_mapIncrement lt htrans htri key rest
    have hkeys := fun k => keys_mapIncrement lt htri key k rest
    simp only [List.map_cons, List.pairwise_cons] at h
    unfold mapIncrement
    split_ifs with h1 h2
    · simp only [List.map_cons, List.pairwise_cons, List.mem_cons]
      refine ⟨?_, h⟩
      rintro b (rfl | hb)
      · exact h1
      · exact htrans _ _ _ h1 (h.1 b hb)
    · simp only [List.map_cons, List.pairwise_cons]
      refine ⟨?_, ih h.2⟩
      intro b hb
      rcases (hkeys b).1 hb with rfl | hb
      · exact h2
      · exact h.1 b hb
    · simpa using h

theorem sum_mapIncrement {κ : Type} (lt : κ → κ → Bool) (key : κ) :
    ∀ table : List (κ × Int),
      ((mapIncrement lt key table).map Prod.snd).sum = (table.map Prod.snd).sum + 1
  | [] => by simp [mapIncrement]
  | (k0, c) :: rest => by
    have ih := sum_mapIncrement lt key rest
    unfold mapIncrement
    split_ifs
    · simp only [List.map_cons, List.sum_cons]
      ring
    · simp only [List.map_cons, List.sum_cons, ih]
      ring
    · simp only [List.map_cons, List.sum_cons]
      ring

/-- The table built by `distribution[key]++` over a list of keys, for an order of keys
that is strict and total: its keys ascend, it holds exactly the pairs of a key of the list
with its number of occurrences, and its counts add up to the length of the list. -/
theorem mapIncrement_spec {κ : Type} [BEq κ] [LawfulBEq κ] (lt : κ → κ → Bool)
    (hirr : ∀ a, lt a a = false)
    (htrans : ∀ a b c, lt a b = true → lt b c = true → lt a c = true)
    (htri : ∀ a b, lt a b = false → lt b a = false → a = b) (ks : List κ) :
    ((ks.foldl (fun t x => mapIncrement lt x t) []).map Prod.fst).Pairwise
        (fun a b => lt a b = true)
    ∧ ((ks.foldl (fun t x => mapIncrement lt x t) []).map Prod.fst).Nodup
    ∧ (∀ k c, (k, c) ∈ ks.foldl (fun t x => mapIncrement lt x t) []
        ↔ k ∈ ks ∧ c = (ks.count k : Int))
    ∧ ((ks.foldl (fun t x => mapIncrement lt x t) []).map Prod.snd).sum = (ks.length : Int) := by
  obtain ⟨h1, h2, h3⟩ := table_fold (mapIncrement lt)
    (fun t => (t.map Prod.fst).Pairwise (fun a b => lt a b = true))
    (fun key table h => sorted_mapIncrement lt htrans htri key table h)
    (fun key table k _ => keys_mapIncrement lt htri key k table)
    (fun key table k _ => sum_filter_mapIncrement lt htri key k table)
    ks [] List.Pairwise.nil
  have hnd : ((ks.foldl (fun t x => mapIncrement lt x t) []).map Prod.fst).Nodup := by
    refine h1.imp ?_
    rintro a b hab rfl
    rw [hirr] at hab
    cases hab
  refine ⟨h1, hnd, table_mem_iff _ ks hnd ?_ ?_, ?_⟩
  · intro k
    rw [h2 k]
    simp
  · intro k
    rw [h3 k]
    simp
  · have hsum : ∀ (xs : List κ) (t : List (κ × Int)),
        ((xs.foldl (fun t x => mapIncrement lt x t) t).map Prod.snd).sum
          = (t.map Prod.snd).sum + (xs.length : Int) := by
      intro xs
      induction xs with
      | nil => simp
      | cons x xs ih =>
        intro t
        rw [List.foldl_cons, ih, sum_mapIncrement, List.length_cons]
        push_cast
        ring
    rw [hsum]
    simp

end LogAnalyzer

theorem getElem?_of_substr (s pat : List Char) (j : Nat) (h : substr s j pat.length = pat)
    (i : Nat) (hi : i < pat.length) : s[j + i]? = pat[i]? := by
  have := congrArg (fun l : List Char => l[i]?) h
  simp only [substr, List.getElem?_take, hi, if_true, List.getElem?_drop] at this
  exact this

namespace LogAnalyzer

/-- The host of a URL `scheme://host/rest` is what `extractDomain` returns, when the first
`://` of the URL is the one after `scheme` and `host` holds no `/`. -/
theorem extractDomain_host (scheme host rest : List Char)
    (hs : ¬ "://".toList <:+: scheme) (hh : '/' ∉ host) :
    extractDomain (scheme ++ "://".toList ++ host ++ '/' :: rest) = host := by
  have hurl : scheme ++ "://".toList ++ host ++ '/' :: rest
      = scheme ++ ( ':' :: '/' :: '/' :: (host ++ '/' :: rest)) := by
    simp [List.append_assoc]
  rw [hurl]
  generalize hu : scheme ++ ( ':' :: '/' :: '/' :: (host ++ '/' :: rest)) = url
  have hlen : url.length = scheme.length + 3 + host.length + 1 + rest.length := by
    rw [← hu]
    simp
    omega
  have hdrop : url.drop scheme.length = ':' :: '/' :: '/' :: (host ++ '/' :: rest) := by
    rw [← hu, List.drop_left]
  have hdrop3 : url.drop (scheme.length + 3) = host ++ '/' :: rest := by
    rw [← List.drop_drop, hdrop]
    rfl
  have hget : ∀ i, url[scheme.length + i]?
      = ( ':' :: '/' :: '/' :: (host ++ '/' :: rest))[i]? := by
    intro i
    rw [← List.getElem?_drop, hdrop]
  have h1 : strFind url "://".toList 0 = some scheme.length := by
    rw [strFind, findLoop_eq_some]
    refine ⟨Nat.zero_le _, by omega, ?_, ?_⟩
    · rw [substr, hdrop]
      rfl
    · intro j _ hj hsub
      have e0 := getElem?_of_substr url "://".toList j hsub
      by_cases hj3 : j + 3 ≤ scheme.length
      · apply hs
        rw [isInfix_iff_substr]
        refine ⟨j, by omega, ?_⟩
        have hsame : substr scheme j "://".toList.length
            = substr url j "://".toList.length := by
          rw [← hu, substr, substr, List.drop_append_of_le_length (by omega),
            List.take_append_of_le_length]
          rw [List.length_drop]
          show 3 ≤ scheme.length - j
          omega
        rw [hsame]
        exact hsub
      · have hcases : scheme.length = j + 1 ∨ scheme.length = j + 2 := by omega
        rcases hcases with h | h
        · have := e0 1 (by decide)
          rw [← h, ← Nat.add_zero scheme.length, hget 0] at this
          simp at this
        · have := e0 2 (by decide)
          rw [← h, ← Nat.add_zero scheme.length, hget 0] at this
          simp at this
  have h2 : strFind url [ '/'] (scheme.length + 3) = some (scheme.length + 3 + host.length) := by
    rw [strFind, findLoop_eq_some]
    refine ⟨by omega, by omega, ?_, ?_⟩
    · rw [substr, ← List.drop_drop, hdrop3, List.drop_left]
      rfl
    · intro j hj1 hj2 hsub
      have e0 := getElem?_of_substr url [ '/'] j hsub 0 (by decide)
      obtain ⟨i, rfl⟩ : ∃ i, j = scheme.length + 3 + i := ⟨j - (scheme.length + 3), by omega⟩
      rw [Nat.add_zero, ← List.getElem?_drop, hdrop3,
        List.getElem?_append_left (by omega)] at e0
      exact hh (List.mem_iff_getElem?.2 ⟨i, e0⟩)
  simp only [extractDomain, h1, h2, substr, hdrop3]
  rw [show scheme.length + 3 + host.length - (scheme.length + 3) = host.length by omega,
    List.take_left]


/-! ## Lemmas on the suspicious addresses -/

/-- The loop of `findSuspiciousIPs` read as a selection: pushing the keys of the entries
that pass a test gives the keys of the entries that pass it, in their order. -/
theorem pushIf_fold (test : List Char × Int → Prop) [DecidablePred test] :
    ∀ (entries : List (List Char × Int)) (acc : List (List Char)),
      entries.foldl (fun suspiciousIPs entry =>
          if test entry then suspiciousIPs ++ [entry.1] else suspiciousIPs) acc
        = acc ++ (entries.filter (fun entry => decide (test entry))).map Prod.fst
  | [], acc => by simp
  | e :: es, acc => by
    rw [List.foldl_cons, pushIf_fold test es, List.filter_cons]
    by_cases h : test e <;> simp [h]

end LogAnalyzer

/-! ## The claims on ranking, filters and utilities -/

namespace LogAnalyzer

/-- C21: when the hash table hands over each of its entries once, for a record sequence
with `d` distinct IPs and every integer `n`, `getTopIPs(n)` returns `d` pairs when `n <= 0`
or `n >= d`, returns `n` pairs when `0 < n < d`, and never more than `d` pairs; the same
holds for `getTopURLs(n)` with the distinct URLs. -/
theorem getTop_length (iteration : List (List Char × Int) → List (List Char × Int))
    (hperm : ∀ t, (iteration t).Perm t) (logs : List LogEntry) (n : Int) :
    ((n ≤ 0 ∨ n ≥ (logs.map LogEntry.ip).dedup.length) →
        (getTopIPs iteration logs n).length = (logs.map LogEntry.ip).dedup.length)
    ∧ ((0 < n ∧ n < (logs.map LogEntry.ip).dedup.length) →
        ((getTopIPs iteration logs n).length : Int) = n)
    ∧ (getTopIPs iteration logs n).length ≤ (logs.map LogEntry.ip).dedup.length
    ∧ ((n ≤ 0 ∨ n ≥ (logs.map LogEntry.url).dedup.length) →
        (getTopURLs iteration logs n).length = (logs.map LogEntry.url).dedup.length)
    ∧ ((0 < n ∧ n < (logs.map LogEntry.url).dedup.length) →
        ((getTopURLs iteration logs n).length : Int) = n)
    ∧ (getTopURLs iteration logs n).length ≤ (logs.map LogEntry.url).dedup.length := by
  have hip : (sortByCount (iteration (countBy LogEntry.ip logs))).length
      = (logs.map LogEntry.ip).dedup.length := by
    rw [(ranked_perm iteration hperm _).length_eq, countBy_length]
  have hurl : (sortByCount (iteration (countBy LogEntry.url logs))).length
      = (logs.map LogEntry.url).dedup.length := by
    rw [(ranked_perm iteration hperm _).length_eq, countBy_length]
  obtain ⟨a1, a2, a3⟩ := truncate_length (sortByCount (iteration (countBy LogEntry.ip logs))) n
  obtain ⟨b1, b2, b3⟩ := truncate_length (sortByCount (iteration (countBy LogEntry.url logs))) n
  rw [hip] at a1 a2 a3
  rw [hurl] at b1 b2 b3
  exact ⟨a1, a2, a3, b1, b2, b3⟩

/-- Witness of C21: three records with two distinct IPs, cut to one pair. -/
theorem getTop_length_witness :
    ((getTopIPs id [⟨[], [ 'a'], [], [], 200⟩, ⟨[], [ 'b'], [], [], 200⟩,
        ⟨[], [ 'a'], [], [], 404⟩] 1).length : Int) = 1 :=
  (getTop_length id (fun t => List.Perm.refl t)
    [⟨[], [ 'a'], [], [], 200⟩, ⟨[], [ 'b'], [], [], 200⟩, ⟨[], [ 'a'], [], [], 404⟩] 1).2.1
    ⟨by decide, by decide⟩

/-- C22: when the hash table hands over each of its entries once, the keys of the list
returned by `getTopIPs(n)` are pairwise distinct IPs of the records, each paired with the
number of records having that IP, and every IP of the records that is not returned has at
most as many records as every returned IP; when one IP has more records than every other
IP, `getTopIPs(1)` is the list of that IP with its count alone. The same holds for
`getTopURLs` with the URLs. -/
theorem getTop_selects (iteration : List (List Char × Int) → List (List Char × Int))
    (hperm : ∀ t, (iteration t).Perm t) (logs : List LogEntry) (n : Int) :
    (((getTopIPs iteration logs n).map Prod.fst).Nodup
      ∧ (∀ p ∈ getTopIPs iteration logs n,
          p.1 ∈ logs.map LogEntry.ip ∧ p.2 = ((logs.map LogEntry.ip).count p.1 : Int))
      ∧ (∀ x ∈ logs.map LogEntry.ip, x ∉ (getTopIPs iteration logs n).map Prod.fst →
          ∀ p ∈ getTopIPs iteration logs n, ((logs.map LogEntry.ip).count x : Int) ≤ p.2)
      ∧ (∀ x ∈ logs.map LogEntry.ip,
          (∀ y ∈ logs.map LogEntry.ip, y ≠ x →
            (logs.map LogEntry.ip).count y < (logs.map LogEntry.ip).count x) →
          getTopIPs iteration logs 1 = [(x, ((logs.map LogEntry.ip).count x : Int))]))
    ∧ (((getTopURLs iteration logs n).map Prod.fst).Nodup
      ∧ (∀ p ∈ getTopURLs iteration logs n,
          p.1 ∈ logs.map LogEntry.url ∧ p.2 = ((logs.map LogEntry.url).count p.1 : Int))
      ∧ (∀ x ∈ logs.map LogEntry.url, x ∉ (getTopURLs iteration logs n).map Prod.fst →
          ∀ p ∈ getTopURLs iteration logs n, ((logs.map LogEntry.url).count x : Int) ≤ p.2)
      ∧ (∀ x ∈ logs.map LogEntry.url,
          (∀ y ∈ logs.map LogEntry.url, y ≠ x →
            (logs.map LogEntry.url).count y < (logs.map LogEntry.url).count x) →
          getTopURLs iteration logs 1 = [(x, ((logs.map LogEntry.url).count x : Int))])) := by
  obtain ⟨a1, a2, a3⟩ := ranked_spec iteration hperm LogEntry.ip logs n
  obtain ⟨b1, b2, b3⟩ := ranked_spec iteration hperm LogEntry.url logs n
  exact ⟨⟨a1, a2, a3, fun x hx hmost => ranked_top iteration hperm LogEntry.ip logs x hx hmost⟩,
    ⟨b1, b2, b3, fun x hx hmost => ranked_top iteration hperm LogEntry.url logs x hx hmost⟩⟩

/-- Witness of C22: of three records, two have the IP `a`; the ranking cut to one pair
is `a` with the count 2. -/
theorem getTop_selects_witness :
    getTopIPs id [⟨[], [ 'a'], [], [], 200⟩, ⟨[], [ 'b'], [], [], 200⟩,
        ⟨[], [ 'a'], [], [], 404⟩] 1 = [([ 'a'], 2)] :=
  (getTop_selects id (fun t => List.Perm.refl t)
    [⟨[], [ 'a'], [], [], 200⟩, ⟨[], [ 'b'], [], [], 200⟩, ⟨[], [ 'a'], [], [], 404⟩] 1).1.2.2.2
    [ 'a'] (by decide) (by decide)


/-- C23: each filter returns the records that satisfy its test, in their original order
and as often as they occur: `filter(p)` those satisfying `p`, `filterByStatus(s)` those
with `status == s`, `filterByIP(i)` those with `ip == i`, `filterByURL(u)` those whose
URL contains `u` as a contiguous part, `findFailedRequests(t)` those with `status >= t`.
So `filterByStatus(s)` has as many records as the sequence has records of status `s`, all
of status `s`; of 5 records with status 404 and 3 with status 200, `filterByStatus(404)`
returns the 5. -/
theorem filters_select (logs : List LogEntry) (p : LogEntry → Bool) (s t : Int)
    (i u : List Char) :
    filter logs p = logs.filter p
    ∧ filterByStatus logs s = logs.filter (fun e => decide (e.status = s))
    ∧ filterByIP logs i = logs.filter (fun e => decide (e.ip = i))
    ∧ filterByURL logs u = logs.filter (fun e => decide (u <:+: e.url))
    ∧ findFailedRequests logs t = logs.filter (fun e => decide (e.status ≥ t))
    ∧ (filterByStatus logs s).length = logs.countP (fun e => decide (e.status = s))
    ∧ (∀ e ∈ filterByStatus logs s, e ∈ logs ∧ e.status = s)
    ∧ filterByStatus
        (List.replicate 2 ⟨[], [], [], [], 404⟩ ++ List.replicate 3 ⟨[], [], [], [], 200⟩
          ++ List.replicate 3 ⟨[], [], [], [], 404⟩) 404
        = List.replicate 5 ⟨[], [], [], [], 404⟩ := by
  refine ⟨copyIf_eq_filter _ _, copyIf_eq_filter _ _, copyIf_eq_filter _ _, ?_,
    copyIf_eq_filter _ _, ?_, ?_, rfl⟩
  · rw [filterByURL, copyIf_eq_filter]
    congr 1
    funext e
    rw [Bool.eq_iff_iff, strFind_isSome_iff, decide_eq_true_eq]
  · rw [filterByStatus, copyIf_eq_filter, List.countP_eq_length_filter]
  · intro e he
    rw [filterByStatus, copyIf_eq_filter, List.mem_filter, decide_eq_true_eq] at he
    exact he

/-- C24: `filterByMethod(m)` returns, in their original order, the records whose method
equals `m` once both are upper-cased; every re-casing of `m` returns the same list, and
every record returned for `GET` has a method that upper-cased is `GET`. -/
theorem filterByMethod_ignores_case (logs : List LogEntry) (m : List Char) :
    filterByMethod logs m
        = logs.filter (fun e => decide (e.method.map toupper = m.map toupper))
    ∧ (∀ m' : List Char, isRecasing m m' = true →
        filterByMethod logs m' = filterByMethod logs m)
    ∧ (∀ e ∈ filterByMethod logs "GET".toList, e.method.map toupper = "GET".toList) := by
  refine ⟨copyIf_eq_filter _ _, ?_, ?_⟩
  · intro m' h
    simp only [filterByMethod, map_toupper_of_isRecasing m m' h]
  · intro e he
    rw [filterByMethod, copyIf_eq_filter, List.mem_filter, decide_eq_true_eq] at he
    exact he.2

/-- C25: `isInTimeRange(t, start, end)` is true exactly when `start` is empty or
`start <= t`, and `end` is empty or `t <= end`, in the order of strings, both bounds
included, as in the three examples of the tests; `filterByTimeRange(start, end)`
returns, in their original order, the records whose timestamp passes this test, so with
two bounds that are not empty every returned record has `start <= timestamp <= end`. -/
theorem isInTimeRange_iff (t start endT : List Char) (logs : List LogEntry) :
    (isInTimeRange t start endT = true
        ↔ (start = [] ∨ strLe start t = true) ∧ (endT = [] ∨ strLe t endT = true))
    ∧ isInTimeRange t t t = true
    ∧ isInTimeRange "2025-03-14T10:00:00Z".toList "2025-03-14T09:00:00Z".toList
        "2025-03-14T11:00:00Z".toList = true
    ∧ isInTimeRange "2025-03-14T08:00:00Z".toList "2025-03-14T09:00:00Z".toList
        "2025-03-14T11:00:00Z".toList = false
    ∧ isInTimeRange "2025-03-14T12:00:00Z".toList "2025-03-14T09:00:00Z".toList [] = true
    ∧ filterByTimeRange logs start endT
        = logs.filter (fun e => isInTimeRange e.timestamp start endT)
    ∧ (start ≠ [] → endT ≠ [] → ∀ e ∈ filterByTimeRange logs start endT,
        strLe start e.timestamp = true ∧ strLe e.timestamp endT = true) := by
  have hiff : ∀ t start endT : List Char, isInTimeRange t start endT = true
      ↔ (start = [] ∨ strLe start t = true) ∧ (endT = [] ∨ strLe t endT = true) := by
    intro t start endT
    cases start <;> cases endT <;> simp [isInTimeRange, strLe, strGe]
  refine ⟨hiff t start endT, ?_, by decide, by decide, by decide, copyIf_eq_filter _ _, ?_⟩
  · rw [hiff]
    exact ⟨Or.inr (strLe_refl t), Or.inr (strLe_refl t)⟩
  · intro hs he e hmem
    rw [filterByTimeRange, copyIf_eq_filter, List.mem_filter, hiff] at hmem
    exact ⟨hmem.2.1.resolve_left hs, hmem.2.2.resolve_left he⟩


/-- C26: `getTimeRange()` of no records is the pair of two empty strings; of a sequence
that is not empty it is a pair `(lo, hi)` of timestamps of its records with
`lo <= t <= hi` for the timestamp `t` of every record, in the order of strings, and
`lo <= hi`. -/
theorem getTimeRange_bounds (logs : List LogEntry) :
    getTimeRange [] = ([], [])
    ∧ (logs ≠ [] →
        (getTimeRange logs).1 ∈ logs.map LogEntry.timestamp
        ∧ (getTimeRange logs).2 ∈ logs.map LogEntry.timestamp
        ∧ (∀ t ∈ logs.map LogEntry.timestamp,
            strLe (getTimeRange logs).1 t = true ∧ strLe t (getTimeRange logs).2 = true)
        ∧ strLe (getTimeRange logs).1 (getTimeRange logs).2 = true) := by
  refine ⟨rfl, ?_⟩
  intro hne
  match logs, hne with
  | first :: rest, _ =>
    obtain ⟨h1, h2, _, _, h5⟩ := timeRange_fold (first :: rest) first.timestamp first.timestamp
    have hfirst : first.timestamp ∈ (first :: rest).map LogEntry.timestamp := by simp
    refine ⟨?_, ?_, h5, ?_⟩
    · rcases h1 with h | h
      · simp only [getTimeRange]
        rw [h]
        exact hfirst
      · exact h
    · rcases h2 with h | h
      · simp only [getTimeRange]
        rw [h]
        exact hfirst
      · exact h
    · exact strLe_trans _ _ _ (h5 _ hfirst).1 (h5 _ hfirst).2

/-- C27: the counts of `getStatusDistribution()` add up to the number of records, as do
those of `getMethodDistribution()`; no key occurs twice, every count is at least 1, and
the entries are exactly the pairs of a status (of a method string, as written in the
record) that occurs with the number of records having it. -/
theorem distribution_totals (logs : List LogEntry) :
    (((getStatusDistribution logs).map Prod.snd).sum = (logs.length : Int)
      ∧ ((getStatusDistribution logs).map Prod.fst).Nodup
      ∧ (∀ p ∈ getStatusDistribution logs, 1 ≤ p.2)
      ∧ (∀ k c, (k, c) ∈ getStatusDistribution logs
          ↔ k ∈ logs.map LogEntry.status ∧ c = ((logs.map LogEntry.status).count k : Int)))
    ∧ (((getMethodDistribution logs).map Prod.snd).sum = (logs.length : Int)
      ∧ ((getMethodDistribution logs).map Prod.fst).Nodup
      ∧ (∀ p ∈ getMethodDistribution logs, 1 ≤ p.2)
      ∧ (∀ k c, (k, c) ∈ getMethodDistribution logs
          ↔ k ∈ logs.map LogEntry.method ∧ c = ((logs.map LogEntry.method).count k : Int))) := by
  have hs : getStatusDistribution logs = (logs.map LogEntry.status).foldl
      (fun t x => mapIncrement (fun a b => decide (a < b)) x t) [] := by
    rw [getStatusDistribution, List.foldl_map]
  have hm : getMethodDistribution logs = (logs.map LogEntry.method).foldl
      (fun t x => mapIncrement strLt x t) [] := by
    rw [getMethodDistribution, List.foldl_map]
  obtain ⟨_, a2, a3, a4⟩ := mapIncrement_spec (fun a b : Int => decide (a < b))
    (fun a => by simp)
    (fun a b c h1 h2 => by
      simp only [decide_eq_true_eq] at h1 h2 ⊢
      exact lt_trans h1 h2)
    (fun a b h1 h2 => by
      simp only [decide_eq_false_iff_not, not_lt] at h1 h2
      exact le_antisymm h2 h1)
    (logs.map LogEntry.status)
  obtain ⟨_, b2, b3, b4⟩ := mapIncrement_spec strLt strLt_irrefl strLt_trans strLt_trichotomy
    (logs.map LogEntry.method)
  rw [← hs] at a2 a3 a4
  rw [← hm] at b2 b3 b4
  rw [List.length_map] at a4 b4
  refine ⟨⟨a4, a2, ?_, a3⟩, ⟨b4, b2, ?_, b3⟩⟩
  · rintro ⟨k, c⟩ h
    obtain ⟨hk, rfl⟩ := (a3 k c).1 h
    have := List.count_pos_iff.2 hk
    simp only
    omega
  · rintro ⟨k, c⟩ h
    obtain ⟨hk, rfl⟩ := (b3 k c).1 h
    have := List.count_pos_iff.2 hk
    simp only
    omega


/-- C28, as first worded, fails for a negative threshold: of one record with the IP `a`,
the IP `b` has 0 records, which is more than -1, and `findSuspiciousIPs(-1)` does not
hold `b`. -/
theorem findSuspiciousIPs_misses_absent_ip :
    (((([⟨[], [ 'a'], [], [], 200⟩] : List LogEntry).map LogEntry.ip).count [ 'b'] : Int) > -1)
    ∧ [ 'b'] ∉ findSuspiciousIPs id [⟨[], [ 'a'], [], [], 200⟩] (-1) := by
  decide

/-- C28, amended: when the hash table hands over each of its entries once,
`findSuspiciousIPs(threshold)` holds an IP exactly when the IP occurs in the records and
the number of records with it is greater than `threshold`; for a threshold that is not
negative this is exactly when the number of records with it is greater than `threshold`.
No IP is held twice, and an IP with exactly `threshold` records is not held. -/
theorem findSuspiciousIPs_iff (iteration : List (List Char × Int) → List (List Char × Int))
    (hperm : ∀ t, (iteration t).Perm t) (logs : List LogEntry) (threshold : Int) :
    (∀ x, x ∈ findSuspiciousIPs iteration logs threshold
        ↔ x ∈ logs.map LogEntry.ip ∧ ((logs.map LogEntry.ip).count x : Int) > threshold)
    ∧ (0 ≤ threshold → ∀ x, x ∈ findSuspiciousIPs iteration logs threshold
        ↔ ((logs.map LogEntry.ip).count x : Int) > threshold)
    ∧ (findSuspiciousIPs iteration logs threshold).Nodup
    ∧ (∀ x, ((logs.map LogEntry.ip).count x : Int) = threshold →
        x ∉ findSuspiciousIPs iteration logs threshold) := by
  obtain ⟨hnd, hmem⟩ := countBy_spec LogEntry.ip logs
  have hp := hperm (countBy LogEntry.ip logs)
  have heq : findSuspiciousIPs iteration logs threshold
      = ((iteration (countBy LogEntry.ip logs)).filter
          (fun entry => decide (entry.2 > threshold))).map Prod.fst := by
    rw [findSuspiciousIPs, pushIf_fold (fun entry => entry.2 > threshold), List.nil_append]
  have hiff : ∀ x, x ∈ findSuspiciousIPs iteration logs threshold
      ↔ x ∈ logs.map LogEntry.ip ∧ ((logs.map LogEntry.ip).count x : Int) > threshold := by
    intro x
    rw [heq, List.mem_map]
    constructor
    · rintro ⟨⟨k, c⟩, h, rfl⟩
      rw [List.mem_filter, decide_eq_true_eq] at h
      obtain ⟨hk, rfl⟩ := (hmem k c).1 (hp.subset h.1)
      exact ⟨hk, h.2⟩
    · rintro ⟨hx, hc⟩
      refine ⟨(x, ((logs.map LogEntry.ip).count x : Int)), ?_, rfl⟩
      rw [List.mem_filter, decide_eq_true_eq]
      exact ⟨hp.symm.subset ((hmem x _).2 ⟨hx, rfl⟩), hc⟩
  refine ⟨hiff, ?_, ?_, ?_⟩
  · intro h0 x
    rw [hiff]
    constructor
    · exact fun h => h.2
    · intro h
      refine ⟨List.count_pos_iff.1 ?_, h⟩
      omega
  · rw [heq]
    exact ((hp.map Prod.fst).nodup_iff.2 hnd).sublist
      ((List.filter_sublist _).map Prod.fst)
  · intro x hx hmem
    have := ((hiff x).1 hmem).2
    omega

/-- Witness of C28: of three records, two have the IP `a`; with the threshold 1 the IP
`a` is held and the IP `b`, with one record, is not. -/
theorem findSuspiciousIPs_iff_witness :
    [ 'a'] ∈ findSuspiciousIPs id [⟨[], [ 'a'], [], [], 200⟩, ⟨[], [ 'b'], [], [], 200⟩,
        ⟨[], [ 'a'], [], [], 404⟩] 1
    ∧ [ 'b'] ∉ findSuspiciousIPs id [⟨[], [ 'a'], [], [], 200⟩, ⟨[], [ 'b'], [], [], 200⟩,
        ⟨[], [ 'a'], [], [], 404⟩] 1 :=
  ⟨((findSuspiciousIPs_iff id (fun t => List.Perm.refl t)
      [⟨[], [ 'a'], [], [], 200⟩, ⟨[], [ 'b'], [], [], 200⟩, ⟨[], [ 'a'], [], [], 404⟩] 1).1
      [ 'a']).2 (by decide),
   (findSuspiciousIPs_iff id (fun t => List.Perm.refl t)
      [⟨[], [ 'a'], [], [], 200⟩, ⟨[], [ 'b'], [], [], 200⟩, ⟨[], [ 'a'], [], [], 404⟩] 1).2.2.2
      [ 'b'] (by decide)⟩

/-- C29: of `/relative/path`, which the tests expect back unchanged, `extractDomain`
returns the empty string, and so it does of every URL that begins with `/` and holds no
`://`. Of a URL `scheme://host/rest` whose `host` holds no `/` it returns `host`, when
the `://` after `scheme` is the first of the URL; so of `http://example.com/path` and of
`https://www.google.com/search`, as the tests expect. -/
theorem extractDomain_relative_path_empty :
    extractDomain "/relative/path".toList = []
    ∧ (∀ rest : List Char, ¬ "://".toList <:+: ( '/' :: rest) →
        extractDomain ( '/' :: rest) = [])
    ∧ (∀ scheme host rest : List Char, ¬ "://".toList <:+: scheme → '/' ∉ host →
        extractDomain (scheme ++ "://".toList ++ host ++ '/' :: rest) = host)
    ∧ extractDomain "http://example.com/path".toList = "example.com".toList
    ∧ extractDomain "https://www.google.com/search".toList = "www.google.com".toList := by
  refine ⟨by decide, ?_, extractDomain_host, by decide, by decide⟩
  intro rest hno
  have h1 : strFind ( '/' :: rest) "://".toList 0 = none := by
    have := strFind_isSome_iff ( '/' :: rest) "://".toList
    cases h : strFind ( '/' :: rest) "://".toList 0 with
    | none => rfl
    | some i =>
      rw [h] at this
      exact absurd (this.1 rfl) hno
  have h2 : strFind ( '/' :: rest) [ '/'] 0 = some 0 := by
    simp [strFind, findLoop, substr]
  simp only [extractDomain, h1, h2, substr, Nat.sub_self, List.take_zero]

end LogAnalyzer

namespace JsonParser

/-- C30: `loadFromFile` of a file whose bytes are `EF BB BF` followed by `t` gives what
`parse(t)` gives, and of a file whose bytes do not begin with `EF BB BF` it gives what
`parse` gives on all the bytes. -/
theorem loadFromFile_strips_bom (files : List Char → Option (List Char))
    (filename : List Char) :
    (∀ t : List Char,
        files filename = some (Char.ofNat 0xEF :: Char.ofNat 0xBB :: Char.ofNat 0xBF :: t) →
        loadFromFile files filename = parse t)
    ∧ (∀ content : List Char, files filename = some content →
        ¬ [Char.ofNat 0xEF, Char.ofNat 0xBB, Char.ofNat 0xBF] <+: content →
        loadFromFile files filename = parse content) := by
  constructor
  · intro t h
    simp only [loadFromFile, h]
    rw [if_pos ⟨by simp, rfl, rfl, rfl⟩]
    simp [substr]
  · intro content h hno
    simp only [loadFromFile, h]
    rw [if_neg, substr, List.drop_zero, List.take_length]
    rintro ⟨hlen, h0, h1, h2⟩
    apply hno
    match content, hlen with
    | a :: b :: c :: rest, _ =>
      simp only [charAt, List.getD_cons_zero, List.getD_cons_succ] at h0 h1 h2
      have ha : a = Char.ofNat 0xEF := by rw [← Char.ofNat_toNat a, h0]
      have hb : b = Char.ofNat 0xBB := by rw [← Char.ofNat_toNat b, h1]
      have hc : c = Char.ofNat 0xBF := by rw [← Char.ofNat_toNat c, h2]
      rw [ha, hb, hc]
      exact ⟨rest, rfl⟩

end JsonParser

/-! ## Lemmas on decimal digits -/

theorem digitChar_isdigit (n : Nat) (h : n < 10) : isdigit (Nat.digitChar n) = true := by
  interval_cases n <;> decide

theorem toDigitsCore_isdigit : ∀ (fuel n : Nat) (ds : List Char),
    (∀ c ∈ ds, isdigit c = true) → ∀ c ∈ Nat.toDigitsCore 10 fuel n ds, isdigit c = true
  | 0, _, ds, h => by simpa [Nat.toDigitsCore] using h
  | fuel + 1, n, ds, h => by
    have hd := digitChar_isdigit (n % 10) (Nat.mod_lt _ (by decide))
    have hds : ∀ c ∈ Nat.digitChar (n % 10) :: ds, isdigit c = true := by
      intro c hc
      rcases List.mem_cons.1 hc with rfl | hc
      · exact hd
      · exact h c hc
    rw [Nat.toDigitsCore]
    split_ifs
    · exact hds
    · exact toDigitsCore_isdigit fuel (n / 10) _ hds

theorem toDigits_isdigit (n : Nat) : ∀ c ∈ Nat.toDigits 10 n, isdigit c = true :=
  toDigitsCore_isdigit _ _ [] (by simp)

theorem isdigit_ne_newline (c : Char) (h : isdigit c = true) : c ≠ '\n' := by
  rintro rfl
  exact absurd h (by decide)

theorem formatInt_no_newline (n : Int) : '\n' ∉ formatInt n := by
  unfold formatInt
  split_ifs
  · rw [List.mem_cons, not_or]
    exact ⟨by decide, fun h => isdigit_ne_newline _ (toDigits_isdigit _ _ h) rfl⟩
  · exact fun h => isdigit_ne_newline _ (toDigits_isdigit _ _ h) rfl

/-! ## Lemmas on the export -/

namespace LogAnalyzer

theorem csv_fold (line : LogEntry → List Char) : ∀ (logs : List LogEntry) (file : List Char),
    logs.foldl (fun file log => file ++ line log) file = file ++ logs.flatMap line
  | [], file => by simp
  | log :: rest, file => by
    rw [List.foldl_cons, csv_fold line rest, List.flatMap_cons, List.append_assoc]

theorem count_newline_lines (line : LogEntry → List Char) :
    ∀ logs : List LogEntry, (∀ log ∈ logs, (line log).count '\n' = 1) →
      (logs.flatMap line).count '\n' = logs.length
  | [], _ => by simp
  | log :: rest, h => by
    rw [List.flatMap_cons, List.count_append, h log (by simp),
      count_newline_lines line rest (fun l hl => h l (by simp [hl])), List.length_cons]
    omega

end LogAnalyzer

/-! ## Lemmas on the order of timestamps -/

theorem lex_cons_iff (x y : Nat) (xs ys : List Nat) :
    List.Lex (· < ·) (x :: xs) (y :: ys) ↔ x < y ∨ (x = y ∧ List.Lex (· < ·) xs ys) := by
  constructor
  · intro h
    cases h with
    | cons h => exact Or.inr ⟨rfl, h⟩
    | rel h => exact Or.inl h
  · rintro (h | ⟨rfl, h⟩)
    · exact List.Lex.rel h
    · exact List.Lex.cons h

theorem strLt_literal (c : Char) (s t : List Char) : strLt (c :: s) (c :: t) = strLt s t := by
  simp [strLt]

theorem char_eq_of_toNat (x y : Char) (h : x.toNat = y.toNat) : x = y := by
  rw [← Char.ofNat_toNat x, ← Char.ofNat_toNat y, h]

/-- Two digits in front of two strings are compared as the numbers they write. -/
theorem strLt_two_digits (x0 x1 y0 y1 : Char) (s t : List Char)
    (hx0 : isdigit x0 = true) (hx1 : isdigit x1 = true)
    (hy0 : isdigit y0 = true) (hy1 : isdigit y1 = true) :
    (strLt (x0 :: x1 :: s) (y0 :: y1 :: t) = true
      ↔ natOfDigits [x0, x1] < natOfDigits [y0, y1]
        ∨ (natOfDigits [x0, x1] = natOfDigits [y0, y1] ∧ strLt s t = true))
    ∧ (natOfDigits [x0, x1] = natOfDigits [y0, y1] → x0 = y0 ∧ x1 = y1) := by
  have a0 := toNat_of_isdigit x0 hx0
  have a1 := toNat_of_isdigit x1 hx1
  have b0 := toNat_of_isdigit y0 hy0
  have b1 := toNat_of_isdigit y1 hy1
  constructor
  · simp only [strLt, natOfDigits, List.foldl_cons, List.foldl_nil]
    by_cases hr : strLt s t = true
    · simp only [hr]
      split_ifs <;> simp only [true_iff, Bool.false_eq_true, false_iff, and_true] <;> omega
    · simp only [hr]
      split_ifs <;>
        simp only [true_iff, Bool.false_eq_true, false_iff, and_false, or_false] <;> omega
  · intro h
    simp only [natOfDigits, List.foldl_cons, List.foldl_nil] at h
    exact ⟨char_eq_of_toNat _ _ (by omega), char_eq_of_toNat _ _ (by omega)⟩

/-- Four digits in front of two strings are compared as the numbers they write. -/
theorem strLt_four_digits (x0 x1 x2 x3 y0 y1 y2 y3 : Char) (s t : List Char)
    (hx0 : isdigit x0 = true) (hx1 : isdigit x1 = true) (hx2 : isdigit x2 = true)
    (hx3 : isdigit x3 = true) (hy0 : isdigit y0 = true) (hy1 : isdigit y1 = true)
    (hy2 : isdigit y2 = true) (hy3 : isdigit y3 = true) :
    (strLt (x0 :: x1 :: x2 :: x3 :: s) (y0 :: y1 :: y2 :: y3 :: t) = true
      ↔ natOfDigits [x0, x1, x2, x3] < natOfDigits [y0, y1, y2, y3]
        ∨ (natOfDigits [x0, x1, x2, x3] = natOfDigits [y0, y1, y2, y3] ∧ strLt s t = true))
    ∧ (natOfDigits [x0, x1, x2, x3] = natOfDigits [y0, y1, y2, y3] →
        x0 = y0 ∧ x1 = y1 ∧ x2 = y2 ∧ x3 = y3) := by
  have a0 := toNat_of_isdigit x0 hx0
  have a1 := toNat_of_isdigit x1 hx1
  have a2 := toNat_of_isdigit x2 hx2
  have a3 := toNat_of_isdigit x3 hx3
  have b0 := toNat_of_isdigit y0 hy0
  have b1 := toNat_of_isdigit y1 hy1
  have b2 := toNat_of_isdigit y2 hy2
  have b3 := toNat_of_isdigit y3 hy3
  have hx : natOfDigits [x0, x1, x2, x3] = natOfDigits [x0, x1] * 100 + natOfDigits [x2, x3] := by
    simp only [natOfDigits, List.foldl_cons, List.foldl_nil]
    omega
  have hy : natOfDigits [y0, y1, y2, y3] = natOfDigits [y0, y1] * 100 + natOfDigits [y2, y3] := by
    simp only [natOfDigits, List.foldl_cons, List.foldl_nil]
    omega
  have bx : natOfDigits [x2, x3] ≤ 99 := by
    simp only [natOfDigits, List.foldl_cons, List.foldl_nil]
    omega
  have by2 : natOfDigits [y2, y3] ≤ 99 := by
    simp only [natOfDigits, List.foldl_cons, List.foldl_nil]
    omega
  have h01 := strLt_two_digits x0 x1 y0 y1 (x2 :: x3 :: s) (y2 :: y3 :: t) hx0 hx1 hy0 hy1
  have h23 := strLt_two_digits x2 x3 y2 y3 s t hx2 hx3 hy2 hy3
  rw [hx, hy]
  constructor
  · rw [h01.1, h23.1]
    by_cases hr : strLt s t = true
    · simp only [hr, and_true]
      omega
    · simp only [hr, Bool.false_eq_true, and_false, or_false]
      omega
  · intro h
    have e1 : natOfDigits [x0, x1] = natOfDigits [y0, y1] := by omega
    have e2 : natOfDigits [x2, x3] = natOfDigits [y2, y3] := by omega
    exact ⟨(h01.2 e1).1, (h01.2 e1).2, (h23.2 e2).1, (h23.2 e2).2⟩

/-- A string that passes `validateTimestamp` is fourteen digits around `-`, `-`, `T`, `:`,
`:` and `Z`. -/
theorem validateTimestamp_shape (ts : List Char) (h : LogEntry.validateTimestamp ts = true) :
    ∃ y0 y1 y2 y3 m0 m1 d0 d1 h0 h1 n0 n1 s0 s1 : Char,
      ts = [y0, y1, y2, y3, '-', m0, m1, '-', d0, d1, 'T', h0, h1, ':', n0, n1, ':', s0, s1, 'Z']
      ∧ isdigit y0 = true ∧ isdigit y1 = true ∧ isdigit y2 = true ∧ isdigit y3 = true
      ∧ isdigit m0 = true ∧ isdigit m1 = true ∧ isdigit d0 = true ∧ isdigit d1 = true
      ∧ isdigit h0 = true ∧ isdigit h1 = true ∧ isdigit n0 = true ∧ isdigit n1 = true
      ∧ isdigit s0 = true ∧ isdigit s1 = true := by
  have hlen := matchItems_length _ _ h
  match ts, hlen, h with
  | [c0, c1, c2, c3, c4, c5, c6, c7, c8, c9, c10, c11, c12, c13, c14, c15, c16, c17, c18,
      c19], _, h =>
    simp only [LogEntry.validateTimestamp, isoPattern, matchItems, Bool.and_eq_true,
      decide_eq_true_eq, and_true] at h
    obtain ⟨a0, a1, a2, a3, rfl, a5, a6, rfl, a8, a9, rfl, a11, a12, rfl, a14, a15, rfl, a17,
      a18, rfl⟩ := h
    exact ⟨c0, c1, c2, c3, c5, c6, c8, c9, c11, c12, c14, c15, c17, c18, rfl, a0, a1, a2, a3,
      a5, a6, a8, a9, a11, a12, a14, a15, a17, a18⟩

/-! ## Lemmas on the serializer -/

theorem isdigit_not_blank (c : Char) (h : isdigit c = true) : isBlank c = false := by
  have := toNat_of_isdigit c h
  cases hb : isBlank c
  · rfl
  · simp only [isBlank, Bool.or_eq_true, decide_eq_true_eq] at hb
    rcases hb with (rfl | rfl) | rfl <;> simp at this

theorem stripTrailingZeros_subset (ds : List Char) : ∀ c ∈ stripTrailingZeros ds, c ∈ ds := by
  intro c hc
  rw [stripTrailingZeros, List.mem_reverse] at hc
  exact List.mem_reverse.1 ((List.dropWhile_suffix _).subset hc)

theorem formatExponent_not_blank (x : Int) : ∀ c ∈ formatExponent x, isBlank c = false := by
  intro c hc
  have hd : ∀ c ∈ Nat.toDigits 10 x.natAbs, isBlank c = false :=
    fun c hc => isdigit_not_blank c (toDigits_isdigit _ c hc)
  simp only [formatExponent, List.mem_append, List.mem_cons, List.mem_singleton,
    List.not_mem_nil, or_false] at hc
  rcases hc with (rfl | hc) | hc
  · rfl
  · rw [hc]
    split_ifs <;> rfl
  · split_ifs at hc
    · rcases List.mem_cons.1 hc with rfl | hc
      · rfl
      · exact hd c hc
    · exact hd c hc

theorem not_blank_append (a b : List Char) (ha : ∀ c ∈ a, isBlank c = false)
    (hb : ∀ c ∈ b, isBlank c = false) : ∀ c ∈ a ++ b, isBlank c = false :=
  fun c hc => (List.mem_append.1 hc).elim (ha c) (hb c)

theorem not_blank_ite (p : Prop) [Decidable p] (a b : List Char)
    (ha : ∀ c ∈ a, isBlank c = false) (hb : ∀ c ∈ b, isBlank c = false) :
    ∀ c ∈ (if p then a else b), isBlank c = false := by
  split_ifs
  · exact ha
  · exact hb

theorem not_blank_cons (x : Char) (a : List Char) (hx : isBlank x = false)
    (ha : ∀ c ∈ a, isBlank c = false) : ∀ c ∈ x :: a, isBlank c = false := by
  intro c hc
  rcases List.mem_cons.1 hc with rfl | hc
  · exact hx
  · exact ha c hc

theorem not_blank_nil : ∀ c ∈ ([] : List Char), isBlank c = false :=
  fun _ hc => absurd hc (List.not_mem_nil _)

theorem formatNumber_not_blank (d : Decimal) : ∀ c ∈ formatNumber d, isBlank c = false := by
  have hd : ∀ (n : Nat), ∀ c ∈ Nat.toDigits 10 n, isBlank c = false :=
    fun n c hc => isdigit_not_blank c (toDigits_isdigit _ c hc)
  have hstrip : ∀ (ds : List Char), (∀ c ∈ ds, isBlank c = false) →
      ∀ c ∈ stripTrailingZeros ds, isBlank c = false :=
    fun ds h c hc => h c (stripTrailingZeros_subset ds c hc)
  have htake : ∀ (n k : Nat), ∀ c ∈ (Nat.toDigits 10 n).take k, isBlank c = false :=
    fun n k c hc => hd n c (List.mem_of_mem_take hc)
  have hdrop : ∀ (n k : Nat), ∀ c ∈ stripTrailingZeros ((Nat.toDigits 10 n).drop k),
      isBlank c = false :=
    fun n k => hstrip _ (fun c hc => hd n c (List.mem_of_mem_drop hc))
  have hsign : ∀ c ∈ (if d.mantissa < 0 then [ '-'] else []), isBlank c = false :=
    not_blank_ite _ _ _ (not_blank_cons _ _ rfl not_blank_nil) not_blank_nil
  have hfrac : ∀ (fr : List Char), (∀ c ∈ fr, isBlank c = false) →
      ∀ c ∈ (if fr.isEmpty then [] else '.' :: fr), isBlank c = false :=
    fun fr h => not_blank_ite _ _ _ not_blank_nil (not_blank_cons _ _ rfl h)
  unfold formatNumber
  simp only
  refine not_blank_ite _ _ _ (not_blank_cons _ _ rfl not_blank_nil)
    (not_blank_ite _ _ _ ?_ (not_blank_ite _ _ _ ?_ ?_))
  · exact not_blank_append _ _ (not_blank_append _ _ (not_blank_append _ _ hsign (htake _ _))
      (hfrac _ (hdrop _ _))) (formatExponent_not_blank _)
  · exact not_blank_append _ _ (not_blank_append _ _ hsign (htake _ _)) (hfrac _ (hdrop _ _))
  · refine not_blank_append _ _ (not_blank_append _ _ (not_blank_append _ _ hsign
      (not_blank_cons _ _ rfl (not_blank_cons _ _ rfl not_blank_nil))) ?_) (hstrip _ (hd _))
    intro c hc
    rw [(List.mem_replicate.1 hc).2]
    rfl

namespace JsonParser

theorem not_blank_of_all (s : List Char) (h : s.all (fun c => !isBlank c) = true) :
    ∀ c ∈ s, isBlank c = false := by
  intro c hc
  have := List.all_eq_true.1 h c hc
  simpa using this

mutual
theorem writeValue_not_blank (indent : Nat) : ∀ v : JsonValue,
    v.allText (fun c => !isBlank c) = true →
    ∀ c ∈ writeValue false v indent, isBlank c = false
  | .null, _ => by
    rw [writeValue]
    decide
  | .boolean b, _ => by
    rw [writeValue]
    cases b <;> decide
  | .number n, _ => by
    rw [writeValue]
    exact formatNumber_not_blank n
  | .string s, h => by
    rw [writeValue]
    rw [JsonValue.allText] at h
    exact not_blank_append _ _ (not_blank_append _ _ (by decide) (not_blank_of_all s h))
      (by decide)
  | .array arr, h => by
    rw [JsonValue.allText] at h
    have := writeElements_not_blank indent arr h
    rw [writeValue]
    simp only [Bool.false_and, Bool.false_eq_true, if_false, List.append_nil]
    exact not_blank_append _ _ (not_blank_append _ _ (by decide) this) (by decide)
  | .object obj, h => by
    rw [JsonValue.allText] at h
    have := writeMembers_not_blank indent obj h
    rw [writeValue]
    simp only [Bool.false_and, Bool.false_eq_true, if_false, List.append_nil]
    exact not_blank_append _ _ (not_blank_append _ _ (by decide) this) (by decide)
theorem writeElements_not_blank (indent : Nat) : ∀ arr : List JsonValue,
    JsonValue.allTextElements (fun c => !isBlank c) arr = true →
    ∀ c ∈ writeElements false arr indent, isBlank c = false
  | [], _ => by
    rw [writeElements]
    exact not_blank_nil
  | v :: rest, h => by
    rw [JsonValue.allTextElements, Bool.and_eq_true] at h
    have h1 := writeValue_not_blank (indent + 2) v h.1
    have h2 := writeElements_not_blank indent rest h.2
    rw [writeElements]
    simp only [Bool.false_eq_true, if_false, List.append_nil, List.nil_append]
    exact not_blank_append _ _ (not_blank_append _ _ h1
      (not_blank_ite _ _ _ not_blank_nil (by decide))) h2
theorem writeMembers_not_blank (indent : Nat) : ∀ obj : List (List Char × JsonValue),
    JsonValue.allTextMembers (fun c => !isBlank c) obj = true →
    ∀ c ∈ writeMembers false obj indent, isBlank c = false
  | [], _ => by
    rw [writeMembers]
    exact not_blank_nil
  | (key, v) :: rest, h => by
    rw [JsonValue.allTextMembers, Bool.and_eq_true, Bool.and_eq_true] at h
    have h1 := writeValue_not_blank (indent + 2) v h.1.2
    have h2 := writeMembers_not_blank indent rest h.2
    rw [writeMembers]
    simp only [Bool.false_eq_true, if_false, List.append_nil, List.nil_append]
    exact not_blank_append _ _ (not_blank_append _ _ (not_blank_append _ _
      (not_blank_append _ _ (not_blank_append _ _ (by decide) (not_blank_of_all key h.1.1))
        (by decide)) h1) (not_blank_ite _ _ _ not_blank_nil (by decide))) h2
end

mutual
theorem writeValue_length_le (indent : Nat) : ∀ v : JsonValue,
    (writeValue false v indent).length ≤ (writeValue true v indent).length
  | .null => by simp [writeValue]
  | .boolean b => by simp [writeValue]
  | .number n => by simp [writeValue]
  | .string s => by simp [writeValue]
  | .array arr => by
    have := writeElements_length_le indent arr
    simp [writeValue]
    omega
  | .object obj => by
    have := writeMembers_length_le indent obj
    simp [writeValue]
    omega
theorem writeElements_length_le (indent : Nat) : ∀ arr : List JsonValue,
    (writeElements false arr indent).length ≤ (writeElements true arr indent).length
  | [] => by simp [writeElements]
  | v :: rest => by
    have h1 := writeValue_length_le (indent + 2) v
    have h2 := writeElements_length_le indent rest
    simp [writeElements]
    omega
theorem writeMembers_length_le (indent : Nat) : ∀ obj : List (List Char × JsonValue),
    (writeMembers false obj indent).length ≤ (writeMembers true obj indent).length
  | [] => by simp [writeMembers]
  | (key, v) :: rest => by
    have h1 := writeValue_length_le (indent + 2) v
    have h2 := writeMembers_length_le indent rest
    simp [writeMembers]
    omega
end

end JsonParser

/-! ## Lemmas on the bounds of the cursor -/

namespace JsonParser

theorem inBounds_ok {α : Type} (len pos next : Nat) (a : α) :
    inBounds len pos (.ok (a, next) : Parsed α) = true ↔ pos ≤ next ∧ next ≤ len := by
  simp [inBounds]

theorem inBounds_throw {α : Type} (len pos p : Nat) (msg : String) (ctx : List Char) :
    inBounds len pos (throwParse msg p ctx : Parsed α) = true ↔ p ≤ len := by
  simp [inBounds, throwParse]

theorem inBounds_error {α β : Type} (len pos next : Nat) (e : Exn)
    (h : inBounds len pos (.error e : Parsed α) = true) :
    inBounds len next (.error e : Parsed β) = true := by
  cases e <;> simp_all [inBounds]

theorem inBounds_mono {α : Type} (len pos next : Nat) (r : Parsed α) (hle : next ≤ pos)
    (h : inBounds len pos r = true) : inBounds len next r = true := by
  match r, h with
  | .ok (a, p), h =>
    rw [inBounds_ok] at h ⊢
    exact ⟨by omega, h.2⟩
  | .error e, h => exact inBounds_error len pos next e h

theorem lt_length_of_charAt (s : List Char) (pos : Nat) (c : Char) (h : charAt s pos = c)
    (hc : c ≠ Char.ofNat 0) : pos < s.length := by
  by_contra hlt
  exact hc (by rw [← h, charAt_of_length_le s pos (by omega)])

theorem skipWhitespaceLoop_bounds (s : List Char) : ∀ (fuel pos : Nat),
    pos ≤ skipWhitespaceLoop s fuel pos
      ∧ (pos ≤ s.length → skipWhitespaceLoop s fuel pos ≤ s.length)
  | 0, pos => by simp [skipWhitespaceLoop]
  | fuel + 1, pos => by
    have ih := skipWhitespaceLoop_bounds s fuel (pos + 1)
    rw [skipWhitespaceLoop]
    split_ifs with h
    · rw [Bool.and_eq_true, decide_eq_true_eq] at h
      exact ⟨by omega, fun _ => ih.2 (by omega)⟩
    · exact ⟨le_refl _, fun h => h⟩

theorem skipWhitespace_bounds (s : List Char) (pos : Nat) :
    pos ≤ skipWhitespace s pos ∧ (pos ≤ s.length → skipWhitespace s pos ≤ s.length) :=
  skipWhitespaceLoop_bounds s _ pos

theorem skipDigitsLoop_bounds (s : List Char) : ∀ (fuel pos : Nat),
    pos ≤ skipDigitsLoop s fuel pos
      ∧ (pos ≤ s.length → skipDigitsLoop s fuel pos ≤ s.length)
  | 0, pos => by simp [skipDigitsLoop]
  | fuel + 1, pos => by
    have ih := skipDigitsLoop_bounds s fuel (pos + 1)
    rw [skipDigitsLoop]
    split_ifs with h
    · rw [Bool.and_eq_true, decide_eq_true_eq] at h
      exact ⟨by omega, fun _ => ih.2 (by omega)⟩
    · exact ⟨le_refl _, fun h => h⟩

theorem skipDigits_bounds (s : List Char) (pos : Nat) :
    pos ≤ skipDigits s pos ∧ (pos ≤ s.length → skipDigits s pos ≤ s.length) :=
  skipDigitsLoop_bounds s _ pos

/-- A digit under the cursor is stepped over. -/
theorem skipDigits_progress (s : List Char) (pos : Nat) (hlt : pos < s.length)
    (hd : isdigit (charAt s pos) = true) : pos + 1 ≤ skipDigits s pos := by
  rw [skipDigits]
  obtain ⟨fuel, hf⟩ : ∃ fuel, s.length - pos = fuel + 1 := ⟨s.length - pos - 1, by omega⟩
  rw [hf, skipDigitsLoop]
  simp only [hlt, decide_True, hd, Bool.and_self, if_true]
  exact (skipDigitsLoop_bounds s fuel (pos + 1)).1

theorem parseEscapeSequence_inBounds (s : List Char) (pos : Nat) (hlt : pos < s.length) :
    inBounds s.length (pos + 1) (parseEscapeSequence s pos) = true := by
  by_cases hu : charAt s pos = 'u'
  · by_cases hlen : pos + 4 < s.length
    · rw [parseEscapeSequence_unicode s pos hu hlen, inBounds_ok]
      omega
    · rw [parseEscapeSequence_unicode_short s pos hu (by omega), inBounds_throw]
      omega
  · cases hv : escapeValue (charAt s pos) with
    | none =>
      rw [parseEscapeSequence_unknown s pos hv hu, inBounds_throw]
      omega
    | some v =>
      rw [parseEscapeSequence_simple s pos v hv, inBounds_ok]
      omega

theorem parseStringLoop_inBounds (s : List Char) : ∀ (fuel pos : Nat) (str : List Char),
    pos ≤ s.length → s.length + 1 - pos ≤ fuel →
    inBounds s.length pos (parseStringLoop s fuel pos str) = true
  | 0, pos, _, hle, hf => by omega
  | fuel + 1, pos, str, hle, hf => by
    by_cases hend : s.length ≤ pos
    · rw [parseStringLoop_end s fuel pos str hend, inBounds_ok]
      exact ⟨le_refl _, hle⟩
    by_cases hq : charAt s pos = '"'
    · rw [parseStringLoop_quote s fuel pos str hq, inBounds_ok]
      exact ⟨le_refl _, hle⟩
    by_cases hb : charAt s pos = '\\'
    · by_cases hend1 : s.length ≤ pos + 1
      · rw [parseStringLoop_escape_end s fuel pos str (by omega) hend1 hb, inBounds_throw]
        omega
      · have hesc := parseEscapeSequence_inBounds s (pos + 1) (by omega)
        cases he : parseEscapeSequence s (pos + 1) with
        | error e =>
          rw [parseStringLoop_escape_error s fuel pos str (by omega) hb e he]
          rw [he] at hesc
          exact inBounds_error _ _ _ e hesc
        | ok r =>
          obtain ⟨c, next⟩ := r
          rw [he, inBounds_ok] at hesc
          rw [parseStringLoop_escape s fuel pos str (by omega) hb c next he]
          exact inBounds_mono _ next pos _ (by omega)
            (parseStringLoop_inBounds s fuel next _ hesc.2 (by omega))
    · rw [parseStringLoop_ordinary s fuel pos str (by omega) hq hb]
      exact inBounds_mono _ (pos + 1) pos _ (by omega)
        (parseStringLoop_inBounds s fuel (pos + 1) _ (by omega) (by omega))

theorem parseString_inBounds (s : List Char) (pos : Nat) (hlt : pos < s.length) :
    inBounds s.length (pos + 1) (parseString s pos) = true := by
  have hloop := parseStringLoop_inBounds s (s.length + 1 - (pos + 1)) (pos + 1) []
    (by omega) (le_refl _)
  rw [parseString]
  cases hl : parseStringLoop s (s.length + 1 - (pos + 1)) (pos + 1) [] with
  | error e =>
    rw [hl] at hloop
    simp only
    exact inBounds_error _ _ _ e hloop
  | ok r =>
    obtain ⟨str, next⟩ := r
    rw [hl, inBounds_ok] at hloop
    simp only
    split_ifs with h
    · rw [inBounds_throw]
      exact hloop.2
    · rw [Bool.or_eq_true, decide_eq_true_eq, not_or] at h
      rw [inBounds_ok]
      omega

theorem parseNumber_inBounds (s : List Char) (pos : Nat) (hlt : pos < s.length)
    (hc : charAt s pos = '-' ∨ isdigit (charAt s pos) = true) :
    inBounds s.length (pos + 1) (parseNumber s pos) = true := by
  rw [parseNumber]
  simp only
  generalize hp1 : (if charAt s pos = '-' then pos + 1 else pos) = p1
  generalize hp2 : skipDigits s p1 = p2
  generalize hp3 : (if (decide (p2 < s.length) && decide (charAt s p2 = '.')) = true
      then skipDigits s (p2 + 1) else p2) = p3
  generalize hp4 : (if (decide (p3 < s.length)
        && (decide (charAt s p3 = 'e') || decide (charAt s p3 = 'E'))) = true
      then skipDigits s (if (decide (p3 + 1 < s.length)
        && (decide (charAt s (p3 + 1) = '+') || decide (charAt s (p3 + 1) = '-'))) = true
        then p3 + 1 + 1 else p3 + 1) else p3) = p4
  have b1 : pos ≤ p1 ∧ p1 ≤ s.length := by
    rw [← hp1]
    split_ifs <;> omega
  have b2 : pos + 1 ≤ p2 ∧ p2 ≤ s.length := by
    rw [← hp2]
    refine ⟨?_, (skipDigits_bounds s p1).2 b1.2⟩
    by_cases hm : charAt s pos = '-'
    · rw [if_pos hm] at hp1
      have := (skipDigits_bounds s p1).1
      omega
    · rw [if_neg hm] at hp1
      rw [← hp1]
      exact skipDigits_progress s pos hlt (hc.resolve_left hm)
  have b3 : pos + 1 ≤ p3 ∧ p3 ≤ s.length := by
    rw [← hp3]
    split_ifs with h
    · rw [Bool.and_eq_true, decide_eq_true_eq] at h
      have := skipDigits_bounds s (p2 + 1)
      exact ⟨by omega, this.2 (by omega)⟩
    · exact b2
  have b4 : pos + 1 ≤ p4 ∧ p4 ≤ s.length := by
    rw [← hp4]
    split_ifs with h h'
    · rw [Bool.and_eq_true, decide_eq_true_eq] at h h'
      have := skipDigits_bounds s (p3 + 1 + 1)
      exact ⟨by omega, this.2 (by omega)⟩
    · rw [Bool.and_eq_true, decide_eq_true_eq] at h
      have := skipDigits_bounds s (p3 + 1)
      exact ⟨by omega, this.2 (by omega)⟩
    · exact b3
  cases stod (List.take (p4 - pos) (List.drop pos s)) with
  | none =>
    simp only
    rw [inBounds_throw]
    omega
  | some num =>
    simp only
    rw [inBounds_ok]
    exact b4

theorem length_of_compareAt (s : List Char) (pos : Nat) (word : List Char)
    (hw : 0 < word.length) (h : compareAt s pos word = true) :
    pos + word.length ≤ s.length := by
  rw [compareAt, decide_eq_true_eq] at h
  have := congrArg List.length h
  rw [List.length_take, List.length_drop] at this
  omega

theorem parseKeyword_inBounds (s : List Char) (pos : Nat) (hle : pos ≤ s.length) :
    inBounds s.length (pos + 1) (parseKeyword s pos) = true := by
  rw [parseKeyword]
  split_ifs with h1 h2 h3
  · have := length_of_compareAt s pos _ (by decide) h1
    rw [inBounds_ok]
    simp only [List.length_cons, List.length_nil] at this
    omega
  · have := length_of_compareAt s pos _ (by decide) h2
    rw [inBounds_ok]
    simp only [List.length_cons, List.length_nil] at this
    omega
  · have := length_of_compareAt s pos _ (by decide) h3
    rw [inBounds_ok]
    simp only [List.length_cons, List.length_nil] at this
    omega
  · rw [inBounds_throw]
    exact hle

theorem parseString_is_string (s : List Char) (pos next : Nat) (v : JsonValue)
    (h : parseString s pos = .ok (v, next)) : ∃ str, v = JsonValue.string str := by
  rw [parseString] at h
  cases hl : parseStringLoop s (s.length + 1 - (pos + 1)) (pos + 1) [] with
  | error e =>
    rw [hl] at h
    cases h
  | ok r =>
    obtain ⟨str, p⟩ := r
    rw [hl] at h
    simp only at h
    split_ifs at h
    · cases h
    · simp only [Except.ok.injEq, Prod.mk.injEq] at h
      exact ⟨str, h.1.symm⟩

theorem parseArrayLoop_inBounds (pv : Nat → Parsed JsonValue) (s : List Char) :
    ∀ (fuel pos : Nat) (arr : List JsonValue), pos ≤ s.length → s.length + 1 - pos ≤ fuel →
    (∀ p, pos ≤ p → p ≤ s.length → inBounds s.length (p + 1) (pv p) = true) →
    inBounds s.length pos (parseArrayLoop pv s fuel pos arr) = true
  | 0, pos, _, hle, hf, _ => by omega
  | fuel + 1, pos, arr, hle, hf, hpv => by
    rw [parseArrayLoop]
    split_ifs with hlt
    · have hv := hpv pos (le_refl _) hle
      cases hr : pv pos with
      | error e =>
        rw [hr] at hv
        simp only
        exact inBounds_error _ _ _ e hv
      | ok r =>
        obtain ⟨element, p1⟩ := r
        rw [hr, inBounds_ok] at hv
        have hws := skipWhitespace_bounds s p1
        simp only
        split_ifs with h1 h2
        · have := lt_length_of_charAt s _ _ h1 (by decide)
          rw [inBounds_ok]
          omega
        · have := lt_length_of_charAt s _ _ h2 (by decide)
          exact inBounds_mono _ (skipWhitespace s p1 + 1) pos _ (by omega)
            (parseArrayLoop_inBounds pv s fuel _ _ (by omega) (by omega)
              (fun p hp1 hp2 => hpv p (by omega) hp2))
        · rw [inBounds_throw]
          exact hws.2 hv.2
    · rw [inBounds_ok]
      exact ⟨le_refl _, hle⟩

theorem parseArray_inBounds (pv : Nat → Parsed JsonValue) (s : List Char) (pos : Nat)
    (hlt : pos < s.length)
    (hpv : ∀ p, pos + 1 ≤ p → p ≤ s.length → inBounds s.length (p + 1) (pv p) = true) :
    inBounds s.length (pos + 1) (parseArray pv s pos) = true := by
  have hws := skipWhitespace_bounds s (pos + 1)
  rw [parseArray]
  split_ifs with h1
  · have := lt_length_of_charAt s _ _ h1 (by decide)
    rw [inBounds_ok]
    omega
  · exact inBounds_mono _ (skipWhitespace s (pos + 1)) (pos + 1) _ hws.1
      (parseArrayLoop_inBounds pv s _ _ _ (hws.2 (by omega)) (le_refl _)
        (fun p hp1 hp2 => hpv p (by omega) hp2))

theorem parseObjectLoop_inBounds (pv : Nat → Parsed JsonValue) (s : List Char) :
    ∀ (fuel pos : Nat) (obj : List (List Char × JsonValue)), pos ≤ s.length →
    s.length + 1 - pos ≤ fuel →
    (∀ p, pos ≤ p → p ≤ s.length → inBounds s.length (p + 1) (pv p) = true) →
    inBounds s.length pos (parseObjectLoop pv s fuel pos obj) = true
  | 0, pos, _, hle, hf, _ => by omega
  | fuel + 1, pos, obj, hle, hf, hpv => by
    rw [parseObjectLoop]
    split_ifs with hlt
    · have hw0 := skipWhitespace_bounds s pos
      simp only
      split_ifs with hq
      · rw [inBounds_throw]
        exact hw0.2 hle
      · rw [ne_eq, not_not] at hq
        have hlt0 := lt_length_of_charAt s _ _ hq (by decide)
        have hk := parseString_inBounds s _ hlt0
        cases hr : parseString s (skipWhitespace s pos) with
        | error e =>
          rw [hr] at hk
          simp only
          exact inBounds_error _ _ _ e hk
        | ok r =>
          obtain ⟨keyValue, p1⟩ := r
          obtain ⟨key, rfl⟩ := parseString_is_string s _ _ _ hr
          rw [hr, inBounds_ok] at hk
          have hw1 := skipWhitespace_bounds s p1
          simp only [JsonValue.asString]
          split_ifs with hc
          · rw [inBounds_throw]
            exact hw1.2 hk.2
          · rw [ne_eq, not_not] at hc
            have hlt1 := lt_length_of_charAt s _ _ hc (by decide)
            have hv := hpv (skipWhitespace s p1 + 1) (by omega) (by omega)
            cases hr2 : pv (skipWhitespace s p1 + 1) with
            | error e =>
              rw [hr2] at hv
              simp only
              exact inBounds_error _ _ _ e hv
            | ok r2 =>
              obtain ⟨value, p2⟩ := r2
              rw [hr2, inBounds_ok] at hv
              have hw2 := skipWhitespace_bounds s p2
              simp only
              split_ifs with h1 h2
              · have := lt_length_of_charAt s _ _ h1 (by decide)
                rw [inBounds_ok]
                omega
              · have := lt_length_of_charAt s _ _ h2 (by decide)
                exact inBounds_mono _ (skipWhitespace s p2 + 1) pos _ (by omega)
                  (parseObjectLoop_inBounds pv s fuel _ _ (by omega) (by omega)
                    (fun p hp1 hp2 => hpv p (by omega) hp2))
              · rw [inBounds_throw]
                exact hw2.2 hv.2
    · rw [inBounds_ok]
      exact ⟨le_refl _, hle⟩

theorem parseObject_inBounds (pv : Nat → Parsed JsonValue) (s : List Char) (pos : Nat)
    (hlt : pos < s.length)
    (hpv : ∀ p, pos + 1 ≤ p → p ≤ s.length → inBounds s.length (p + 1) (pv p) = true) :
    inBounds s.length (pos + 1) (parseObject pv s pos) = true := by
  have hws := skipWhitespace_bounds s (pos + 1)
  rw [parseObject]
  split_ifs with h1
  · have := lt_length_of_charAt s _ _ h1 (by decide)
    rw [inBounds_ok]
    omega
  · exact inBounds_mono _ (skipWhitespace s (pos + 1)) (pos + 1) _ hws.1
      (parseObjectLoop_inBounds pv s _ _ _ (hws.2 (by omega)) (le_refl _)
        (fun p hp1 hp2 => hpv p (by omega) hp2))

/-- With a nesting budget of at least the number of characters from the cursor to the end,
plus one, `parseValue` returns a value with the cursor moved forward and inside the text, or
throws a `JsonParseException` with a position inside the text: the budget does not run
out. -/
theorem parseValue_inBounds (s : List Char) : ∀ (depth pos : Nat), pos ≤ s.length →
    s.length + 1 ≤ depth + pos → inBounds s.length (pos + 1) (parseValue s depth pos) = true
  | 0, pos, hle, hd => by omega
  | depth + 1, pos, hle, hd => by
    have hws := skipWhitespace_bounds s pos
    have hpv : ∀ p, skipWhitespace s pos + 1 ≤ p → p ≤ s.length →
        inBounds s.length (p + 1) (parseValue s depth p) = true :=
      fun p hp1 hp2 => parseValue_inBounds s depth p hp2 (by omega)
    rw [parseValue]
    simp only
    split_ifs with h0 h1 h2 h3 h4 h5
    · rw [inBounds_throw]
      exact hws.2 hle
    · exact inBounds_mono _ _ _ _ (by omega) (parseObject_inBounds _ s _ (by omega) hpv)
    · exact inBounds_mono _ _ _ _ (by omega) (parseArray_inBounds _ s _ (by omega) hpv)
    · exact inBounds_mono _ _ _ _ (by omega) (parseString_inBounds s _ (by omega))
    · refine inBounds_mono _ _ _ _ ?_ (parseNumber_inBounds s _ (by omega) ?_)
      · omega
      · simpa using h4
    · exact inBounds_mono _ _ _ _ (by omega) (parseKeyword_inBounds s _ (hws.2 hle))
    · rw [inBounds_throw]
      exact hws.2 hle

/-- The function `parse` returns a value or throws a `JsonParseException` with a position
inside the text. -/
theorem parse_outcome (s : List Char) :
    (∃ v, parse s = .ok v)
      ∨ (∃ e, parse s = .error (Exn.jsonParse e) ∧ e.position ≤ s.length) := by
  have hv := parseValue_inBounds s (s.length + 1) 0 (Nat.zero_le _) (by omega)
  rw [parse]
  cases hr : parseValue s (s.length + 1) 0 with
  | error e =>
    rw [hr] at hv
    cases e with
    | jsonParse e => exact Or.inr ⟨e, rfl, by simpa [inBounds] using hv⟩
    | _ => simp [inBounds] at hv
  | ok r =>
    obtain ⟨v, p⟩ := r
    rw [hr, inBounds_ok] at hv
    simp only
    split_ifs with h
    · exact Or.inr ⟨_, rfl, (skipWhitespace_bounds s p).2 hv.2⟩
    · exact Or.inl ⟨v, rfl⟩

end JsonParser

/-! ## Lemmas on reading back a written text -/

namespace JsonParser

theorem charAt_of_drop (s rest : List Char) (pos : Nat) (c : Char)
    (h : s.drop pos = c :: rest) : charAt s pos = c := by
  have := charAt_add_of_drop s pos 0
  rw [Nat.add_zero, h] at this
  rw [this]
  rfl

theorem lt_length_of_drop (s rest : List Char) (pos : Nat) (c : Char)
    (h : s.drop pos = c :: rest) : pos < s.length := by
  by_contra hlt
  rw [List.drop_eq_nil_of_le (by omega)] at h
  cases h

/-- The stop of `skipWhitespace`: the end of the text or a character that is no space. -/
theorem skipWhitespaceLoop_stops (s : List Char) : ∀ (fuel pos : Nat),
    s.length - pos ≤ fuel →
    s.length ≤ skipWhitespaceLoop s fuel pos
      ∨ isspace (charAt s (skipWhitespaceLoop s fuel pos)) = false
  | 0, pos, hf => by
    rw [skipWhitespaceLoop]
    exact Or.inl (by omega)
  | fuel + 1, pos, hf => by
    rw [skipWhitespaceLoop]
    split_ifs with h
    · exact skipWhitespaceLoop_stops s fuel (pos + 1) (by omega)
    · rw [Bool.and_eq_true, decide_eq_true_eq, not_and_or] at h
      rcases h with h | h
      · exact Or.inl (by omega)
      · exact Or.inr (by simpa using h)

theorem skipWhitespace_idem (s : List Char) (pos : Nat) :
    skipWhitespace s (skipWhitespace s pos) = skipWhitespace s pos := by
  rcases skipWhitespaceLoop_stops s (s.length - pos) pos (le_refl _) with h | h
  · exact skipWhitespace_end s _ h
  · exact skipWhitespace_stop s _ h

/-- A run of spaces before a character that is no space is skipped, and no more. -/
theorem skipWhitespace_drop (s ws rest : List Char) (pos : Nat) (c : Char)
    (h : s.drop pos = ws ++ c :: rest) (hws : ∀ x ∈ ws, isspace x = true)
    (hc : isspace c = false) : skipWhitespace s pos = pos + ws.length := by
  have hlen := length_of_drop s _ pos h
  rw [List.length_append, List.length_cons] at hlen
  rw [skipWhitespace]
  apply skipWhitespaceLoop_run s ws.length (s.length - pos) pos (by omega)
  · intro k hk1 hk2
    obtain ⟨i, rfl⟩ : ∃ i, k = pos + i := ⟨k - pos, by omega⟩
    have hi : i < ws.length := by omega
    rw [charAt_add_of_drop, h, charAt, List.getD_eq_getElem?_getD,
      List.getElem?_append_left hi, List.getElem?_eq_getElem hi, Option.getD_some]
    exact ⟨hws _ (List.getElem_mem _), by omega⟩
  · rw [charAt_add_of_drop, h, charAt, List.getD_eq_getElem?_getD,
      List.getElem?_append_right (le_refl _)]
    simpa using hc

theorem parseValue_skip (s : List Char) (depth pos : Nat) :
    parseValue s depth (skipWhitespace s pos) = parseValue s depth pos := by
  cases depth with
  | zero => rfl
  | succ d => rw [parseValue, parseValue, skipWhitespace_idem]

theorem parseArrayLoop_skip (s : List Char) (depth fuel pos : Nat) (arr : List JsonValue)
    (hlt : skipWhitespace s pos < s.length) :
    parseArrayLoop (parseValue s depth) s fuel (skipWhitespace s pos) arr
      = parseArrayLoop (parseValue s depth) s fuel pos arr := by
  have hpos : pos < s.length := lt_of_le_of_lt (skipWhitespace_bounds s pos).1 hlt
  cases fuel with
  | zero => rfl
  | succ f =>
    rw [parseArrayLoop, parseArrayLoop, if_pos hlt, if_pos hpos, parseValue_skip]

theorem parseObjectLoop_skip (pv : Nat → Parsed JsonValue) (s : List Char)
    (fuel pos : Nat) (obj : List (List Char × JsonValue))
    (hlt : skipWhitespace s pos < s.length) :
    parseObjectLoop pv s fuel (skipWhitespace s pos) obj
      = parseObjectLoop pv s fuel pos obj := by
  have hpos : pos < s.length := lt_of_le_of_lt (skipWhitespace_bounds s pos).1 hlt
  cases fuel with
  | zero => rfl
  | succ f =>
    rw [parseObjectLoop, parseObjectLoop, if_pos hlt, if_pos hpos, skipWhitespace_idem]

/-- On a map whose keys are all before `key`, the assignment `obj[key] = value` adds the
entry at the end. -/
theorem mapSet_of_lt (key : List Char) (value : JsonValue) :
    ∀ obj : List (List Char × JsonValue), (∀ p ∈ obj, strLt p.1 key = true) →
      mapSet key value obj = obj ++ [(key, value)]
  | [], _ => rfl
  | (k, v) :: rest, h => by
    have hk : strLt k key = true := h (k, v) (by simp)
    have hnot : strLt key k = false := by
      cases hkk : strLt key k
      · rfl
      · have := strLt_trans k key k hk hkk
        rw [strLt_irrefl] at this
        cases this
    rw [mapSet, hnot, hk, mapSet_of_lt key value rest (fun p hp => h p (by simp [hp]))]
    simp

theorem keysAscend_pairwise : ∀ obj : List (List Char × JsonValue),
    JsonValue.keysAscend obj = true →
      obj.Pairwise (fun a b => strLt a.1 b.1 = true)
  | [], _ => List.Pairwise.nil
  | [_], _ => List.pairwise_singleton _ _
  | (k1, v1) :: (k2, v2) :: rest, h => by
    rw [JsonValue.keysAscend, Bool.and_eq_true] at h
    have ih := keysAscend_pairwise ((k2, v2) :: rest) h.2
    rw [List.pairwise_cons]
    refine ⟨?_, ih⟩
    intro p hp
    rcases List.mem_cons.1 hp with rfl | hp
    · exact h.1
    · exact strLt_trans _ _ _ h.1 ((List.pairwise_cons.1 ih).1 p hp)

/-- Where a text that is followed by `post` ends. -/
theorem end_of_drop (s x post : List Char) (pos : Nat) (h : s.drop pos = x ++ post)
    (hne : x ≠ []) :
    pos + x.length = s.length - post.length ∧ pos < s.length
      ∧ s.drop (s.length - post.length) = post := by
  have hlt : pos < s.length := by
    by_contra hlt
    rw [List.drop_eq_nil_of_le (by omega)] at h
    exact hne (List.append_eq_nil.1 h.symm).1
  have hlen := length_of_drop s _ pos h
  rw [List.length_append] at hlen
  have hx : 0 < x.length := List.length_pos.2 hne
  refine ⟨by omega, hlt, ?_⟩
  rw [show s.length - post.length = pos + x.length by omega]
  exact drop_add_of_drop s x post pos h

theorem spaces_isspace (n : Nat) : ∀ x ∈ spaces n, isspace x = true := by
  intro x hx
  rw [(List.mem_replicate.1 hx).2]
  rfl

theorem newline_isspace (pretty : Bool) :
    ∀ x ∈ (if pretty = true then [ '\n'] else []), isspace x = true := by
  cases pretty
  · simp
  · simp
    rfl

theorem blank_isspace (pretty : Bool) :
    ∀ x ∈ (if pretty = true then [ ' '] else []), isspace x = true := by
  cases pretty
  · simp
  · simp
    rfl

theorem indent_isspace (pretty : Bool) (n : Nat) :
    ∀ x ∈ (if pretty = true then spaces n else []), isspace x = true := by
  cases pretty
  · simp
  · simpa using spaces_isspace n

theorem isspace_append (a b : List Char) (ha : ∀ x ∈ a, isspace x = true)
    (hb : ∀ x ∈ b, isspace x = true) : ∀ x ∈ a ++ b, isspace x = true :=
  fun x hx => (List.mem_append.1 hx).elim (ha x) (hb x)

theorem bodyText_ordinary (str : List Char) : bodyText (str.map StringItem.ordinary) = str := by
  induction str with
  | nil => rfl
  | cons c cs ih => simp [bodyText, StringItem.text, ih]

theorem bodyValue_ordinary (str : List Char) :
    bodyValue (str.map StringItem.ordinary) = str := by
  simp [bodyValue, StringItem.value, Function.comp_def]

/-- A string literal without `"` and backslash inside is read back as its content. -/
theorem parseString_plain (s str post : List Char) (pos : Nat)
    (h : s.drop pos = '"' :: (str ++ '"' :: post))
    (hstr : str.all (fun c => c != '"' && c != '\\') = true) :
    parseString s pos = .ok (JsonValue.string str, s.length - post.length) := by
  have hitems : ∀ item ∈ str.map StringItem.ordinary, item.scanned = true := by
    intro item hitem
    obtain ⟨c, hc, rfl⟩ := List.mem_map.1 hitem
    exact List.all_eq_true.1 hstr c hc
  have hclosed := parseString_closed (str.map StringItem.ordinary) s post pos
    (by rw [bodyText_ordinary]; exact h) hitems
  rw [bodyText_ordinary, bodyValue_ordinary] at hclosed
  have hend := (end_of_drop s ('"' :: (str ++ [ '"'])) post pos (by simpa using h) (by simp)).1
  rw [hclosed]
  simp only [List.length_cons, List.length_append, List.length_nil] at hend
  rw [show pos + str.length + 2 = s.length - post.length by omega]

/-- The branch that `parseValue` takes is chosen by the first character that is no
space. -/
theorem parseValue_dispatch (s : List Char) (depth pos p : Nat)
    (hskip : skipWhitespace s pos = p) (hlt : p < s.length) :
    parseValue s (depth + 1) pos
      = if charAt s p = '{' then parseObject (parseValue s depth) s p
        else if charAt s p = '[' then parseArray (parseValue s depth) s p
        else if charAt s p = '"' then parseString s p
        else if charAt s p = '-' || isdigit (charAt s p) then parseNumber s p
        else if charAt s p = 't' || charAt s p = 'f' || charAt s p = 'n' then parseKeyword s p
        else throwParse "Неожиданный символ" p [charAt s p] := by
  rw [parseValue]
  simp only [hskip]
  rw [if_neg (by omega)]

theorem writeValue_head (pretty : Bool) (indent : Nat) (v : JsonValue)
    (h : v.numberFree = true) :
    ∃ c rest, writeValue pretty v indent = c :: rest ∧ isspace c = false ∧ c ≠ ']' := by
  cases v with
  | null => exact ⟨'n', _, by rw [writeValue], by decide, by decide⟩
  | boolean b =>
    cases b
    · exact ⟨'f', _, by rw [writeValue]; rfl, by decide, by decide⟩
    · exact ⟨'t', _, by rw [writeValue]; rfl, by decide, by decide⟩
  | number n => simp [JsonValue.numberFree] at h
  | string str => exact ⟨'"', _, by rw [writeValue]; rfl, by decide, by decide⟩
  | array arr => exact ⟨'[', _, by rw [writeValue]; rfl, by decide, by decide⟩
  | object obj => exact ⟨'{', _, by rw [writeValue]; rfl, by decide, by decide⟩

theorem writeElements_length (pretty : Bool) (indent : Nat) : ∀ arr : List JsonValue,
    JsonValue.numberFreeElements arr = true →
      arr.length ≤ (writeElements pretty arr indent).length
  | [], _ => Nat.zero_le _
  | v :: rest, h => by
    rw [JsonValue.numberFreeElements, Bool.and_eq_true] at h
    obtain ⟨c, r, hc, _, _⟩ := writeValue_head pretty (indent + 2) v h.1
    have ih := writeElements_length pretty indent rest h.2
    rw [writeElements, hc]
    simp only [List.length_append, List.length_cons]
    omega

theorem writeMembers_length (pretty : Bool) (indent : Nat) :
    ∀ obj : List (List Char × JsonValue), obj.length ≤ (writeMembers pretty obj indent).length
  | [] => Nat.zero_le _
  | (key, v) :: rest => by
    have ih := writeMembers_length pretty indent rest
    rw [writeMembers]
    simp only [List.length_append, List.length_cons]
    omega

theorem parseKeyword_null (s post : List Char) (p : Nat)
    (h : s.drop p = 'n' :: 'u' :: 'l' :: 'l' :: post) :
    parseKeyword s p = .ok (JsonValue.null, s.length - post.length) := by
  have hend := (end_of_drop s [ 'n', 'u', 'l', 'l'] post p h (by simp)).1
  simp only [List.length_cons, List.length_nil] at hend
  rw [parseKeyword]
  simp only [compareAt, h, List.length_cons, List.length_nil, List.take]
  simp
  omega

theorem parseKeyword_true (s post : List Char) (p : Nat)
    (h : s.drop p = 't' :: 'r' :: 'u' :: 'e' :: post) :
    parseKeyword s p = .ok (JsonValue.boolean true, s.length - post.length) := by
  have hend := (end_of_drop s [ 't', 'r', 'u', 'e'] post p h (by simp)).1
  simp only [List.length_cons, List.length_nil] at hend
  rw [parseKeyword]
  simp only [compareAt, h, List.length_cons, List.length_nil, List.take]
  simp
  omega

theorem parseKeyword_false (s post : List Char) (p : Nat)
    (h : s.drop p = 'f' :: 'a' :: 'l' :: 's' :: 'e' :: post) :
    parseKeyword s p = .ok (JsonValue.boolean false, s.length - post.length) := by
  have hend := (end_of_drop s [ 'f', 'a', 'l', 's', 'e'] post p h (by simp)).1
  simp only [List.length_cons, List.length_nil] at hend
  rw [parseKeyword]
  simp only [compareAt, h, List.length_cons, List.length_nil, List.take]
  simp
  omega

/-- The start of reading a written value: the spaces before it are skipped, the budget is
not used up, and the cursor is under the first character of the text. -/
theorem written_start (s ws text post : List Char) (pos depth : Nat) (c : Char)
    (rest : List Char) (hd : s.drop pos = ws ++ (text ++ post)) (htext : text = c :: rest)
    (hc : isspace c = false) (hws : ∀ x ∈ ws, isspace x = true)
    (hb : s.length + 1 ≤ depth + pos) :
    ∃ d p, depth = d + 1 ∧ skipWhitespace s pos = p ∧ pos ≤ p ∧ p < s.length
      ∧ s.drop p = text ++ post ∧ charAt s p = c := by
  have hskip := skipWhitespace_drop s ws (rest ++ post) pos c (by rw [hd, htext]; rfl) hws hc
  have hdrop : s.drop (pos + ws.length) = text ++ post := drop_add_of_drop s ws _ pos hd
  have hlt : pos + ws.length < s.length :=
    lt_length_of_drop s (rest ++ post) _ c (by rw [hdrop, htext]; rfl)
  obtain ⟨d, rfl⟩ : ∃ d, depth = d + 1 := ⟨depth - 1, by omega⟩
  exact ⟨d, pos + ws.length, rfl, hskip, by omega, hlt, hdrop,
    charAt_of_drop s (rest ++ post) _ c (by rw [hdrop, htext]; rfl)⟩

/-- The end of an array or object after its last element: spaces, then the closing
bracket. -/
theorem written_close (s tail post : List Char) (n : Nat) (c : Char)
    (hd : s.drop n = tail ++ c :: post) (htail : ∀ x ∈ tail, isspace x = true)
    (hc : isspace c = false) :
    charAt s (skipWhitespace s n) = c ∧ skipWhitespace s n + 1 = s.length - post.length := by
  have hskip := skipWhitespace_drop s tail post n c hd htail hc
  have hdrop : s.drop (n + tail.length) = [c] ++ post := drop_add_of_drop s tail _ n hd
  rw [hskip]
  exact ⟨charAt_of_drop s post _ c hdrop, (end_of_drop s [c] post _ hdrop (by simp)).1⟩

/-- The separator after an element that is not the last: a comma under the cursor. -/
theorem written_comma (s tail : List Char) (n : Nat) (hd : s.drop n = ',' :: tail) :
    skipWhitespace s n = n ∧ charAt s n = ',' ∧ s.drop (n + 1) = tail := by
  have hc := charAt_of_drop s tail n ',' hd
  exact ⟨skipWhitespace_stop s n (by rw [hc]; rfl), hc, drop_add_of_drop s [ ','] tail n hd⟩

theorem parseArrayLoop_last (pv : Nat → Parsed JsonValue) (s : List Char) (fuel pos n : Nat)
    (arr : List JsonValue) (v : JsonValue) (hlt : pos < s.length)
    (hv : pv pos = .ok (v, n)) (hclose : charAt s (skipWhitespace s n) = ']') :
    parseArrayLoop pv s (fuel + 1) pos arr
      = .ok (JsonValue.array (arr ++ [v]), skipWhitespace s n + 1) := by
  rw [parseArrayLoop, if_pos hlt, hv]
  simp only [hclose, if_true]

theorem parseArrayLoop_more (pv : Nat → Parsed JsonValue) (s : List Char) (fuel pos n : Nat)
    (arr : List JsonValue) (v : JsonValue) (hlt : pos < s.length)
    (hv : pv pos = .ok (v, n)) (hskip : skipWhitespace s n = n) (hcomma : charAt s n = ',') :
    parseArrayLoop pv s (fuel + 1) pos arr = parseArrayLoop pv s fuel (n + 1) (arr ++ [v]) := by
  rw [parseArrayLoop, if_pos hlt, hv]
  simp only [hskip, hcomma, if_true]
  rw [if_neg (by decide)]

theorem parseObjectLoop_last (pv : Nat → Parsed JsonValue) (s : List Char)
    (fuel pos q n0 n : Nat) (obj : List (List Char × JsonValue)) (key : List Char)
    (v : JsonValue) (hlt : pos < s.length) (hskip0 : skipWhitespace s pos = q)
    (hq : charAt s q = '"') (hkey : parseString s q = .ok (JsonValue.string key, n0))
    (hskip1 : skipWhitespace s n0 = n0) (hcolon : charAt s n0 = ':')
    (hv : pv (n0 + 1) = .ok (v, n)) (hclose : charAt s (skipWhitespace s n) = '}') :
    parseObjectLoop pv s (fuel + 1) pos obj
      = .ok (JsonValue.object (mapSet key v obj), skipWhitespace s n + 1) := by
  rw [parseObjectLoop, if_pos hlt]
  simp only [hskip0, hq, ne_eq, not_true_eq_false, if_false, hkey, JsonValue.asString, hskip1,
    hcolon, hv, hclose, if_true]

theorem parseObjectLoop_more (pv : Nat → Parsed JsonValue) (s : List Char)
    (fuel pos q n0 n : Nat) (obj : List (List Char × JsonValue)) (key : List Char)
    (v : JsonValue) (hlt : pos < s.length) (hskip0 : skipWhitespace s pos = q)
    (hq : charAt s q = '"') (hkey : parseString s q = .ok (JsonValue.string key, n0))
    (hskip1 : skipWhitespace s n0 = n0) (hcolon : charAt s n0 = ':')
    (hv : pv (n0 + 1) = .ok (v, n)) (hskip : skipWhitespace s n = n)
    (hcomma : charAt s n = ',') :
    parseObjectLoop pv s (fuel + 1) pos obj
      = parseObjectLoop pv s fuel (n + 1) (mapSet key v obj) := by
  rw [parseObjectLoop, if_pos hlt]
  simp only [hskip0, hq, ne_eq, not_true_eq_false, if_false, hkey, JsonValue.asString, hskip1,
    hcolon, hv, hskip, hcomma, if_true]
  rw [if_neg (by decide)]

theorem writeValue_array_nil (pretty : Bool) (indent : Nat) :
    writeValue pretty (.array []) indent = [ '[', ']'] := by
  simp [writeValue, writeElements]

theorem writeValue_object_nil (pretty : Bool) (indent : Nat) :
    writeValue pretty (.object []) indent = [ '{', '}'] := by
  simp [writeValue, writeMembers]

theorem writeValue_array_cons (pretty : Bool) (indent : Nat) (v : JsonValue)
    (rest : List JsonValue) :
    writeValue pretty (.array (v :: rest)) indent
      = '[' :: ((if pretty = true then [ '\n'] else [])
          ++ (writeElements pretty (v :: rest) indent
            ++ ((if pretty = true then spaces indent else []) ++ [ ']']))) := by
  simp [writeValue]

theorem writeValue_object_cons (pretty : Bool) (indent : Nat) (m : List Char × JsonValue)
    (rest : List (List Char × JsonValue)) :
    writeValue pretty (.object (m :: rest)) indent
      = '{' :: ((if pretty = true then [ '\n'] else [])
          ++ (writeMembers pretty (m :: rest) indent
            ++ ((if pretty = true then spaces indent else []) ++ [ '}']))) := by
  simp [writeValue]

theorem writeElements_cons (pretty : Bool) (indent : Nat) (v : JsonValue)
    (rest : List JsonValue) :
    writeElements pretty (v :: rest) indent
      = (if pretty = true then spaces (indent + 2) else [])
          ++ (writeValue pretty v (indent + 2)
            ++ ((if rest.isEmpty = true then [] else [ ','])
              ++ ((if pretty = true then [ '\n'] else [])
                ++ writeElements pretty rest indent))) := by
  rw [writeElements]
  simp only [List.append_assoc]

theorem writeMembers_cons (pretty : Bool) (indent : Nat) (key : List Char) (v : JsonValue)
    (rest : List (List Char × JsonValue)) :
    writeMembers pretty ((key, v) :: rest) indent
      = (if pretty = true then spaces (indent + 2) else [])
          ++ ('"' :: (key ++ '"' :: ':' :: ((if pretty = true then [ ' '] else [])
            ++ (writeValue pretty v (indent + 2)
              ++ ((if rest.isEmpty = true then [] else [ ','])
                ++ ((if pretty = true then [ '\n'] else [])
                  ++ writeMembers pretty rest indent)))))) := by
  rw [writeMembers]
  simp only [List.append_assoc, List.cons_append, List.nil_append]

theorem parseArray_empty (pv : Nat → Parsed JsonValue) (s post : List Char) (p : Nat)
    (h : s.drop p = '[' :: ']' :: post) :
    parseArray pv s p = .ok (JsonValue.array [], s.length - post.length) := by
  have h1 : s.drop (p + 1) = ']' :: post := drop_add_of_drop s [ '['] _ p h
  have hc := charAt_of_drop s post (p + 1) ']' h1
  have hskip := skipWhitespace_stop s (p + 1) (by rw [hc]; rfl)
  have hend := (end_of_drop s [ ']'] post (p + 1) h1 (by simp)).1
  rw [parseArray]
  simp only [hskip, hc, if_true]
  rw [show p + 1 + 1 = s.length - post.length from hend]

theorem parseObject_empty (pv : Nat → Parsed JsonValue) (s post : List Char) (p : Nat)
    (h : s.drop p = '{' :: '}' :: post) :
    parseObject pv s p = .ok (JsonValue.object [], s.length - post.length) := by
  have h1 : s.drop (p + 1) = '}' :: post := drop_add_of_drop s [ '{'] _ p h
  have hc := charAt_of_drop s post (p + 1) '}' h1
  have hskip := skipWhitespace_stop s (p + 1) (by rw [hc]; rfl)
  have hend := (end_of_drop s [ '}'] post (p + 1) h1 (by simp)).1
  rw [parseObject]
  simp only [hskip, hc, if_true]
  rw [show p + 1 + 1 = s.length - post.length from hend]

/-- After `[` and spaces, a character other than `]` starts the loop over the elements. -/
theorem parseArray_nonempty (s ws tail : List Char) (depth p : Nat) (c : Char)
    (h : s.drop (p + 1) = ws ++ c :: tail) (hws : ∀ x ∈ ws, isspace x = true)
    (hcs : isspace c = false) (hc : c ≠ ']') :
    parseArray (parseValue s depth) s p
      = parseArrayLoop (parseValue s depth) s (s.length + 1 - (p + 1 + ws.length)) (p + 1) [] := by
  have hskip := skipWhitespace_drop s ws tail (p + 1) c h hws hcs
  have hdrop : s.drop (p + 1 + ws.length) = c :: tail := drop_add_of_drop s ws _ (p + 1) h
  have hchar := charAt_of_drop s tail _ c hdrop
  have hlt := lt_length_of_drop s tail _ c hdrop
  rw [parseArray]
  rw [if_neg (by rw [hskip, hchar]; exact hc), parseArrayLoop_skip s depth _ (p + 1) []
    (by rw [hskip]; exact hlt), hskip]

/-- After `\x7b` and spaces, a character other than `\x7d` starts the loop over the
entries. -/
theorem parseObject_nonempty (pv : Nat → Parsed JsonValue) (s ws tail : List Char)
    (p : Nat) (c : Char)
    (h : s.drop (p + 1) = ws ++ c :: tail) (hws : ∀ x ∈ ws, isspace x = true)
    (hcs : isspace c = false) (hc : c ≠ '}') :
    parseObject pv s p
      = parseObjectLoop pv s (s.length + 1 - (p + 1 + ws.length)) (p + 1) [] := by
  have hskip := skipWhitespace_drop s ws tail (p + 1) c h hws hcs
  have hdrop : s.drop (p + 1 + ws.length) = c :: tail := drop_add_of_drop s ws _ (p + 1) h
  have hchar := charAt_of_drop s tail _ c hdrop
  have hlt := lt_length_of_drop s tail _ c hdrop
  rw [parseObject]
  rw [if_neg (by rw [hskip, hchar]; exact hc), parseObjectLoop_skip pv s _ (p + 1) []
    (by rw [hskip]; exact hlt), hskip]

mutual
/-- Reading back a written value: after spaces, the text that `writeValue` gives for a
value without numbers, without `"` and backslash in its strings and keys, and with
ascending keys, is parsed to that value, and the cursor ends right after the text. -/
theorem parseValue_written (pretty : Bool) : ∀ (v : JsonValue) (indent : Nat)
    (s ws post : List Char) (pos depth : Nat),
    s.drop pos = ws ++ (writeValue pretty v indent ++ post) →
    (∀ x ∈ ws, isspace x = true) → s.length + 1 ≤ depth + pos →
    v.numberFree = true → v.allText (fun c => c != '"' && c != '\\') = true →
    v.isMap = true →
    parseValue s depth pos = .ok (v, s.length - post.length)
  | .null, indent, s, ws, post, pos, depth, hd, hws, hb, _, _, _ => by
    obtain ⟨d, p, rfl, hskip, _, hlt, hdrop, hchar⟩ := written_start s ws _ post pos depth 'n'
      [ 'u', 'l', 'l'] hd (by rw [writeValue]) (by decide) hws hb
    rw [parseValue_dispatch s d pos p hskip hlt, hchar, if_neg (by decide),
      if_neg (by decide), if_neg (by decide), if_neg (by decide), if_pos (by decide)]
    exact parseKeyword_null s post p (by rw [hdrop, writeValue]; rfl)
  | .boolean true, indent, s, ws, post, pos, depth, hd, hws, hb, _, _, _ => by
    obtain ⟨d, p, rfl, hskip, _, hlt, hdrop, hchar⟩ := written_start s ws _ post pos depth 't'
      [ 'r', 'u', 'e'] hd (by rw [writeValue]; rfl) (by decide) hws hb
    rw [parseValue_dispatch s d pos p hskip hlt, hchar, if_neg (by decide),
      if_neg (by decide), if_neg (by decide), if_neg (by decide), if_pos (by decide)]
    exact parseKeyword_true s post p (by rw [hdrop, writeValue]; rfl)
  | .boolean false, indent, s, ws, post, pos, depth, hd, hws, hb, _, _, _ => by
    obtain ⟨d, p, rfl, hskip, _, hlt, hdrop, hchar⟩ := written_start s ws _ post pos depth 'f'
      [ 'a', 'l', 's', 'e'] hd (by rw [writeValue]; rfl) (by decide) hws hb
    rw [parseValue_dispatch s d pos p hskip hlt, hchar, if_neg (by decide),
      if_neg (by decide), if_neg (by decide), if_neg (by decide), if_pos (by decide)]
    exact parseKeyword_false s post p (by rw [hdrop, writeValue]; rfl)
  | .number _, _, _, _, _, _, _, _, _, _, hn, _, _ => by
    rw [JsonValue.numberFree] at hn
    cases hn
  | .string str, indent, s, ws, post, pos, depth, hd, hws, hb, _, ht, _ => by
    obtain ⟨d, p, rfl, hskip, _, hlt, hdrop, hchar⟩ := written_start s ws _ post pos depth '"'
      (str ++ [ '"']) hd (by rw [writeValue]; rfl) (by decide) hws hb
    rw [JsonValue.allText] at ht
    rw [parseValue_dispatch s d pos p hskip hlt, hchar, if_neg (by decide),
      if_neg (by decide), if_pos rfl]
    exact parseString_plain s str post p (by rw [hdrop, writeValue]; simp) ht
  | .array [], indent, s, ws, post, pos, depth, hd, hws, hb, _, _, _ => by
    obtain ⟨d, p, rfl, hskip, _, hlt, hdrop, hchar⟩ := written_start s ws _ post pos depth '['
      [ ']'] hd (writeValue_array_nil pretty indent) (by decide) hws hb
    rw [parseValue_dispatch s d pos p hskip hlt, hchar, if_neg (by decide), if_pos rfl]
    exact parseArray_empty _ s post p (by rw [hdrop, writeValue_array_nil]; rfl)
  | .array (v :: rest), indent, s, ws, post, pos, depth, hd, hws, hb, hn, ht, hm => by
    obtain ⟨d, p, rfl, hskip, hle, hlt, hdrop, hchar⟩ := written_start s ws _ post pos depth
      '[' _ hd (writeValue_array_cons pretty indent v rest) (by decide) hws hb
    rw [JsonValue.numberFree] at hn
    rw [JsonValue.allText] at ht
    rw [JsonValue.isMap] at hm
    have hn1 := hn
    rw [JsonValue.numberFreeElements, Bool.and_eq_true] at hn1
    obtain ⟨c, r, hc, hcs, hcb⟩ := writeValue_head pretty (indent + 2) v hn1.1
    have hdrop1 : s.drop (p + 1)
        = (if pretty = true then [ '\n'] else [])
          ++ (writeElements pretty (v :: rest) indent
            ++ ((if pretty = true then spaces indent else []) ++ ']' :: post)) := by
      apply drop_add_of_drop s [ '['] _ p
      rw [hdrop, writeValue_array_cons]
      simp only [List.append_assoc, List.cons_append, List.nil_append]
    have hdrop2 : s.drop (p + 1)
        = ((if pretty = true then [ '\n'] else [])
            ++ (if pretty = true then spaces (indent + 2) else []))
          ++ c :: (r ++ ((if rest.isEmpty = true then [] else [ ','])
              ++ ((if pretty = true then [ '\n'] else [])
                ++ writeElements pretty rest indent))
            ++ ((if pretty = true then spaces indent else []) ++ ']' :: post)) := by
      rw [hdrop1, writeElements_cons, hc]
      simp only [List.append_assoc, List.cons_append, List.nil_append]
    have hlen := length_of_drop s _ (p + 1) hdrop2
    have hrest := writeElements_length pretty indent rest hn1.2
    rw [parseValue_dispatch s d pos p hskip hlt, hchar, if_neg (by decide), if_pos rfl,
      parseArray_nonempty s _ _ d p c hdrop2
        (isspace_append _ _ (newline_isspace pretty) (indent_isspace pretty _)) hcs hcb]
    have := parseArrayLoop_written pretty (v :: rest) indent s _ _ post (p + 1) d
      (s.length + 1 - (p + 1 + ((if pretty = true then [ '\n'] else [])
            ++ (if pretty = true then spaces (indent + 2) else [])).length)) []
      (by simp) hdrop1 (newline_isspace pretty) (indent_isspace pretty _) (by omega)
      (by
        simp only [List.length_append, List.length_cons] at hlen ⊢
        omega) hn ht hm
    rw [this, List.nil_append]
  | .object [], indent, s, ws, post, pos, depth, hd, hws, hb, _, _, _ => by
    obtain ⟨d, p, rfl, hskip, _, hlt, hdrop, hchar⟩ := written_start s ws _ post pos depth '{'
      [ '}'] hd (writeValue_object_nil pretty indent) (by decide) hws hb
    rw [parseValue_dispatch s d pos p hskip hlt, hchar, if_pos rfl]
    exact parseObject_empty _ s post p (by rw [hdrop, writeValue_object_nil]; rfl)
  | .object ((key, v) :: rest), indent, s, ws, post, pos, depth, hd, hws, hb, hn, ht, hm => by
    obtain ⟨d, p, rfl, hskip, hle, hlt, hdrop, hchar⟩ := written_start s ws _ post pos depth
      '{' _ hd (writeValue_object_cons pretty indent (key, v) rest) (by decide) hws hb
    rw [JsonValue.numberFree] at hn
    rw [JsonValue.allText] at ht
    rw [JsonValue.isMap, Bool.and_eq_true] at hm
    have hdrop1 : s.drop (p + 1)
        = (if pretty = true then [ '\n'] else [])
          ++ (writeMembers pretty ((key, v) :: rest) indent
            ++ ((if pretty = true then spaces indent else []) ++ '}' :: post)) := by
      apply drop_add_of_drop s [ '{'] _ p
      rw [hdrop, writeValue_object_cons]
      simp only [List.append_assoc, List.cons_append, List.nil_append]
    have hdrop2 : s.drop (p + 1)
        = ((if pretty = true then [ '\n'] else [])
            ++ (if pretty = true then spaces (indent + 2) else []))
          ++ '"' :: (key ++ '"' :: ':' :: ((if pretty = true then [ ' '] else [])
            ++ (writeValue pretty v (indent + 2)
              ++ ((if rest.isEmpty = true then [] else [ ','])
                ++ ((if pretty = true then [ '\n'] else [])
                  ++ writeMembers pretty rest indent))))
            ++ ((if pretty = true then spaces indent else []) ++ '}' :: post)) := by
      rw [hdrop1, writeMembers_cons]
      simp only [List.append_assoc, List.cons_append, List.nil_append]
    have hlen := length_of_drop s _ (p + 1) hdrop2
    have hrest := writeMembers_length pretty indent rest
    rw [parseValue_dispatch s d pos p hskip hlt, hchar, if_pos rfl,
      parseObject_nonempty _ s _ _ p '"' hdrop2
        (isspace_append _ _ (newline_isspace pretty) (indent_isspace pretty _))
        (by decide) (by decide)]
    have := parseObjectLoop_written pretty ((key, v) :: rest) indent s _ _ post (p + 1) d
      (s.length + 1 - (p + 1 + ((if pretty = true then [ '\n'] else [])
            ++ (if pretty = true then spaces (indent + 2) else [])).length)) []
      (by simp) hdrop1 (newline_isspace pretty) (indent_isspace pretty _) (by omega)
      (by
        simp only [List.length_append, List.length_cons] at hlen ⊢
        omega) (by simpa using hm.1) hn ht hm.2
    rw [this, List.nil_append]
/-- Reading back the elements of a written array, from any element on. -/
theorem parseArrayLoop_written (pretty : Bool) : ∀ (arr : List JsonValue) (indent : Nat)
    (s ws closing post : List Char) (pos depth fuel : Nat) (acc : List JsonValue),
    arr ≠ [] →
    s.drop pos = ws ++ (writeElements pretty arr indent ++ (closing ++ ']' :: post)) →
    (∀ x ∈ ws, isspace x = true) → (∀ x ∈ closing, isspace x = true) →
    s.length + 1 ≤ depth + pos → arr.length ≤ fuel →
    JsonValue.numberFreeElements arr = true →
    JsonValue.allTextElements (fun c => c != '"' && c != '\\') arr = true →
    JsonValue.isMapElements arr = true →
    parseArrayLoop (parseValue s depth) s fuel pos acc
      = .ok (JsonValue.array (acc ++ arr), s.length - post.length)
  | [], _, _, _, _, _, _, _, _, _, hne, _, _, _, _, _, _, _, _ => absurd rfl hne
  | v :: rest, indent, s, ws, closing, post, pos, depth, fuel, acc, _, hd, hws, hcl, hb, hf,
      hn, ht, hm => by
    rw [JsonValue.numberFreeElements, Bool.and_eq_true] at hn
    rw [JsonValue.allTextElements, Bool.and_eq_true] at ht
    rw [JsonValue.isMapElements, Bool.and_eq_true] at hm
    obtain ⟨f, rfl⟩ : ∃ f, fuel = f + 1 := ⟨fuel - 1, by simp at hf; omega⟩
    obtain ⟨c, r, hc, hcs, _⟩ := writeValue_head pretty (indent + 2) v hn.1
    have hd1 : s.drop pos
        = (ws ++ (if pretty = true then spaces (indent + 2) else []))
          ++ (writeValue pretty v (indent + 2)
            ++ ((if rest.isEmpty = true then [] else [ ','])
              ++ ((if pretty = true then [ '\n'] else [])
                ++ (writeElements pretty rest indent ++ (closing ++ ']' :: post))))) := by
      rw [hd, writeElements_cons]
      simp only [List.append_assoc]
    generalize hp1 : ((if rest.isEmpty = true then [] else [ ','])
      ++ ((if pretty = true then [ '\n'] else [])
        ++ (writeElements pretty rest indent ++ (closing ++ ']' :: post)))) = post1 at hd1
    have hv := parseValue_written pretty v (indent + 2) s _ post1 pos depth hd1
      (isspace_append _ _ hws (indent_isspace pretty _)) hb hn.1 ht.1 hm.1
    have hend := end_of_drop s ((ws ++ (if pretty = true then spaces (indent + 2) else []))
        ++ writeValue pretty v (indent + 2)) post1 pos
      (by rw [hd1]; simp only [List.append_assoc]) (by rw [hc]; simp)
    cases rest with
    | nil =>
      obtain ⟨hclose, hpos⟩ := written_close s
        ((if pretty = true then [ '\n'] else []) ++ closing) post _ ']'
        (by rw [hend.2.2, ← hp1]; simp [writeElements])
        (isspace_append _ _ (newline_isspace pretty) hcl) (by decide)
      rw [parseArrayLoop_last _ s f pos _ acc v hend.2.1 hv hclose, hpos]
    | cons v2 rest2 =>
      obtain ⟨hskip, hcomma, hnext⟩ := written_comma s _ _
        (by
          rw [hend.2.2, ← hp1]
          simp only [List.isEmpty_cons, Bool.false_eq_true, if_false]
          rfl)
      rw [parseArrayLoop_more _ s f pos _ acc v hend.2.1 hv hskip hcomma,
        parseArrayLoop_written pretty (v2 :: rest2) indent s _ closing post _ depth f
          (acc ++ [v]) (by simp) hnext (newline_isspace pretty) hcl (by omega)
          (by simp at hf ⊢; omega) hn.2 ht.2 hm.2]
      simp
/-- Reading back the entries of a written object, from any entry on. -/
theorem parseObjectLoop_written (pretty : Bool) : ∀ (obj : List (List Char × JsonValue))
    (indent : Nat) (s ws closing post : List Char) (pos depth fuel : Nat)
    (acc : List (List Char × JsonValue)),
    obj ≠ [] →
    s.drop pos = ws ++ (writeMembers pretty obj indent ++ (closing ++ '}' :: post)) →
    (∀ x ∈ ws, isspace x = true) → (∀ x ∈ closing, isspace x = true) →
    s.length + 1 ≤ depth + pos → obj.length ≤ fuel →
    JsonValue.keysAscend (acc ++ obj) = true →
    JsonValue.numberFreeMembers obj = true →
    JsonValue.allTextMembers (fun c => c != '"' && c != '\\') obj = true →
    JsonValue.isMapMembers obj = true →
    parseObjectLoop (parseValue s depth) s fuel pos acc
      = .ok (JsonValue.object (acc ++ obj), s.length - post.length)
  | [], _, _, _, _, _, _, _, _, _, hne, _, _, _, _, _, _, _, _, _ => absurd rfl hne
  | (key, v) :: rest, indent, s, ws, closing, post, pos, depth, fuel, acc, _, hd, hws, hcl, hb,
      hf, hk, hn, ht, hm => by
    rw [JsonValue.numberFreeMembers, Bool.and_eq_true] at hn
    rw [JsonValue.allTextMembers, Bool.and_eq_true, Bool.and_eq_true] at ht
    rw [JsonValue.isMapMembers, Bool.and_eq_true] at hm
    obtain ⟨f, rfl⟩ : ∃ f, fuel = f + 1 := ⟨fuel - 1, by simp at hf; omega⟩
    have hd1 : s.drop pos
        = (ws ++ (if pretty = true then spaces (indent + 2) else []))
          ++ '"' :: (key ++ '"' :: (':' :: ((if pretty = true then [ ' '] else [])
            ++ (writeValue pretty v (indent + 2)
              ++ ((if rest.isEmpty = true then [] else [ ','])
                ++ ((if pretty = true then [ '\n'] else [])
                  ++ (writeMembers pretty rest indent ++ (closing ++ '}' :: post)))))))) := by
      rw [hd, writeMembers_cons]
      simp only [List.append_assoc, List.cons_append, List.nil_append]
    have hlt : pos < s.length := by
      by_contra hlt
      rw [List.drop_eq_nil_of_le (by omega)] at hd1
      simp at hd1
    have hskip0 := skipWhitespace_drop s _ _ pos '"' hd1
      (isspace_append _ _ hws (indent_isspace pretty _)) (by decide)
    generalize hp1 : ((if rest.isEmpty = true then [] else [ ','])
      ++ ((if pretty = true then [ '\n'] else [])
        ++ (writeMembers pretty rest indent ++ (closing ++ '}' :: post)))) = post1 at hd1
    generalize hpk : ':' :: ((if pretty = true then [ ' '] else [])
      ++ (writeValue pretty v (indent + 2) ++ post1)) = postk at hd1
    have hdq := drop_add_of_drop s _ _ pos hd1
    have hq := charAt_of_drop s _ _ '"' hdq
    have hkey := parseString_plain s key postk _ hdq ht.1.1
    have hendk := end_of_drop s ('"' :: (key ++ [ '"'])) postk _
      (by rw [hdq]; simp only [List.append_assoc, List.cons_append, List.nil_append])
      (by simp)
    have hdk : s.drop (s.length - postk.length)
        = ':' :: ((if pretty = true then [ ' '] else [])
          ++ (writeValue pretty v (indent + 2) ++ post1)) := by
      rw [hendk.2.2, hpk]
    have hcolon := charAt_of_drop s _ _ ':' hdk
    have hskip1 := skipWhitespace_stop s _ (by rw [hcolon]; rfl)
    have hdv : s.drop (s.length - postk.length + 1)
        = (if pretty = true then [ ' '] else [])
          ++ (writeValue pretty v (indent + 2) ++ post1) :=
      drop_add_of_drop s [ ':'] _ _ hdk
    have hskle := (skipWhitespace_bounds s pos).1
    have hv := parseValue_written pretty v (indent + 2) s _ post1 _ depth hdv
      (blank_isspace pretty) (by rw [hskip0] at hskle; omega) hn.1 ht.1.2 hm.1
    obtain ⟨c, r, hc, hcs, _⟩ := writeValue_head pretty (indent + 2) v hn.1
    have hend := end_of_drop s ((if pretty = true then [ ' '] else [])
        ++ writeValue pretty v (indent + 2)) post1 _
      (by rw [hdv]; simp only [List.append_assoc]) (by rw [hc]; simp)
    have hpair := keysAscend_pairwise _ hk
    have hset : mapSet key v acc = acc ++ [(key, v)] :=
      mapSet_of_lt key v acc (fun p hp =>
        (List.pairwise_append.1 hpair).2.2 p hp (key, v) (by simp))
    cases rest with
    | nil =>
      obtain ⟨hclose, hpos⟩ := written_close s
        ((if pretty = true then [ '\n'] else []) ++ closing) post _ '}'
        (by rw [hend.2.2, ← hp1]; simp [writeMembers])
        (isspace_append _ _ (newline_isspace pretty) hcl) (by decide)
      rw [parseObjectLoop_last _ s f pos _ _ _ acc key v hlt hskip0 hq hkey hskip1 hcolon hv
        hclose, hpos, hset]
    | cons m2 rest2 =>
      obtain ⟨hskip, hcomma, hnext⟩ := written_comma s _ _
        (by
          rw [hend.2.2, ← hp1]
          simp only [List.isEmpty_cons, Bool.false_eq_true, if_false]
          rfl)
      rw [parseObjectLoop_more _ s f pos _ _ _ acc key v hlt hskip0 hq hkey hskip1 hcolon hv
        hskip hcomma, hset,
        parseObjectLoop_written pretty (m2 :: rest2) indent s _ closing post _ depth f
          (acc ++ [(key, v)]) (by simp) hnext (newline_isspace pretty) hcl
          (by
            have h1 := hendk.1
            have h2 := hend.1
            rw [hskip0] at hskle
            simp only [List.length_append, List.length_cons] at h1 h2
            omega)
          (by simp at hf ⊢; omega) (by simpa using hk) hn.2 ht.2 hm.2]
      simp
end

end JsonParser

/-! ## The claims on texts, the order of timestamps, the object and the parser -/

namespace JsonParser

/-- C31: for a value whose string payloads and object keys hold no newline, space or tab,
the compact text `toString(v, false)` holds no newline, space or tab. -/
theorem toString_compact_no_whitespace (v : JsonValue)
    (h : v.allText (fun c => !isBlank c) = true) :
    (∀ c ∈ toString v false, isBlank c = false)
    ∧ '\n' ∉ toString v false ∧ ' ' ∉ toString v false ∧ '\t' ∉ toString v false := by
  have hall := writeValue_not_blank 0 v h
  exact ⟨hall, fun hc => absurd (hall _ hc) (by decide), fun hc => absurd (hall _ hc) (by decide),
    fun hc => absurd (hall _ hc) (by decide)⟩

/-- Witness of C31: an object with an array, a number, a boolean and null. -/
theorem toString_compact_no_whitespace_witness :
    '\n' ∉ toString (.object [([ 'a'], .array [.number ⟨-15, -1⟩, .boolean true, .null]),
        ([ 'b'], .string [ 'x'])]) false :=
  (toString_compact_no_whitespace
    (.object [([ 'a'], .array [.number ⟨-15, -1⟩, .boolean true, .null]),
      ([ 'b'], .string [ 'x'])]) rfl).2.1

end JsonParser

namespace LogAnalyzer

/-- C32: the text that `exportToCSV` sends to the file is the header line
`timestamp,ip,method,url,status` followed, for each record in sequence order, by the line
`timestamp,ip,method,"url",status`, only the URL between double quotes, each line ended by
a newline (nothing is written when the file cannot be opened); so the text has 1 + N
newlines when no timestamp, IP, method or URL holds a newline. -/
theorem exportToCSV_text (logs : List LogEntry) :
    exportToCSV true logs
        = (true, "timestamp,ip,method,url,status".toList ++ [ '\n']
            ++ logs.flatMap (fun log =>
                log.timestamp ++ [ ','] ++ log.ip ++ [ ','] ++ log.method ++ [ ',']
                  ++ [ '"'] ++ log.url ++ [ '"'] ++ [ ','] ++ formatInt log.status ++ [ '\n']))
    ∧ exportToCSV false logs = (false, [])
    ∧ ((∀ log ∈ logs, '\n' ∉ log.timestamp ∧ '\n' ∉ log.ip ∧ '\n' ∉ log.method
          ∧ '\n' ∉ log.url) →
        (exportToCSV true logs).2.count '\n' = 1 + logs.length) := by
  have htext : exportToCSV true logs
      = (true, "timestamp,ip,method,url,status".toList ++ [ '\n']
          ++ logs.flatMap (fun log =>
              log.timestamp ++ [ ','] ++ log.ip ++ [ ','] ++ log.method ++ [ ',']
                ++ [ '"'] ++ log.url ++ [ '"'] ++ [ ','] ++ formatInt log.status ++ [ '\n'])) := by
    have h := csv_fold (fun log =>
        log.timestamp ++ [ ','] ++ log.ip ++ [ ','] ++ log.method ++ [ ',']
          ++ [ '"'] ++ log.url ++ [ '"'] ++ [ ','] ++ formatInt log.status ++ [ '\n']) logs
      ("timestamp,ip,method,url,status".toList ++ [ '\n'])
    simp only [exportToCSV, Bool.not_true, Bool.false_eq_true, if_false]
    rw [← h]
    congr 1
    congr 1
    funext file log
    simp [List.append_assoc]
  refine ⟨htext, rfl, ?_⟩
  intro hfields
  rw [htext]
  simp only
  rw [List.count_append, count_newline_lines _ logs]
  · rfl
  · intro log hlog
    obtain ⟨h1, h2, h3, h4⟩ := hfields log hlog
    have h5 := formatInt_no_newline log.status
    simp only [List.count_append, List.count_eq_zero_of_not_mem h1,
      List.count_eq_zero_of_not_mem h2, List.count_eq_zero_of_not_mem h3,
      List.count_eq_zero_of_not_mem h4, List.count_eq_zero_of_not_mem h5]
    rfl

end LogAnalyzer

namespace LogEntry

/-- C33: for two strings that pass `validateTimestamp`, the comparison `a < b` of strings,
the one used by `isInTimeRange`, `getTimeRange` and `TimeUtils::isEarlier`, holds exactly
when the numbers (year, month, day, hour, minute, second) written in `a` come before
those written in `b` in the lexicographic order of tuples; `isLater` is the converse, and
`a == b` exactly when the numbers are the same. -/
theorem timestamp_order_chronological (a b : List Char) :
    validateTimestamp a = true → validateTimestamp b = true →
      (strLt a b = true ↔ List.Lex (· < ·) (timestampFields a) (timestampFields b))
      ∧ (TimeUtils.isEarlier a b = true
          ↔ List.Lex (· < ·) (timestampFields a) (timestampFields b))
      ∧ (TimeUtils.isLater a b = true
          ↔ List.Lex (· < ·) (timestampFields b) (timestampFields a))
      ∧ (a = b ↔ timestampFields a = timestampFields b) := by
  intro ha hb
  have key : ∀ a b : List Char, validateTimestamp a = true → validateTimestamp b = true →
      (strLt a b = true ↔ List.Lex (· < ·) (timestampFields a) (timestampFields b))
      ∧ (a = b ↔ timestampFields a = timestampFields b) := by
    intro a b ha hb
    obtain ⟨y0, y1, y2, y3, m0, m1, d0, d1, h0, h1, n0, n1, s0, s1, rfl, py0, py1, py2, py3,
      pm0, pm1, pd0, pd1, ph0, ph1, pn0, pn1, ps0, ps1⟩ := validateTimestamp_shape a ha
    obtain ⟨z0, z1, z2, z3, k0, k1, e0, e1, g0, g1, j0, j1, r0, r1, rfl, qz0, qz1, qz2, qz3,
      qk0, qk1, qe0, qe1, qg0, qg1, qj0, qj1, qr0, qr1⟩ := validateTimestamp_shape b hb
    have hfa : timestampFields [y0, y1, y2, y3, '-', m0, m1, '-', d0, d1, 'T', h0, h1, ':',
        n0, n1, ':', s0, s1, 'Z']
        = [natOfDigits [y0, y1, y2, y3], natOfDigits [m0, m1], natOfDigits [d0, d1],
           natOfDigits [h0, h1], natOfDigits [n0, n1], natOfDigits [s0, s1]] := rfl
    have hfb : timestampFields [z0, z1, z2, z3, '-', k0, k1, '-', e0, e1, 'T', g0, g1, ':',
        j0, j1, ':', r0, r1, 'Z']
        = [natOfDigits [z0, z1, z2, z3], natOfDigits [k0, k1], natOfDigits [e0, e1],
           natOfDigits [g0, g1], natOfDigits [j0, j1], natOfDigits [r0, r1]] := rfl
    constructor
    · rw [hfa, hfb]
      rw [(strLt_four_digits y0 y1 y2 y3 z0 z1 z2 z3 _ _ py0 py1 py2 py3 qz0 qz1 qz2 qz3).1,
        strLt_literal, (strLt_two_digits m0 m1 k0 k1 _ _ pm0 pm1 qk0 qk1).1,
        strLt_literal, (strLt_two_digits d0 d1 e0 e1 _ _ pd0 pd1 qe0 qe1).1,
        strLt_literal, (strLt_two_digits h0 h1 g0 g1 _ _ ph0 ph1 qg0 qg1).1,
        strLt_literal, (strLt_two_digits n0 n1 j0 j1 _ _ pn0 pn1 qj0 qj1).1,
        strLt_literal, (strLt_two_digits s0 s1 r0 r1 _ _ ps0 ps1 qr0 qr1).1,
        lex_cons_iff, lex_cons_iff, lex_cons_iff, lex_cons_iff, lex_cons_iff, lex_cons_iff]
      have hz : strLt [ 'Z'] [ 'Z'] = true ↔ List.Lex (· < ·) ([] : List Nat) [] := by
        constructor
        · intro h
          exact absurd h (by decide)
        · intro h
          cases h
      rw [hz]
    · constructor
      · intro h
        rw [h]
      · intro h
        rw [hfa, hfb] at h
        simp only [List.cons.injEq, and_true] at h
        obtain ⟨u1, u2, u3, u4, u5, u6⟩ := h
        obtain ⟨rfl, rfl, rfl, rfl⟩ :=
          (strLt_four_digits y0 y1 y2 y3 z0 z1 z2 z3 [] [] py0 py1 py2 py3 qz0 qz1 qz2 qz3).2 u1
        obtain ⟨rfl, rfl⟩ := (strLt_two_digits m0 m1 k0 k1 [] [] pm0 pm1 qk0 qk1).2 u2
        obtain ⟨rfl, rfl⟩ := (strLt_two_digits d0 d1 e0 e1 [] [] pd0 pd1 qe0 qe1).2 u3
        obtain ⟨rfl, rfl⟩ := (strLt_two_digits h0 h1 g0 g1 [] [] ph0 ph1 qg0 qg1).2 u4
        obtain ⟨rfl, rfl⟩ := (strLt_two_digits n0 n1 j0 j1 [] [] pn0 pn1 qj0 qj1).2 u5
        obtain ⟨rfl, rfl⟩ := (strLt_two_digits s0 s1 r0 r1 [] [] ps0 ps1 qr0 qr1).2 u6
        rfl
  exact ⟨(key a b ha hb).1, (key a b ha hb).1, (key b a hb ha).1, (key a b ha hb).2⟩

/-- Witness of C33: two valid timestamps of the same day, one hour apart. -/
theorem timestamp_order_chronological_witness :
    strLt "2025-03-14T09:59:59Z".toList "2025-03-14T10:00:00Z".toList = true
      ↔ List.Lex (· < ·) (timestampFields "2025-03-14T09:59:59Z".toList)
          (timestampFields "2025-03-14T10:00:00Z".toList) :=
  (timestamp_order_chronological "2025-03-14T09:59:59Z".toList "2025-03-14T10:00:00Z".toList
    (by decide) (by decide)).1

end LogEntry

namespace LogAnalyzer

/-- C34: right after `addLog(e1)` and `getTopIPs(10)` on a new object the IP index is the
index of the records. After a further `addLog(e2)` the indexes are still marked as built,
the records are `e1` and `e2`, and each index holds position 0 alone: the key and the
position of `e2` are missing. After `addLog(e1)`, `getTopIPs(10)` and `clear()` the indexes
are marked as built and still hold position 0 of a sequence that is empty. Neither index
is the index of the records; the constructor and `loadFromJson` do mark the indexes as not
built. -/
theorem stale_index_after_addLog :
    isIndexOf LogEntry.ip [⟨[ 't'], [ 'a'], [ 'G'], [ 'u'], 200⟩]
        (State.run id State.init
          [.addLog ⟨[ 't'], [ 'a'], [ 'G'], [ 'u'], 200⟩, .getTopIPs 10]).ipIndex
    ∧ State.run id State.init
        [.addLog ⟨[ 't'], [ 'a'], [ 'G'], [ 'u'], 200⟩, .getTopIPs 10,
         .addLog ⟨[ 's'], [ 'b'], [ 'G'], [ 'v'], 200⟩]
      = ⟨[⟨[ 't'], [ 'a'], [ 'G'], [ 'u'], 200⟩, ⟨[ 's'], [ 'b'], [ 'G'], [ 'v'], 200⟩],
          [([ 'a'], [0])], [([ 'u'], [0])], [([ 't'], [0])], true⟩
    ∧ ¬ isIndexOf LogEntry.ip
        [⟨[ 't'], [ 'a'], [ 'G'], [ 'u'], 200⟩, ⟨[ 's'], [ 'b'], [ 'G'], [ 'v'], 200⟩]
        [([ 'a'], [0])]
    ∧ State.run id State.init
        [.addLog ⟨[ 't'], [ 'a'], [ 'G'], [ 'u'], 200⟩, .getTopIPs 10, .clear]
      = ⟨[], [([ 'a'], [0])], [([ 'u'], [0])], [([ 't'], [0])], true⟩
    ∧ ¬ isIndexOf LogEntry.ip [] [([ 'a'], [0])]
    ∧ (∀ logs : List LogEntry, (State.ofLogs logs).indexesBuilt = false)
    ∧ (∀ (st : State) (json : JsonValue) (entries : List LogEntry),
        json.asLogEntries = .ok entries → (st.loadFromJson json).2.indexesBuilt = false) := by
  refine ⟨?_, by decide, ?_, by decide, ?_, fun _ => rfl, ?_⟩
  · intro key positions
    have hrun : (State.run id State.init
        [.addLog ⟨[ 't'], [ 'a'], [ 'G'], [ 'u'], 200⟩, .getTopIPs 10]).ipIndex
        = [([ 'a'], [0])] := by decide
    rw [hrun]
    constructor
    · intro h
      obtain ⟨rfl, rfl⟩ := Prod.mk.inj (List.mem_singleton.1 h)
      exact ⟨by decide, by decide⟩
    · rintro ⟨hkey, rfl⟩
      obtain rfl : key = [ 'a'] := by simpa using hkey
      decide
  · intro h
    have := (h [ 'b'] [1]).2 ⟨by decide, by decide⟩
    exact absurd this (by decide)
  · intro h
    have := (h [ 'a'] [0]).1 (by decide)
    exact absurd this.1 (by decide)
  · intro st json entries h
    simp [State.loadFromJson, h]

end LogAnalyzer

namespace JsonParser

/-- C35: when `parse` fails with a `JsonParseException`, the position it carries is at
most the length of the text; and from a cursor inside the text, with the nesting budget
that `parse` gives, `parseValue` leaves the cursor inside the text when it returns and
throws only positions inside the text. -/
theorem parse_error_position_in_text (s : List Char) :
    (∀ e, parse s = .error (Exn.jsonParse e) → e.position ≤ s.length)
    ∧ (∀ depth pos v next, pos ≤ s.length → s.length + 1 ≤ depth + pos →
        parseValue s depth pos = .ok (v, next) → next ≤ s.length)
    ∧ (∀ depth pos e, pos ≤ s.length → s.length + 1 ≤ depth + pos →
        parseValue s depth pos = .error (Exn.jsonParse e) → e.position ≤ s.length)
    ∧ (∀ pos, pos ≤ s.length → skipWhitespace s pos ≤ s.length) := by
  refine ⟨?_, ?_, ?_, fun pos h => (skipWhitespace_bounds s pos).2 h⟩
  · intro e he
    rcases parse_outcome s with ⟨v, hv⟩ | ⟨e2, he2, hpos⟩
    · rw [hv] at he
      cases he
    · rw [he2] at he
      cases he
      exact hpos
  · intro depth pos v next hle hb h
    have := parseValue_inBounds s depth pos hle hb
    rw [h, inBounds_ok] at this
    exact this.2
  · intro depth pos e hle hb h
    have := parseValue_inBounds s depth pos hle hb
    rw [h] at this
    simpa [inBounds] using this

/-- C36: the compact text `toString(v, false)` is never longer than the pretty text
`toString(v, true)`; it is shorter when `v` is an array or an object that is not empty, and
the two texts are the same when `v` is not a container or is an empty one. -/
theorem toString_pretty_not_shorter (v : JsonValue) :
    (toString v false).length ≤ (toString v true).length
    ∧ ((v.isArray = true ∨ v.isObject = true) ∧ v.empty = false →
        (toString v false).length < (toString v true).length)
    ∧ (¬ ((v.isArray = true ∨ v.isObject = true) ∧ v.empty = false) →
        toString v true = toString v false) := by
  refine ⟨writeValue_length_le 0 v, ?_, ?_⟩
  · rintro ⟨hkind, hne⟩
    cases v with
    | array arr =>
      have := writeElements_length_le 0 arr
      cases arr with
      | nil => simp [JsonValue.empty, JsonValue.size] at hne
      | cons a rest =>
        simp only [toString, writeValue]
        simp
        omega
    | object obj =>
      have := writeMembers_length_le 0 obj
      cases obj with
      | nil => simp [JsonValue.empty, JsonValue.size] at hne
      | cons a rest =>
        simp only [toString, writeValue]
        simp
        omega
    | _ => simp [JsonValue.isArray, JsonValue.isObject] at hkind
  · intro hnot
    cases v with
    | array arr =>
      cases arr with
      | nil => simp [toString, writeValue, writeElements]
      | cons a rest =>
        exact absurd ⟨Or.inl rfl, by simp [JsonValue.empty, JsonValue.size]⟩ hnot
    | object obj =>
      cases obj with
      | nil => simp [toString, writeValue, writeMembers]
      | cons a rest =>
        exact absurd ⟨Or.inr rfl, by simp [JsonValue.empty, JsonValue.size]⟩ hnot
    | _ => simp [toString, writeValue]

/-- C37: for a value without numbers whose string payloads and object keys hold neither
`"` nor a backslash, and whose objects have ascending keys (as every `std::map` has),
parsing the text `toString(v, pretty)` returns `v`, for both settings of `pretty`. -/
theorem parse_toString_round_trip (v : JsonValue) (pretty : Bool)
    (hn : v.numberFree = true) (ht : v.allText (fun c => c != '"' && c != '\\') = true)
    (hm : v.isMap = true) : parse (toString v pretty) = .ok v := by
  have h := parseValue_written pretty v 0 (toString v pretty) [] [] 0
    ((toString v pretty).length + 1) (by simp [toString]) (by simp) (by omega) hn ht hm
  exact parse_of_parseValue_ok _ v (by simpa using h)

/-- Witness of C37: an object with a nested array and an empty object, written pretty. -/
theorem parse_toString_round_trip_witness :
    parse (toString (.object [([ 'a'], .array [.null, .boolean true, .string [ 'x', ' ']]),
        ([ 'b'], .object [])]) true)
      = .ok (.object [([ 'a'], .array [.null, .boolean true, .string [ 'x', ' ']]),
        ([ 'b'], .object [])]) :=
  parse_toString_round_trip _ true rfl rfl rfl

/-- C38: `parse` returns a value or throws a `JsonParseException`, never anything else:
the budgets of the embedding do not run out, because with the budget that `parse` gives,
`parseValue` started inside the text returns with the cursor moved forward or throws a
`JsonParseException`. So `isValid` returns true with an empty message exactly when `parse`
returns a value, and false with a message that is not empty otherwise. -/
theorem parse_total (s : List Char) :
    ((∃ v, parse s = .ok v) ∨ (∃ e, parse s = .error (Exn.jsonParse e)))
    ∧ (∀ depth pos, pos ≤ s.length → s.length + 1 ≤ depth + pos →
        (∃ v next, parseValue s depth pos = .ok (v, next) ∧ pos < next)
          ∨ (∃ e, parseValue s depth pos = .error (Exn.jsonParse e)))
    ∧ (isValid s = .ok (true, "") ↔ ∃ v, parse s = .ok v)
    ∧ ((¬ ∃ v, parse s = .ok v) → ∃ msg, isValid s = .ok (false, msg) ∧ msg ≠ "") := by
  have hout : (∃ v, parse s = .ok v) ∨ (∃ e, parse s = .error (Exn.jsonParse e)) := by
    rcases parse_outcome s with h | ⟨e, he, _⟩
    · exact Or.inl h
    · exact Or.inr ⟨e, he⟩
  refine ⟨hout, ?_, ?_, ?_⟩
  · intro depth pos hle hb
    have := parseValue_inBounds s depth pos hle hb
    cases hr : parseValue s depth pos with
    | ok r =>
      obtain ⟨v, next⟩ := r
      rw [hr, inBounds_ok] at this
      exact Or.inl ⟨v, next, rfl, by omega⟩
    | error e =>
      rw [hr] at this
      cases e with
      | jsonParse e => exact Or.inr ⟨e, rfl⟩
      | _ => simp [inBounds] at this
  · rcases hout with ⟨v, hv⟩ | ⟨e, he⟩
    · simp [isValid, hv]
    · simp [isValid, he]
  · intro hnot
    rcases hout with h | ⟨e, he⟩
    · exact absurd h hnot
    · refine ⟨e.message ++ " (позиция: " ++ Nat.repr e.position ++ ")",
        by simp only [isValid, he], ?_⟩
      intro hmsg
      have := congrArg String.length hmsg
      simp only [String.length_append] at this
      have h11 : " (позиция: ".length = 11 := by decide
      rw [h11] at this
      simp at this

end JsonParser

namespace LogAnalyzer

/-- C39: `loadFromJson(j)` returns true exactly when `j` is an Array; then the records
become `j.asLogEntries()`, the indexes are marked as not built and the index maps stay as
they were; when `j` is not an Array it returns false and leaves the object unchanged. -/
theorem loadFromJson_atomic (st : State) (j : JsonValue) :
    ((st.loadFromJson j).1 = true ↔ j.isArray = true)
    ∧ (j.isArray = true →
        j.asLogEntries = .ok (st.loadFromJson j).2.logs
        ∧ (st.loadFromJson j).2.indexesBuilt = false
        ∧ (st.loadFromJson j).2.ipIndex = st.ipIndex
        ∧ (st.loadFromJson j).2.urlIndex = st.urlIndex
        ∧ (st.loadFromJson j).2.timeIndex = st.timeIndex)
    ∧ (j.isArray = false → st.loadFromJson j = (false, st)) := by
  cases j <;> simp [State.loadFromJson, JsonValue.asLogEntries, JsonValue.isArray]

/-- C40: with `(lo, hi) = getTimeRange()`, `filterByTimeRange(lo, hi)` returns the whole
record sequence, whatever the timestamps are. -/
theorem filterByTimeRange_of_getTimeRange (logs : List LogEntry) :
    filterByTimeRange logs (getTimeRange logs).1 (getTimeRange logs).2 = logs := by
  rw [filterByTimeRange, copyIf_eq_filter, List.filter_eq_self]
  intro e he
  match logs, he with
  | first :: rest, he =>
    obtain ⟨_, _, _, _, h5⟩ := timeRange_fold (first :: rest) first.timestamp first.timestamp
    obtain ⟨hlo, hhi⟩ := h5 e.timestamp (List.mem_map.2 ⟨e, he, rfl⟩)
    simp only [getTimeRange, isInTimeRange]
    split_ifs
    · rfl
    · exact hhi
    · exact hlo
    · rw [Bool.and_eq_true]
      exact ⟨hlo, hhi⟩

end LogAnalyzer

/-! ## Lemmas on the literals that the parser reads -/

namespace JsonParser

theorem parseValue_progress (s : List Char) (depth pos next : Nat) (v : JsonValue)
    (hle : pos ≤ s.length) (hd : s.length + 1 ≤ depth + pos)
    (h : parseValue s depth pos = .ok (v, next)) : pos + 1 ≤ next ∧ next ≤ s.length := by
  have hb := parseValue_inBounds s depth pos hle hd
  rw [h, inBounds_ok] at hb
  exact hb

theorem parseString_progress (s : List Char) (pos next : Nat) (v : JsonValue)
    (hlt : pos < s.length)
    (h : parseString s pos = .ok (v, next)) : pos + 1 ≤ next ∧ next ≤ s.length := by
  have hb := parseString_inBounds s pos hlt
  rw [h, inBounds_ok] at hb
  exact hb

theorem readsLiteral_error (s : List Char) (e : Exn) :
    ∀ (place : Place) (depth pos q : Nat), ReadsLiteral s place depth pos q →
      parseString s q = .error e → pos ≤ s.length → s.length + 1 ≤ depth + pos →
      (place = Place.value → parseValue s depth pos = .error e)
        ∧ (place = Place.elements → ∀ (fuel : Nat) (arr : List JsonValue),
            s.length + 1 - pos ≤ fuel →
            parseArrayLoop (parseValue s depth) s fuel pos arr = .error e)
        ∧ (place = Place.entries → ∀ (fuel : Nat) (obj : List (List Char × JsonValue)),
            s.length + 1 - pos ≤ fuel →
            parseObjectLoop (parseValue s depth) s fuel pos obj = .error e) := by
  intro place depth pos q h
  induction h with
  | string depth pos hlt hq =>
    intro he _ _
    refine ⟨fun _ => ?_, (fun h => by cases h), (fun h => by cases h)⟩
    rw [parseValue_dispatch s depth pos _ rfl hlt, hq, if_neg (by decide), if_neg (by decide),
      if_pos rfl, he]
  | inArray depth pos q hopen hne _ ih =>
    intro he hle hd
    refine ⟨fun _ => ?_, (fun h => by cases h), (fun h => by cases h)⟩
    have hlt : skipWhitespace s pos < s.length :=
      lt_length_of_charAt s _ _ hopen (by decide)
    have hp := skipWhitespace_bounds s pos
    have hp1 := skipWhitespace_bounds s (skipWhitespace s pos + 1)
    rw [parseValue_dispatch s depth pos _ rfl hlt, hopen, if_neg (by decide), if_pos rfl,
      parseArray]
    rw [if_neg hne]
    exact (ih he (hp1.2 (by omega)) (by omega)).2.1 rfl _ _ (le_refl _)
  | inObject depth pos q hopen hne _ ih =>
    intro he hle hd
    refine ⟨fun _ => ?_, (fun h => by cases h), (fun h => by cases h)⟩
    have hlt : skipWhitespace s pos < s.length :=
      lt_length_of_charAt s _ _ hopen (by decide)
    have hp := skipWhitespace_bounds s pos
    have hp1 := skipWhitespace_bounds s (skipWhitespace s pos + 1)
    rw [parseValue_dispatch s depth pos _ rfl hlt, hopen, if_pos rfl, parseObject]
    rw [if_neg hne]
    exact (ih he (hp1.2 (by omega)) (by omega)).2.2 rfl _ _ (le_refl _)
  | element depth pos q hlt _ ih =>
    intro he hle hd
    refine ⟨(fun h => by cases h), fun _ fuel arr hf => ?_, (fun h => by cases h)⟩
    obtain ⟨f, rfl⟩ : ∃ f, fuel = f + 1 := ⟨fuel - 1, by omega⟩
    rw [parseArrayLoop, if_pos hlt, (ih he hle hd).1 rfl]
  | nextElement depth pos next q v hlt hv hcomma _ ih =>
    intro he hle hd
    refine ⟨(fun h => by cases h), fun _ fuel arr hf => ?_, (fun h => by cases h)⟩
    obtain ⟨f, rfl⟩ : ∃ f, fuel = f + 1 := ⟨fuel - 1, by omega⟩
    have hn := parseValue_progress s depth pos next v hle hd hv
    have hs := skipWhitespace_bounds s next
    have hc : skipWhitespace s next < s.length := lt_length_of_charAt s _ _ hcomma (by decide)
    rw [parseArrayLoop, if_pos hlt, hv]
    simp only [hcomma]
    rw [if_pos trivial]
    exact (ih he (by omega) (by omega)).2.1 rfl _ _ (by omega)
  | key depth pos hlt hq =>
    intro he hle hd
    refine ⟨(fun h => by cases h), (fun h => by cases h), fun _ fuel obj hf => ?_⟩
    obtain ⟨f, rfl⟩ : ∃ f, fuel = f + 1 := ⟨fuel - 1, by omega⟩
    rw [parseObjectLoop, if_pos hlt]
    simp only [hq, ne_eq, not_true_eq_false, if_false, he]
  | entryValue depth pos colon q key hlt hq hkey hcolon _ ih =>
    intro he hle hd
    refine ⟨(fun h => by cases h), (fun h => by cases h), fun _ fuel obj hf => ?_⟩
    obtain ⟨f, rfl⟩ : ∃ f, fuel = f + 1 := ⟨fuel - 1, by omega⟩
    obtain ⟨str, rfl⟩ := parseString_is_string s _ _ _ hkey
    have hk : skipWhitespace s pos < s.length := lt_length_of_charAt s _ _ hq (by decide)
    have hp := skipWhitespace_bounds s pos
    have hn := parseString_progress s _ colon _ hk hkey
    have hs := skipWhitespace_bounds s colon
    have hc : skipWhitespace s colon < s.length :=
      lt_length_of_charAt s _ _ hcolon (by decide)
    rw [parseObjectLoop, if_pos hlt]
    simp only [hq, ne_eq, not_true_eq_false, if_false, hkey, JsonValue.asString, hcolon,
      (ih he (by omega) (by omega)).1 rfl]
  | nextEntry depth pos colon next q key v hlt hq hkey hcolon hv hcomma _ ih =>
    intro he hle hd
    refine ⟨(fun h => by cases h), (fun h => by cases h), fun _ fuel obj hf => ?_⟩
    obtain ⟨f, rfl⟩ : ∃ f, fuel = f + 1 := ⟨fuel - 1, by omega⟩
    obtain ⟨str, rfl⟩ := parseString_is_string s _ _ _ hkey
    have hk : skipWhitespace s pos < s.length := lt_length_of_charAt s _ _ hq (by decide)
    have hp := skipWhitespace_bounds s pos
    have hn := parseString_progress s _ colon _ hk hkey
    have hs := skipWhitespace_bounds s colon
    have hc : skipWhitespace s colon < s.length :=
      lt_length_of_charAt s _ _ hcolon (by decide)
    have hn2 := parseValue_progress s depth _ next v (by omega) (by omega) hv
    have hs2 := skipWhitespace_bounds s next
    have hc2 : skipWhitespace s next < s.length :=
      lt_length_of_charAt s _ _ hcomma (by decide)
    rw [parseObjectLoop, if_pos hlt]
    simp only [hq, ne_eq, not_true_eq_false, if_false, hkey, JsonValue.asString, hcolon, hv,
      hcomma, if_true]
    rw [if_neg (by decide)]
    exact (ih he (by omega) (by omega)).2.2 rfl _ _ (by omega)

/-- Every text after an opening quote is a run of items the scan steps over, followed by
the closing quote or by one of the four ways in which a literal is malformed. -/
theorem literal_body_cases : ∀ (n : Nat) (body : List Char), body.length ≤ n →
    ∃ items : List StringItem, (∀ item ∈ items, item.scanned = true)
      ∧ ((∃ post, body = bodyText items ++ '"' :: post)
        ∨ (∃ tail, body = bodyText items ++ tail
            ∧ (tail = [] ∨ tail = [ '\\']
              ∨ (∃ rest, tail = '\\' :: 'u' :: rest ∧ rest.length < 4)
              ∨ (∃ c rest, tail = '\\' :: c :: rest ∧ escapeValue c = none ∧ c ≠ 'u'))))
  | 0, body, hn => by
    have : body = [] := List.length_eq_zero.mp (by omega)
    subst this
    exact ⟨[], by simp, Or.inr ⟨[], rfl, Or.inl rfl⟩⟩
  | n + 1, [], _ => ⟨[], by simp, Or.inr ⟨[], rfl, Or.inl rfl⟩⟩
  | n + 1, x :: rest, hn => by
    have step : ∀ (item : StringItem) (tl : List Char), item.scanned = true →
        x :: rest = item.text ++ tl → tl.length ≤ n →
        ∃ items : List StringItem, (∀ item ∈ items, item.scanned = true)
          ∧ ((∃ post, x :: rest = bodyText items ++ '"' :: post)
            ∨ (∃ tail, x :: rest = bodyText items ++ tail
                ∧ (tail = [] ∨ tail = [ '\\']
                  ∨ (∃ rest, tail = '\\' :: 'u' :: rest ∧ rest.length < 4)
                  ∨ (∃ c rest, tail = '\\' :: c :: rest ∧ escapeValue c = none
                      ∧ c ≠ 'u')))) := by
      intro item tl hi htl hlen
      obtain ⟨items, hs, hc⟩ := literal_body_cases n tl hlen
      refine ⟨item :: items, ?_, ?_⟩
      · intro it hit
        rcases List.mem_cons.mp hit with h | h
        · rw [h]; exact hi
        · exact hs it h
      · rcases hc with ⟨post, hp⟩ | ⟨tail, hp, ht⟩
        · exact Or.inl ⟨post, by rw [htl, hp, bodyText, List.append_assoc]⟩
        · exact Or.inr ⟨tail, by rw [htl, hp, bodyText, List.append_assoc], ht⟩
    simp only [List.length_cons] at hn
    by_cases hq : x = '"'
    · exact ⟨[], by simp, Or.inl ⟨rest, by rw [hq]; rfl⟩⟩
    by_cases hb : x = '\\'
    · subst hb
      cases rest with
      | nil => exact ⟨[], by simp, Or.inr ⟨[ '\\'], rfl, Or.inr (Or.inl rfl)⟩⟩
      | cons c rest =>
        simp only [List.length_cons] at hn
        by_cases hu : c = 'u'
        · subst hu
          by_cases h4 : rest.length < 4
          · exact ⟨[], by simp, Or.inr ⟨_, rfl, Or.inr (Or.inr (Or.inl ⟨rest, rfl, h4⟩))⟩⟩
          · match rest, h4, hn with
            | a :: b :: c :: d :: tl, _, hn =>
              simp only [List.length_cons] at hn
              exact step (StringItem.unicode a b c d) tl rfl rfl (by omega)
            | [], h4, _ => simp at h4
            | [_], h4, _ => simp at h4
            | [_, _], h4, _ => simp at h4
            | [_, _, _], h4, _ => simp at h4
        · cases he : escapeValue c with
          | none =>
            exact ⟨[], by simp,
              Or.inr ⟨_, rfl, Or.inr (Or.inr (Or.inr ⟨c, rest, rfl, he, hu⟩))⟩⟩
          | some v =>
            exact step (StringItem.escape c) rest (by simp [StringItem.scanned, he]) rfl
              (by omega)
    · exact step (StringItem.ordinary x) rest (by simp [StringItem.scanned, hq, hb]) rfl
        (by omega)

/-! ## The claim on malformed string literals -/

/-- C7 (counterexample): a literal that holds a backslash followed by `x` is accepted. In
the text `"\u12\x34"` the escape `\u` takes the four characters `1`, `2`, backslash and
`x` with it, unread; the scan goes on at `3`, and the text parses to the string `?34`. -/
theorem parse_backslash_after_unicode_accepted :
    escapeValue 'x' = none ∧ 'x' ≠ 'u'
      ∧ parse [ '"', '\\', 'u', '1', '2', '\\', 'x', '3', '4', '"']
          = .ok (JsonValue.string [ '?', '3', '4']) :=
  ⟨rfl, by decide, rfl⟩

/-- C7 (amended): a malformed string literal is rejected with a `JsonParseException`. Let a
literal start at `pos` with a body that the scan of `parseString` steps over (ordinary
characters, the eight two-character escapes, `\u` together with the four characters after
it, whatever they are). If the text then ends without a closing quote (right there, after
a lone backslash, or less than four characters after `\u`), or goes on with a backslash
followed by a character that is none of `"`, backslash, `/`, `b`, `f`, `n`, `r`, `t`, `u`,
then `parseString` fails at `pos`, and `parse` fails on every text in which the parser
reads this literal, as a value or as the key of an object entry, at any depth of nesting;
in particular when only whitespace stands before the literal. -/
theorem parse_malformed_string_rejected (items : List StringItem)
    (h : ∀ item ∈ items, item.scanned = true) (s tail : List Char) (pos : Nat)
    (hd : s.drop pos = '"' :: (bodyText items ++ tail))
    (ht : tail = [] ∨ tail = [ '\\']
      ∨ (∃ rest, tail = '\\' :: 'u' :: rest ∧ rest.length < 4)
      ∨ (∃ c rest, tail = '\\' :: c :: rest ∧ escapeValue c = none ∧ c ≠ 'u')) :
    (∃ e, parseString s pos = .error (Exn.jsonParse e))
      ∧ (ReadsLiteral s Place.value (s.length + 1) 0 pos →
          ∃ e, parse s = .error (Exn.jsonParse e))
      ∧ (skipWhitespace s 0 = pos → ∃ e, parse s = .error (Exn.jsonParse e)) := by
  have hfail : ∃ e, parseString s pos = .error (Exn.jsonParse e) := by
    rcases ht with rfl | rfl | ⟨rest, rfl, hr⟩ | ⟨c, rest, rfl, hn, hu⟩
    · exact ⟨_, parseString_unclosed items s pos hd h⟩
    · exact ⟨_, parseString_backslash_end items s pos hd h⟩
    · exact ⟨_, parseString_unicode_short items s rest pos hd h hr⟩
    · exact ⟨_, parseString_unknown_escape items s rest pos c hd h hn hu⟩
  obtain ⟨e, he⟩ := hfail
  have hreads : ReadsLiteral s Place.value (s.length + 1) 0 pos →
      ∃ e, parse s = .error (Exn.jsonParse e) := fun hr =>
    ⟨e, parse_of_parseValue_error s _
      ((readsLiteral_error s _ _ _ _ _ hr he (Nat.zero_le _) (by omega)).1 rfl)⟩
  refine ⟨⟨e, he⟩, hreads, ?_⟩
  intro hskip
  apply hreads
  rw [← hskip]
  exact ReadsLiteral.string s.length 0 (by rw [hskip]; exact lt_length_of_drop s _ pos _ hd)
    (by rw [hskip]; exact charAt_of_drop s _ pos _ hd)

theorem parse_malformed_string_rejected_witness :
    (∀ item ∈ [StringItem.ordinary 'a'], item.scanned = true)
      ∧ ReadsLiteral ("[1, \x7b\"k\": \"a\\x\"\x7d]").toList Place.value
          (("[1, \x7b\"k\": \"a\\x\"\x7d]").toList.length + 1) 0 10
      ∧ (∃ e, parse ("[1, \x7b\"k\": \"a\\x\"\x7d]").toList = .error (Exn.jsonParse e))
      ∧ (∃ e, parse [ ' ', '"', 'a', '\\', 't'] = .error (Exn.jsonParse e)) :=
  have hr : ReadsLiteral ("[1, \x7b\"k\": \"a\\x\"\x7d]").toList Place.value
      (("[1, \x7b\"k\": \"a\\x\"\x7d]").toList.length + 1) 0 10 :=
    ReadsLiteral.inArray 17 0 10 rfl (by decide)
      (ReadsLiteral.nextElement 17 1 2 10 (JsonValue.number ⟨1, 0⟩) (by decide) rfl rfl
        (ReadsLiteral.element 17 3 10 (by decide)
          (ReadsLiteral.inObject 16 3 10 rfl (by decide)
            (ReadsLiteral.entryValue 16 5 8 10 (JsonValue.string [ 'k']) (by decide) rfl
              rfl rfl (ReadsLiteral.string 15 9 (by decide) rfl)))))
  ⟨by decide, hr,
   (parse_malformed_string_rejected [StringItem.ordinary 'a'] (by decide)
      ("[1, \x7b\"k\": \"a\\x\"\x7d]").toList [ '\\', 'x', '"', '}', ']'] 10 rfl
      (Or.inr (Or.inr (Or.inr ⟨'x', [ '"', '}', ']'], rfl, by decide, by decide⟩)))).2.1 hr,
   (parse_malformed_string_rejected [StringItem.ordinary 'a', StringItem.escape 't']
      (by decide) [ ' ', '"', 'a', '\\', 't'] [] 1 rfl (Or.inl rfl)).2.2 rfl⟩

end JsonParser

end WebLog
